import Mathlib

/-! Rotating file output (pkg/file/file.go).

A shallow embedding of the rotating file writer and of the part of the Go
standard library it calls, followed by theorems about the embedded code.

A Go string is modelled by the list of its characters. Every character the
code searches for (the dot, the slash, the underscore, signs and digits) is
ASCII, and the byte order of UTF-8 text coincides with the order of its code
points, so searching and comparing lists of characters agrees with what Go
does on the bytes of well-formed text.

A Go int is modelled by an Int together with an explicit wrap to 64 bits
where the code does arithmetic.
-/

namespace PacketStreamer

/-- A Go string. -/
abbrev Str := List Char

/-! ## Standard library: integers -/

/-- Smallest value of a 64-bit int. -/
def minInt : Int := -9223372036854775808

/-- Largest value of a 64-bit int. -/
def maxInt : Int := 9223372036854775807

/-- Two's complement wrap of an integer result to the 64-bit int range. -/
def wrapInt (x : Int) : Int := (x + 9223372036854775808) % 18446744073709551616 - 9223372036854775808

/-- The decimal digit character of a number below ten. -/
def digitChar (d : Nat) : Char := Char.ofNat (48 + d)

/-- Decimal digits of n, most significant first, pushed in front of acc. -/
def natDigitsAux : Nat → Nat → List Char → List Char
  | 0, _, acc => acc
  | fuel + 1, n, acc =>
    if n < 10 then digitChar n :: acc
    else natDigitsAux fuel (n / 10) (digitChar (n % 10) :: acc)

/-- Decimal rendering of a natural number ("0" for zero, no leading zeros). -/
def natDigits (n : Nat) : List Char := natDigitsAux (n + 1) n []

/-- The function strconv.Itoa: decimal text of an int, with a minus sign when negative. -/
def Itoa (i : Int) : Str :=
  if i < 0 then '-' :: natDigits i.natAbs else natDigits i.natAbs

/-- Value of a decimal digit character, none for any other character. -/
def digitVal (c : Char) : Option Nat :=
  if 48 ≤ c.toNat ∧ c.toNat ≤ 57 then some (c.toNat - 48) else none

/-- Reads a run of decimal digits onto the accumulator; none at the first non-digit. -/
def parseDigitsAux : List Char → Nat → Option Nat
  | [], acc => some acc
  | c :: cs, acc =>
    match digitVal c with
    | none => none
    | some d => parseDigitsAux cs (acc * 10 + d)

/-- Reads a non-empty run of decimal digits. -/
def parseDigits (s : List Char) : Option Nat :=
  match s with
  | [] => none
  | _ => parseDigitsAux s 0

/-- The function strconv.Atoi; none stands for a non-nil error (bad syntax or a
value outside the int range). An optional sign is followed by decimal digits. -/
def Atoi (s : Str) : Option Int :=
  match s with
  | '-' :: rest =>
    match parseDigits rest with
    | none => none
    | some n => if n ≤ 9223372036854775808 then some (-(n : Int)) else none
  | '+' :: rest =>
    match parseDigits rest with
    | none => none
    | some n => if n ≤ 9223372036854775807 then some (n : Int) else none
  | _ =>
    match parseDigits s with
    | none => none
    | some n => if n ≤ 9223372036854775807 then some (n : Int) else none

/-! ## Standard library: strings and paths -/

/-- Scan of filepath.Ext over the reversed path: acc holds what was passed. -/
def extAux : List Char → List Char → List Char
  | [], _ => []
  | c :: rest, acc =>
    if c = '/' then []
    else if c = '.' then c :: acc
    else extAux rest (c :: acc)

/-- The function filepath.Ext: the suffix starting at the last dot of the last
path element, empty when that element has no dot. -/
def Ext (path : Str) : Str := extAux path.reverse []

/-- The function strings.TrimSuffix. -/
def TrimSuffix (s suffix : Str) : Str :=
  if suffix.isSuffixOf s then s.take (s.length - suffix.length) else s

/-- Left to right scan keeping the position of the last occurrence seen. -/
def lastIndexAux (c : Char) : List Char → Nat → Int → Int
  | [], _, best => best
  | x :: xs, i, best => lastIndexAux c xs (i + 1) (if x = c then (i : Int) else best)

/-- The function strings.LastIndex for a one-character separator: position
of its last occurrence, -1 when absent. -/
def LastIndex (s : Str) (c : Char) : Int := lastIndexAux c s 0 (-1)

/-- The Go slice s[:i]. -/
def sliceTo (s : Str) (i : Int) : Str := s.take i.toNat

/-- The Go slice s[i:]. -/
def sliceFrom (s : Str) (i : Int) : Str := s.drop i.toNat

/-- Go comparison of two strings with the operator <. -/
def strLess : Str → Str → Bool
  | [], [] => false
  | [], _ :: _ => true
  | _ :: _, [] => false
  | a :: as, b :: bs =>
    if a.toNat < b.toNat then true
    else if b.toNat < a.toNat then false
    else strLess as bs

/-! ## pkg/file/file.go: names and indices -/

/-- Go: withoutIndex. -/
def withoutIndex (s : Str) : Str :=
  let i := LastIndex s '_'
  if i ≠ -1 then sliceTo s i else s

/-- Go: setFileIndex. -/
def setFileIndex (name : Str) (idx : Int) : Str :=
  let idxS := Itoa idx
  let ext := Ext name
  let withoutExt := TrimSuffix name ext
  let i := LastIndex withoutExt '_'
  let withoutExt :=
    if i ≠ -1 then
      match Atoi (sliceFrom withoutExt (i + 1)) with
      | some _ => sliceTo withoutExt i
      | none => withoutExt
    else withoutExt
  withoutExt ++ '_' :: idxS ++ ext

/-- Go: getFileIndex. -/
def getFileIndex (name : Str) : Int :=
  let ext := Ext name
  let withoutExt := TrimSuffix name ext
  let idx := LastIndex withoutExt '_'
  if idx ≠ -1 then
    match Atoi (sliceFrom withoutExt (idx + 1)) with
    | some i => i
    | none => -1
  else -1

/-- The text that setFileIndex keeps in front of the index it writes: the name
without its extension and without an index it already carries. -/
def stem (name : Str) : Str :=
  let withoutExt := TrimSuffix name (Ext name)
  let i := LastIndex withoutExt '_'
  if i ≠ -1 then
    match Atoi (sliceFrom withoutExt (i + 1)) with
    | some _ => sliceTo withoutExt i
    | none => withoutExt
  else withoutExt

/-- A decimal digit character. -/
def IsDigit (c : Char) : Prop := 48 ≤ c.toNat ∧ c.toNat ≤ 57

/-- The text E is what filepath.Ext finds behind any name that starts with x and
goes on without dot or slash: either E is empty and x has no extension, or E
is a dot followed by text without dot or slash. -/
def ExtOf (x E : Str) : Prop :=
  (E = [] ∧ Ext x = []) ∨ (∃ e, E = '.' :: e ∧ '.' ∉ e ∧ '/' ∉ e)

/-- Go: sortByFileIndex.Less, on the two elements it compares. -/
def sortByFileIndex.Less (a b : Str) : Bool :=
  if withoutIndex a = withoutIndex b then
    decide (getFileIndex a < getFileIndex b)
  else strLess a b


/-! ## Standard library: sorting, globbing, cleaning

The library routines whose result depends on more than the text of their
argument are gathered in a record, so that the writer is embedded once and
the theorems hold for every routine that keeps the library's contract. -/

/-- Library routines the writer calls. The field sortSort stands for
sort.Sort applied to a sortByFileIndex slice, and Match for filepath.Match,
where none stands for the error ErrBadPattern. -/
structure Lib where
  sortSort : List Str → List Str
  Match : Str → Str → Option Bool

/-- One insertion step of Go's insertionSort, on the reversed sorted prefix:
the new element moves left while it is Less than its left neighbour. -/
def insertBack (x : Str) : List Str → List Str
  | [] => [x]
  | y :: ys => if sortByFileIndex.Less x y then y :: insertBack x ys else x :: y :: ys

/-- Go's insertionSort over a sortByFileIndex slice; sort.Sort runs exactly
this on slices of at most 12 elements (at most 6 before Go 1.19). -/
def insertionSort (l : List Str) : List Str :=
  (l.foldl (fun rev x => insertBack x rev) []).reverse

/-- Pattern metacharacters of filepath.Match. -/
def isMeta (c : Char) : Bool := c = '*' || c = '?' || c = '[' || c = '\\'

/-- What filepath.Match answers for a pattern made of the literal text pre, one
star and the literal text post: the name is pre, then some text without a
slash, then post. -/
def starMatch (pre post name : Str) : Bool :=
  pre.isPrefixOf name && decide (pre.length + post.length ≤ name.length) &&
    post.isSuffixOf name &&
    !((name.drop pre.length).take (name.length - pre.length - post.length)).contains '/'

/-- Pattern matcher that reads the pattern as literal text around its first
star; it is filepath.Match on the patterns that have one star and no other
metacharacter. -/
def literalMatch (pattern name : Str) : Option Bool :=
  some (starMatch (pattern.takeWhile (fun c => c ≠ '*'))
    ((pattern.dropWhile (fun c => c ≠ '*')).drop 1) name)

/-- The library as it behaves on short listings and literal patterns. -/
def goLib : Lib := ⟨insertionSort, literalMatch⟩

/-- The contract of sort.Sort and filepath.Match that the theorems rely on:
sorting permutes its input, it leaves no later element Less than an earlier
one whenever Less orders the elements consistently (the negation of Less is
transitive on them), and a pattern of literal text around one star matches
as starMatch says. -/
def Lib.Lawful (L : Lib) : Prop :=
  (∀ l, List.Perm (L.sortSort l) l) ∧
  (∀ l, (∀ a ∈ l, ∀ b ∈ l, ∀ c ∈ l, sortByFileIndex.Less b a = false →
      sortByFileIndex.Less c b = false → sortByFileIndex.Less c a = false) →
    List.Pairwise (fun a b => sortByFileIndex.Less b a = false) (L.sortSort l)) ∧
  (∀ pre post name, (∀ c ∈ pre, isMeta c = false) → (∀ c ∈ post, isMeta c = false) →
    L.Match (pre ++ '*' :: post) name = some (starMatch pre post name))

/-- Splits a path at its slashes; cur is the reversed element being read. -/
def splitAux : List Char → List Char → List Str
  | [], cur => [cur.reverse]
  | c :: cs, cur => if c = '/' then cur.reverse :: splitAux cs [] else splitAux cs (c :: cur)

/-- The elements of a path between its slashes. -/
def pathElems (path : Str) : List Str := splitAux path []

/-- The element loop of filepath.Clean; out is the reversed list of kept
elements. Empty and dot elements are dropped, a dot-dot element removes the
element before it, or is kept when the path is not rooted and nothing but
dot-dot elements precede it. -/
def cleanElems (rooted : Bool) : List Str → List Str → List Str
  | [], out => out.reverse
  | e :: es, out =>
    if e = [] ∨ e = ['.'] then cleanElems rooted es out
    else if e = ['.', '.'] then
      match out with
      | [] => if rooted then cleanElems rooted es [] else cleanElems rooted es [e]
      | top :: below =>
        if top = ['.', '.'] then cleanElems rooted es (e :: out)
        else cleanElems rooted es below
    else cleanElems rooted es (e :: out)

/-- Joins path elements with slashes. -/
def joinElems : List Str → Str
  | [] => []
  | [e] => e
  | e :: es => e ++ '/' :: joinElems es

/-- The function filepath.Clean on a system whose separator is the slash. -/
def Clean (path : Str) : Str :=
  if path = [] then ['.']
  else
    let rooted := decide (path.head? = some '/')
    let body := joinElems (cleanElems rooted (pathElems path) [])
    if rooted then '/' :: body
    else if body = [] then ['.'] else body

/-! ## The disk -/

/-- Regular files on disk: cleaned path and content. -/
abbrev Disk := List (Str × Str)

/-- Paths of the files on disk. -/
def Disk.names (d : Disk) : List Str := d.map Prod.fst

/-- Content of a file, none when it does not exist. -/
def Disk.read (d : Disk) (name : Str) : Option Str :=
  match d with
  | [] => none
  | e :: rest => if e.1 = name then some e.2 else Disk.read rest name

/-- Effect of os.OpenFile with O_WRONLY, O_CREATE and O_TRUNC: the file exists
afterwards and is empty. -/
def Disk.create (d : Disk) (name : Str) : Disk :=
  (name, []) :: d.filter (fun e => decide (e.1 ≠ name))

/-- Effect of writing bytes through the handle of the named file. -/
def Disk.append (d : Disk) (name : Str) (bytes : Str) : Disk :=
  d.map (fun e => if e.1 = name then (e.1, e.2 ++ bytes) else e)

/-- Ordered insertion for sort.Strings. -/
def insertStr (x : Str) : List Str → List Str
  | [] => [x]
  | y :: ys => if strLess y x then y :: insertStr x ys else x :: y :: ys

/-- The function sort.Strings. -/
def sortStrings (l : List Str) : List Str := l.foldr insertStr []

/-- The matching loop of filepath.Glob over directory entries. -/
def globCollect (L : Lib) (pattern : Str) : List Str → Option (List Str)
  | [] => some []
  | n :: ns =>
    match L.Match pattern n with
    | none => none
    | some matched =>
      match globCollect L pattern ns with
      | none => none
      | some m => some (if matched then n :: m else m)

/-- The function filepath.Glob: none stands for ErrBadPattern. The pattern is
first checked against the empty name, then the entries are taken in the order
of sort.Strings. The disk lists files under their cleaned paths, so the model
is the library on patterns whose directory part is literal and clean. -/
def Glob (L : Lib) (d : Disk) (pattern : Str) : Option (List Str) :=
  match L.Match pattern [] with
  | none => none
  | some _ => globCollect L pattern (sortStrings d.names)

/-! ## pkg/file/file.go: the writer -/

/-- Go: FileOutput. The handle o.file is modelled by the name it was opened
under (what o.file.Name() returns), none for nil; sizeLimit is the value of
int(o.config.SizeLimit). -/
structure FileOutput where
  pathTemplate : Str
  currentName : Str
  currentFileSize : Int
  file : Option Str
  writer : Option Str
  sizeLimit : Int
  closed : Bool
deriving DecidableEq

/-- Go: NewFileOutput. -/
def NewFileOutput (path : Str) (sizeLimit : Int) : FileOutput :=
  ⟨path, [], 0, none, none, sizeLimit, false⟩

/-- Go: FileOutput.filename. The argument glob is the answer of the file
system to filepath.Glob. A sort that keeps its contract returns as many files
as it was given, so the last element of a non-empty listing exists. -/
def FileOutput.filename (L : Lib) (o : FileOutput) (glob : Str → Option (List Str)) : Str :=
  let path := o.pathTemplate
  let nextChunk : Bool :=
    decide (o.currentName = []) ||
      (decide (o.sizeLimit > 0) && decide (o.currentFileSize ≥ o.sizeLimit))
  let ext := Ext path
  let withoutExt := TrimSuffix path ext
  match glob (withoutExt ++ '*' :: ext) with
  | some found =>
    if found.length = 0 then setFileIndex path 0
    else
      let sorted := L.sortSort found
      let last := sorted.getLastD []
      let idx := getFileIndex last
      let fileIndex : Int :=
        if idx ≠ -1 then (if nextChunk then wrapInt (idx + 1) else idx) else 0
      setFileIndex last fileIndex
  | none => path

/-- Go: FileOutput.updateName. -/
def FileOutput.updateName (L : Lib) (o : FileOutput) (d : Disk) : FileOutput :=
  { o with currentName := Clean (o.filename L (Glob L d)) }

/-- Go: FileOutput.closeLocked (closing the handle changes no field). -/
def FileOutput.closeLocked (o : FileOutput) : FileOutput :=
  { o with closed := true, currentFileSize := 0 }

/-- What the operating system does during one call of Write: whether
os.OpenFile succeeds, and how many bytes the file write accepts at most. -/
structure OSEvents where
  openOk : Bool
  accepted : Nat
deriving DecidableEq

/-- An operating system that opens every file and writes every byte. -/
def allOk (p : Str) : OSEvents := ⟨true, p.length⟩

/-- How a call of Write ends: the process is terminated by log.Fatal, or the
call returns n and an error flag (true for a non-nil error). -/
inductive WriteResult where
  | fatal (o : FileOutput) (d : Disk)
  | returned (o : FileOutput) (d : Disk) (n : Int) (err : Bool)
deriving DecidableEq

/-- Go: FileOutput.Write. -/
def FileOutput.Write (L : Lib) (o : FileOutput) (d : Disk) (ev : OSEvents) (p : Str) :
    WriteResult :=
  let o := o.updateName L d
  let reopen : Bool := decide (o.file = none) || decide (o.file ≠ some o.currentName)
  let o1 := if reopen then o.closeLocked else o
  if reopen && !ev.openOk then
    WriteResult.fatal { o1 with file := none, writer := none } d
  else
    let o2 := if reopen then { o1 with file := some o.currentName, writer := some o.currentName } else o1
    let d2 := if reopen then d.create o.currentName else d
    let n := min ev.accepted p.length
    let d3 := match o2.writer with
      | some h => d2.append h (p.take n)
      | none => d2
    WriteResult.returned { o2 with currentFileSize := wrapInt (o2.currentFileSize + n) } d3 n
      (decide (n < p.length))

/-- The writer and disk after a run of Write calls, each with what the
operating system does during it; none when a call does not return. -/
def runWrites (L : Lib) : FileOutput → Disk → List (OSEvents × Str) → Option (FileOutput × Disk)
  | o, d, [] => some (o, d)
  | o, d, c :: cs =>
    match o.Write L d c.1 c.2 with
    | WriteResult.returned o1 d1 _ _ => runWrites L o1 d1 cs
    | WriteResult.fatal _ _ => none

/-- Write calls that the operating system serves in full. -/
def fullCalls (ps : List Str) : List (OSEvents × Str) := ps.map (fun p => (allOk p, p))

/-- The writer and disk after a run of Write calls served in full. -/
def writeAll (L : Lib) (o : FileOutput) (d : Disk) (ps : List Str) : Option (FileOutput × Disk) :=
  runWrites L o d (fullCalls ps)

/-! ## Vocabulary of the statements -/

/-- The base of a template: the template without its extension. -/
def baseOf (template : Str) : Str := TrimSuffix template (Ext template)

/-- The pattern that filename hands to filepath.Glob. -/
def globPattern (template : Str) : Str := baseOf template ++ '*' :: Ext template

/-- The name base_i.ext of the template base.ext. -/
def indexedName (template : Str) (i : Int) : Str :=
  baseOf template ++ '_' :: Itoa i ++ Ext template

/-- The rotation decision of filename (the variable nextChunk). -/
def FileOutput.nextChunk (o : FileOutput) : Bool :=
  decide (o.currentName = []) ||
    (decide (o.sizeLimit > 0) && decide (o.currentFileSize ≥ o.sizeLimit))

/-- The file that filename takes from a listing: the last one after sorting. -/
def lastOf (L : Lib) (found : List Str) : Str := (L.sortSort found).getLastD []

/-- The index that filename writes into the name of the file it took from a
non-empty listing. -/
def targetIndex (o : FileOutput) (last : Str) : Int :=
  if getFileIndex last ≠ -1 then
    (if o.nextChunk then wrapInt (getFileIndex last + 1) else getFileIndex last)
  else 0

/-- The path that Write opens: the cleaned result of filename. -/
def FileOutput.target (L : Lib) (o : FileOutput) (d : Disk) : Str :=
  Clean (o.filename L (Glob L d))

/-- A template the numbering scheme is made for: it has no pattern
metacharacter, no underscore in its extension, no index of its own (setFileIndex
strips nothing from its base), and it is a cleaned path. -/
def PlainTemplate (t : Str) : Prop :=
  (∀ c ∈ t, isMeta c = false) ∧ '_' ∉ Ext t ∧ stem t = baseOf t ∧ Clean t = t

/-- Every file on disk that matches the pattern of the template is base_i.ext
for some i with 0 <= i < N. -/
def OwnFiles (t : Str) (d : Disk) (N : Nat) : Prop :=
  ∀ x ∈ d.names, starMatch (baseOf t) (Ext t) x = true →
    ∃ i : Nat, i < N ∧ x = indexedName t (i : Int)

/-- Content of a file, empty when it does not exist. -/
def Disk.content (d : Disk) (name : Str) : Str := (d.read name).getD []

/-- The writer holds file number m of the template open, that file is on disk,
and every file on disk that matches the template is base_i.ext with i <= m. -/
def Tracking (t : Str) (lim : Int) (o : FileOutput) (d : Disk) (m : Nat) : Prop :=
  o.pathTemplate = t ∧ o.sizeLimit = lim ∧ o.file = some (indexedName t (m : Int)) ∧
    o.writer = some (indexedName t (m : Int)) ∧ o.currentName = indexedName t (m : Int) ∧
    indexedName t (m : Int) ∈ d.names ∧ OwnFiles t d (m + 1)

/-- Contents of base_0.ext, ..., base_m.ext, concatenated in ascending index order. -/
def chain (t : Str) (d : Disk) : Nat → Str
  | 0 => d.content (indexedName t (0 : Nat))
  | m + 1 => chain t d m ++ d.content (indexedName t ((m + 1 : Nat) : Int))

/-- All buffers concatenated in call order. -/
def concatAll : List Str → Str
  | [] => []
  | p :: ps => p ++ concatAll ps

/-- Total length of path elements, counting one separator for each. -/
def weight (es : List Str) : Nat := (es.map (fun e => e.length + 1)).sum

/-- A path element that filepath.Clean keeps as it is: no slash, not empty, not
dot and not dot-dot. -/
def PlainElem (f : Str) : Prop := '/' ∉ f ∧ f ≠ [] ∧ f ≠ ['.'] ∧ f ≠ ['.', '.']

/-- The text a cleaned path has in front of its last element, given the kept
elements st (last one first) of what precedes it. -/
def cleanDir (rooted : Bool) (st : List Str) : Str :=
  (if rooted then ['/'] else []) ++ (if st = [] then [] else joinElems st.reverse ++ ['/'])

/-- Everything a call of closeLocked does: the writer after it, whether it
called Close on the handle, and the error it returns (none for nil). -/
structure CloseOutcome where
  after : FileOutput
  closeCalled : Bool
  err : Option Str
deriving DecidableEq

/-- Go: FileOutput.closeLocked as a call. Close is called when o.file is not
nil, the fields closed and currentFileSize are set, and nil is returned. -/
def FileOutput.closeLockedCall (o : FileOutput) : CloseOutcome :=
  ⟨o.closeLocked, decide (o.file ≠ none), none⟩


/-! ## Concurrent calls of Write

The writer embeds a sync.RWMutex. A call of Write holds it three times and
gives it up in between: filename holds the read lock while it resolves the
name (lines 88-89), updateName holds the lock for the assignment to
currentName only (lines 128-130), and Write holds it from line 135 until it
returns. The mutex keeps every other holder out of the second and the third
stretch, and keeps those two out of the first, which only reads; so a run of
concurrent calls on one writer is a sequence of such stretches, each taken
from one of the calls. -/

/-- Go: FileOutput.Write from o.Lock() on (lines 135-151), what Write does
under the lock once updateName has returned. -/
def FileOutput.writeLocked (o : FileOutput) (d : Disk) (ev : OSEvents) (p : Str) :
    WriteResult :=
  let reopen : Bool := decide (o.file = none) || decide (o.file ≠ some o.currentName)
  let o1 := if reopen then o.closeLocked else o
  if reopen && !ev.openOk then
    WriteResult.fatal { o1 with file := none, writer := none } d
  else
    let o2 := if reopen then { o1 with file := some o.currentName, writer := some o.currentName } else o1
    let d2 := if reopen then d.create o.currentName else d
    let n := min ev.accepted p.length
    let d3 := match o2.writer with
      | some h => d2.append h (p.take n)
      | none => d2
    WriteResult.returned { o2 with currentFileSize := wrapInt (o2.currentFileSize + n) } d3 n
      (decide (n < p.length))

/-- Where a call of Write stands between two holds of the mutex: it was
called; filename has returned and the cleaned name is in the local variable
name of updateName; updateName has stored the name and returned; Write has
returned n and an error flag. -/
inductive CallState where
  | called
  | resolved (name : Str)
  | stored
  | returned (n : Int) (err : Bool)
deriving DecidableEq

/-- One call of Write on the shared writer: its buffer, what the operating
system does during it, and where it stands. -/
structure Call where
  ev : OSEvents
  p : Str
  state : CallState
deriving DecidableEq

/-- The shared writer, the disk, and the calls of Write under way. -/
structure Sys where
  o : FileOutput
  d : Disk
  calls : List Call
deriving DecidableEq

/-- The next hold of the mutex by one call: filename under the read lock
(lines 87-124, cleaned at line 127), then the assignment of updateName (lines
128-130), then the body of Write (lines 135-151). None when the call has
returned already or is ended by log.Fatal. -/
def Call.step (L : Lib) (o : FileOutput) (d : Disk) (c : Call) :
    Option (FileOutput × Disk × Call) :=
  match c.state with
  | CallState.called =>
    some (o, d, { c with state := CallState.resolved (Clean (o.filename L (Glob L d))) })
  | CallState.resolved name =>
    some ({ o with currentName := name }, d, { c with state := CallState.stored })
  | CallState.stored =>
    match o.writeLocked d c.ev c.p with
    | WriteResult.returned o1 d1 n err =>
      some (o1, d1, { c with state := CallState.returned n err })
    | WriteResult.fatal _ _ => none
  | CallState.returned _ _ => none

/-- Call number i takes the mutex next. -/
def Sys.step (L : Lib) (s : Sys) (i : Nat) : Option Sys :=
  match s.calls.get? i with
  | none => none
  | some c =>
    match c.step L s.o s.d with
    | none => none
    | some (o1, d1, c1) => some ⟨o1, d1, s.calls.set i c1⟩

/-- A run of concurrent calls: the schedule lists, hold by hold, which call
takes the mutex. -/
def runSchedule (L : Lib) : Sys → List Nat → Option Sys
  | s, [] => some s
  | s, i :: rest =>
    match s.step L i with
    | none => none
    | some s1 => runSchedule L s1 rest

/-- Concurrent calls of Write, none of which has taken the mutex yet. -/
def concurrentWrites (o : FileOutput) (d : Disk) (cs : List (OSEvents × Str)) : Sys :=
  ⟨o, d, cs.map (fun c => ⟨c.1, c.2, CallState.called⟩)⟩

/-- The schedule that runs the calls one after the other in the given order,
the three holds of each call together. -/
def unitSchedule : List Nat → List Nat
  | [] => []
  | i :: rest => i :: i :: i :: unitSchedule rest

/-- Whether every call's resolution, store and write stand together in the
schedule, with no hold of another call between them. -/
def runsAsUnits : List Nat → Bool
  | [] => true
  | a :: b :: c :: rest => decide (a = b) && decide (b = c) && runsAsUnits rest
  | _ => false

/-- Number of bytes on disk. -/
def Disk.bytes (d : Disk) : Nat := (d.map (fun f => f.2.length)).sum

/-! ## Decimal text -/

theorem digitChar_toNat (d : Nat) (h : d < 10) : (digitChar d).toNat = 48 + d := by
  interval_cases d <;> rfl

theorem digitVal_digitChar (d : Nat) (h : d < 10) : digitVal (digitChar d) = some d := by
  interval_cases d <;> rfl

theorem isDigit_digitChar (d : Nat) (h : d < 10) : IsDigit (digitChar d) := by
  unfold IsDigit
  rw [digitChar_toNat d h]
  omega

theorem natDigitsAux_eq (n : Nat) : ∀ fuel acc, n < fuel →
    natDigitsAux fuel n acc = natDigitsAux (n + 1) n [] ++ acc := by
  induction n using Nat.strong_induction_on with
  | _ n ih =>
    intro fuel acc hlt
    obtain ⟨f, rfl⟩ : ∃ f, fuel = f + 1 := ⟨fuel - 1, by omega⟩
    by_cases h10 : n < 10
    · simp [natDigitsAux, h10]
    · have hdiv : n / 10 < n := Nat.div_lt_self (by omega) (by omega)
      have e1 : natDigitsAux (f + 1) n acc
          = natDigitsAux f (n / 10) (digitChar (n % 10) :: acc) := by
        simp [natDigitsAux, h10]
      have e2 : natDigitsAux (n + 1) n []
          = natDigitsAux n (n / 10) [digitChar (n % 10)] := by
        simp [natDigitsAux, h10]
      rw [e1, e2, ih (n / 10) hdiv f _ (by omega), ih (n / 10) hdiv n _ hdiv]
      simp

theorem natDigits_lt (n : Nat) (h : n < 10) : natDigits n = [digitChar n] := by
  simp [natDigits, natDigitsAux, h]

theorem natDigits_ge (n : Nat) (h : ¬ n < 10) :
    natDigits n = natDigits (n / 10) ++ [digitChar (n % 10)] := by
  have hdiv : n / 10 < n := Nat.div_lt_self (by omega) (by omega)
  have e2 : natDigitsAux (n + 1) n []
      = natDigitsAux n (n / 10) [digitChar (n % 10)] := by
    simp [natDigitsAux, h]
  unfold natDigits
  rw [e2, natDigitsAux_eq (n / 10) n _ hdiv]

theorem natDigits_isDigit (n : Nat) : ∀ c ∈ natDigits n, IsDigit c := by
  induction n using Nat.strong_induction_on with
  | _ n ih =>
    by_cases h10 : n < 10
    · rw [natDigits_lt n h10]
      intro c hc
      simp at hc
      subst hc
      exact isDigit_digitChar n h10
    · rw [natDigits_ge n h10]
      intro c hc
      rcases List.mem_append.mp hc with h | h
      · exact ih (n / 10) (Nat.div_lt_self (by omega) (by omega)) c h
      · simp at h
        subst h
        exact isDigit_digitChar _ (Nat.mod_lt _ (by omega))

theorem natDigits_ne_nil (n : Nat) : natDigits n ≠ [] := by
  by_cases h10 : n < 10
  · rw [natDigits_lt n h10]; simp
  · rw [natDigits_ge n h10]; simp

theorem parseDigitsAux_append (ds rest : List Char) : ∀ acc,
    parseDigitsAux (ds ++ rest) acc
      = (parseDigitsAux ds acc).bind (fun a => parseDigitsAux rest a) := by
  induction ds with
  | nil => intro acc; simp [parseDigitsAux]
  | cons c cs ih =>
    intro acc
    simp only [List.cons_append, parseDigitsAux]
    cases digitVal c with
    | none => simp
    | some d => simp [ih]

theorem parseDigitsAux_natDigits (n : Nat) :
    parseDigitsAux (natDigits n) 0 = some n := by
  induction n using Nat.strong_induction_on with
  | _ n ih =>
    by_cases h10 : n < 10
    · rw [natDigits_lt n h10]
      simp [parseDigitsAux, digitVal_digitChar n h10]
    · rw [natDigits_ge n h10, parseDigitsAux_append,
        ih (n / 10) (Nat.div_lt_self (by omega) (by omega))]
      simp [parseDigitsAux, digitVal_digitChar _ (Nat.mod_lt n (by omega : 10 > 0))]
      omega

theorem parseDigits_natDigits (n : Nat) : parseDigits (natDigits n) = some n := by
  have hne := natDigits_ne_nil n
  unfold parseDigits
  split
  · contradiction
  · exact parseDigitsAux_natDigits n

theorem isDigit_ne (c : Char) (h : IsDigit c) : c ≠ '-' ∧ c ≠ '+' ∧ c ≠ '_' ∧ c ≠ '.' ∧ c ≠ '/' := by
  unfold IsDigit at h
  refine ⟨?_, ?_, ?_, ?_, ?_⟩ <;> (intro he; subst he; revert h; decide)

theorem Atoi_natDigits (n : Nat) (h : n ≤ 9223372036854775807) :
    Atoi (natDigits n) = some (n : Int) := by
  have hp := parseDigits_natDigits n
  obtain ⟨c, cs, hcs⟩ : ∃ c cs, natDigits n = c :: cs := by
    cases hd : natDigits n with
    | nil => exact absurd hd (natDigits_ne_nil n)
    | cons c cs => exact ⟨c, cs, rfl⟩
  have hc : IsDigit c := natDigits_isDigit n c (by rw [hcs]; simp)
  have hne := isDigit_ne c hc
  rw [hcs] at hp ⊢
  unfold Atoi
  split
  · rename_i heq; simp at heq; exact absurd heq.1 hne.1
  · rename_i heq; simp at heq; exact absurd heq.1 hne.2.1
  · simp [hp, h]

theorem Atoi_Itoa (i : Int) (hlo : minInt ≤ i) (hhi : i ≤ maxInt) : Atoi (Itoa i) = some i := by
  unfold minInt at hlo
  unfold maxInt at hhi
  unfold Itoa
  by_cases hneg : i < 0
  · simp only [hneg, if_true]
    unfold Atoi
    simp only [parseDigits_natDigits]
    have : i.natAbs ≤ 9223372036854775808 := by omega
    simp only [this, if_true]
    congr 1
    omega
  · simp only [hneg, if_false]
    rw [Atoi_natDigits _ (by omega)]
    congr 1
    omega

theorem Itoa_chars (i : Int) : ∀ c ∈ Itoa i, c ≠ '_' ∧ c ≠ '.' ∧ c ≠ '/' := by
  intro c hc
  unfold Itoa at hc
  have key : ∀ c ∈ natDigits i.natAbs, c ≠ '_' ∧ c ≠ '.' ∧ c ≠ '/' := by
    intro c hc
    have := isDigit_ne c (natDigits_isDigit _ c hc)
    exact ⟨this.2.2.1, this.2.2.2.1, this.2.2.2.2⟩
  split at hc
  · rcases List.mem_cons.mp hc with h | h
    · subst h; decide
    · exact key c h
  · exact key c hc

theorem wrapInt_of_range (x : Int) (hlo : minInt ≤ x) (hhi : x ≤ maxInt) : wrapInt x = x := by
  unfold minInt at hlo
  unfold maxInt at hhi
  unfold wrapInt
  omega

theorem wrapInt_range (x : Int) : minInt ≤ wrapInt x ∧ wrapInt x ≤ maxInt := by
  unfold minInt maxInt wrapInt
  omega


/-! ## Searching and cutting strings -/

theorem lastIndexAux_notMem (c : Char) : ∀ (xs : List Char) (i : Nat) (best : Int),
    c ∉ xs → lastIndexAux c xs i best = best := by
  intro xs
  induction xs with
  | nil => intro i best _; rfl
  | cons x xs ih =>
    intro i best h
    have hx : x ≠ c := fun e => h (by simp [e])
    have hxs : c ∉ xs := fun e => h (by simp [e])
    simp [lastIndexAux, hx, ih _ _ hxs]

theorem lastIndexAux_append (c : Char) (t : List Char) (ht : c ∉ t) :
    ∀ (w : List Char) (i : Nat) (best : Int),
      lastIndexAux c (w ++ c :: t) i best = ((i + w.length : Nat) : Int) := by
  intro w
  induction w with
  | nil =>
    intro i best
    simp [lastIndexAux, lastIndexAux_notMem c t _ _ ht]
  | cons x xs ih =>
    intro i best
    show lastIndexAux c (xs ++ c :: t) (i + 1) (if x = c then (i : Int) else best) = _
    rw [ih]
    simp only [List.length_cons]
    push_cast
    omega

theorem LastIndex_append (c : Char) (w t : List Char) (ht : c ∉ t) :
    LastIndex (w ++ c :: t) c = (w.length : Int) := by
  unfold LastIndex
  rw [lastIndexAux_append c t ht]
  simp

theorem LastIndex_notMem (c : Char) (s : List Char) (h : c ∉ s) : LastIndex s c = -1 :=
  lastIndexAux_notMem c s 0 (-1) h

theorem last_split (c : Char) (s : List Char) :
    c ∉ s ∨ ∃ w t, s = w ++ c :: t ∧ c ∉ t := by
  induction s with
  | nil => left; simp
  | cons x xs ih =>
    rcases ih with h | ⟨w, t, hs, ht⟩
    · by_cases hx : x = c
      · right; exact ⟨[], xs, by simp [hx], h⟩
      · left
        simp only [List.mem_cons, not_or]
        exact ⟨fun e => hx e.symm, h⟩
    · right; exact ⟨x :: w, t, by simp [hs], ht⟩

theorem sliceTo_append (w : List Char) (c : Char) (t : List Char) :
    sliceTo (w ++ c :: t) (w.length : Int) = w := by
  simp [sliceTo]

theorem sliceFrom_append (w : List Char) (c : Char) (t : List Char) :
    sliceFrom (w ++ c :: t) ((w.length : Int) + 1) = t := by
  have : ((w.length : Int) + 1).toNat = w.length + 1 := by omega
  simp [sliceFrom, this]

theorem TrimSuffix_append (x e : List Char) : TrimSuffix (x ++ e) e = x := by
  unfold TrimSuffix
  have h : e.isSuffixOf (x ++ e) = true := by
    rw [List.isSuffixOf_iff_suffix]
    exact List.suffix_append x e
  simp [h]

theorem extAux_pass (u : List Char) : (∀ c ∈ u, c ≠ '/' ∧ c ≠ '.') →
    ∀ r acc, extAux (u.reverse ++ r) acc = extAux r (u ++ acc) := by
  induction u with
  | nil => intro _ r acc; rfl
  | cons x xs ih =>
    intro hu r acc
    have hx := hu x (by simp)
    have hxs : ∀ c ∈ xs, c ≠ '/' ∧ c ≠ '.' := fun c hc => hu c (by simp [hc])
    rw [List.reverse_cons, List.append_assoc]
    simp only [List.singleton_append]
    rw [ih hxs (x :: r) acc]
    simp [extAux, hx.1, hx.2]

theorem extAux_acc : ∀ (r acc : List Char),
    extAux r acc = if extAux r [] = [] then [] else extAux r [] ++ acc := by
  intro r
  induction r with
  | nil => intro acc; simp [extAux]
  | cons c rest ih =>
    intro acc
    by_cases h1 : c = '/'
    · simp [extAux, h1]
    · by_cases h2 : c = '.'
      · simp [extAux, h2]
      · simp only [extAux, h1, h2, if_false]
        rw [ih (c :: acc), ih [c]]
        by_cases h3 : extAux rest [] = []
        · simp [h3]
        · simp [h3]


/-! ## Extensions and indexed names -/

theorem Ext_dot (x e : List Char) (h1 : '.' ∉ e) (h2 : '/' ∉ e) :
    Ext (x ++ '.' :: e) = '.' :: e := by
  unfold Ext
  rw [List.reverse_append, List.reverse_cons, List.append_assoc]
  rw [extAux_pass e (fun c hc => ⟨fun h => h2 (h ▸ hc), fun h => h1 (h ▸ hc)⟩)]
  simp [extAux]

theorem Ext_append_clean (w u : List Char) (hu : ∀ c ∈ u, c ≠ '/' ∧ c ≠ '.') :
    Ext (w ++ u) = if Ext w = [] then [] else Ext w ++ u := by
  unfold Ext
  rw [List.reverse_append, extAux_pass u hu, extAux_acc]
  simp

theorem extAux_spec : ∀ (r acc : List Char), extAux r acc = [] ∨
    ∃ e x, r = e.reverse ++ '.' :: x ∧ extAux r acc = '.' :: (e ++ acc) ∧
      (∀ c ∈ e, c ≠ '/' ∧ c ≠ '.') := by
  intro r
  induction r with
  | nil => intro acc; left; rfl
  | cons c rest ih =>
    intro acc
    by_cases h1 : c = '/'
    · left; simp [extAux, h1]
    · by_cases h2 : c = '.'
      · right
        exact ⟨[], rest, by simp [h2], by simp [extAux, h2], by simp⟩
      · rcases ih (c :: acc) with h | ⟨e, x, hr, he, hc⟩
        · left; simp [extAux, h1, h2, h]
        · right
          refine ⟨e ++ [c], x, by simp [hr], by simp [extAux, h1, h2, he], ?_⟩
          intro a ha
          rcases List.mem_append.mp ha with h | h
          · exact hc a h
          · simp at h; subst h; exact ⟨h1, h2⟩

theorem Ext_spec (path : List Char) : Ext path = [] ∨
    ∃ x e, path = x ++ '.' :: e ∧ Ext path = '.' :: e ∧ '.' ∉ e ∧ '/' ∉ e := by
  rcases extAux_spec path.reverse [] with h | ⟨e, x, hr, he, hc⟩
  · left; exact h
  · right
    refine ⟨x.reverse, e, ?_, by simpa [Ext] using he, fun h => (hc _ h).2 rfl,
      fun h => (hc _ h).1 rfl⟩
    have := congrArg List.reverse hr
    simpa using this

theorem Ext_nil_of_append (w u : List Char) (hu : '/' ∉ u) (h : Ext (w ++ u) = []) :
    Ext w = [] ∧ '.' ∉ u := by
  have hdot : '.' ∉ u := by
    intro hmem
    rcases last_split '.' u with hn | ⟨a, b, hab, hb⟩
    · exact hn hmem
    · have hb2 : '/' ∉ b := fun hx => hu (by rw [hab]; simp [hx])
      have := Ext_dot (w ++ a) b hb hb2
      rw [List.append_assoc, ← hab, h] at this
      exact absurd this (by simp)
  refine ⟨?_, hdot⟩
  have hclean : ∀ c ∈ u, c ≠ '/' ∧ c ≠ '.' :=
    fun c hc => ⟨fun e => hu (e ▸ hc), fun e => hdot (e ▸ hc)⟩
  rw [Ext_append_clean w u hclean] at h
  by_contra hne
  simp [hne] at h

theorem TrimSuffix_nil (s : List Char) : TrimSuffix s [] = s := by
  simpa using TrimSuffix_append s []

theorem name_split (name : List Char) : TrimSuffix name (Ext name) ++ Ext name = name := by
  rcases Ext_spec name with h | ⟨x, e, hx, he, _, _⟩
  · rw [h, TrimSuffix_nil]; simp
  · rw [he]
    conv_lhs => rw [hx]
    rw [TrimSuffix_append]
    exact hx.symm

theorem Ext_of_ExtOf (x u E : List Char) (h : ExtOf x E) (hu : ∀ c ∈ u, c ≠ '/' ∧ c ≠ '.') :
    Ext (x ++ u ++ E) = E := by
  rcases h with ⟨hE, hx⟩ | ⟨e, hE, h1, h2⟩
  · subst hE
    rw [List.append_nil, Ext_append_clean x u hu]
    simp [hx]
  · subst hE
    exact Ext_dot (x ++ u) e h1 h2

theorem digitVal_some_isDigit (c : Char) (d : Nat) (h : digitVal c = some d) : IsDigit c := by
  unfold digitVal at h
  split at h
  · assumption
  · cases h

theorem parseDigitsAux_some_isDigit : ∀ (s : List Char) (acc n : Nat),
    parseDigitsAux s acc = some n → ∀ c ∈ s, IsDigit c := by
  intro s
  induction s with
  | nil => intro _ _ _ c hc; cases hc
  | cons x xs ih =>
    intro acc n h c hc
    simp only [parseDigitsAux] at h
    cases hd : digitVal x with
    | none => rw [hd] at h; cases h
    | some d =>
      rw [hd] at h
      rcases List.mem_cons.mp hc with e | e
      · subst e; exact digitVal_some_isDigit _ d hd
      · exact ih _ _ h c e

theorem parseDigits_some_isDigit (s : List Char) (n : Nat) (h : parseDigits s = some n) :
    ∀ c ∈ s, IsDigit c := by
  unfold parseDigits at h
  split at h
  · cases h
  · exact parseDigitsAux_some_isDigit s 0 n h

theorem Atoi_some_chars (s : List Char) (i : Int) (h : Atoi s = some i) :
    ∀ c ∈ s, c ≠ '_' ∧ c ≠ '.' ∧ c ≠ '/' := by
  have key : ∀ (t : List Char), (∃ n, parseDigits t = some n) →
      ∀ c ∈ t, c ≠ '_' ∧ c ≠ '.' ∧ c ≠ '/' := by
    intro t ⟨n, hn⟩ c hc
    have := isDigit_ne c (parseDigits_some_isDigit t n hn c hc)
    exact ⟨this.2.2.1, this.2.2.2.1, this.2.2.2.2⟩
  have hsome : ∀ (t : List Char) (f : Nat → Option Int),
      (match parseDigits t with | none => none | some n => f n) = some i →
      ∃ n, parseDigits t = some n := by
    intro t f hm
    cases hp : parseDigits t with
    | none => rw [hp] at hm; cases hm
    | some n => exact ⟨n, rfl⟩
  unfold Atoi at h
  split at h
  · rename_i rest
    intro c hc
    rcases List.mem_cons.mp hc with e | e
    · subst e; decide
    · exact key rest (hsome rest _ h) c e
  · rename_i rest
    intro c hc
    rcases List.mem_cons.mp hc with e | e
    · subst e; decide
    · exact key rest (hsome rest _ h) c e
  · exact key s (hsome s _ h)

theorem indexed_name (x D E : List Char) (i : Int) (hE : ExtOf x E) (hD : Atoi D = some i) :
    Ext (x ++ '_' :: D ++ E) = E ∧ getFileIndex (x ++ '_' :: D ++ E) = i ∧
      stem (x ++ '_' :: D ++ E) = x := by
  have hchars := Atoi_some_chars D i hD
  have hu : ∀ c ∈ '_' :: D, c ≠ '/' ∧ c ≠ '.' := by
    intro c hc
    rcases List.mem_cons.mp hc with e | e
    · subst e; decide
    · exact ⟨(hchars c e).2.2, (hchars c e).2.1⟩
  have hext : Ext (x ++ '_' :: D ++ E) = E := Ext_of_ExtOf x ('_' :: D) E hE hu
  have hund : '_' ∉ D := fun hm => (hchars _ hm).1 rfl
  have hli : LastIndex (x ++ '_' :: D) '_' = (x.length : Int) := LastIndex_append '_' x D hund
  have hne : (x.length : Int) ≠ -1 := by omega
  refine ⟨hext, ?_, ?_⟩
  · unfold getFileIndex
    simp only [hext, TrimSuffix_append, hli, sliceFrom_append, hD, hne, ne_eq, not_false_eq_true,
      if_true]
  · unfold stem
    simp only [hext, TrimSuffix_append, hli, sliceFrom_append, sliceTo_append, hD, hne, ne_eq,
      not_false_eq_true, if_true]

theorem withoutIndex_indexed (x D E : List Char) (hD : '_' ∉ D) (hE : '_' ∉ E) :
    withoutIndex (x ++ '_' :: D ++ E) = x := by
  have hli : LastIndex (x ++ '_' :: D ++ E) '_' = (x.length : Int) := by
    rw [List.append_assoc]
    exact LastIndex_append '_' x (D ++ E) (by simp [hD, hE])
  have hne : (x.length : Int) ≠ -1 := by omega
  unfold withoutIndex
  simp only [hli, hne, ne_eq, not_false_eq_true, if_true]
  rw [List.append_assoc]
  exact sliceTo_append x '_' (D ++ E)

theorem ExtOf_base (name : List Char) : ExtOf (TrimSuffix name (Ext name)) (Ext name) := by
  rcases Ext_spec name with h | ⟨x, e, _, he, h1, h2⟩
  · left
    rw [h, TrimSuffix_nil]
    exact ⟨rfl, h⟩
  · right
    exact ⟨e, he, h1, h2⟩

theorem stem_cases (name : List Char) :
    (stem name = TrimSuffix name (Ext name) ∧
      ∀ w t, TrimSuffix name (Ext name) = w ++ '_' :: t → Atoi t = none) ∨
    (∃ t k, TrimSuffix name (Ext name) = stem name ++ '_' :: t ∧ Atoi t = some k) := by
  rcases last_split '_' (TrimSuffix name (Ext name)) with hn | ⟨w, t, hs, ht⟩
  · left
    constructor
    · unfold stem
      simp [LastIndex_notMem '_' _ hn]
    · intro w t hwt
      exact absurd (by rw [hwt]; simp) hn
  · have hli : LastIndex (TrimSuffix name (Ext name)) '_' = (w.length : Int) := by
      rw [hs]; exact LastIndex_append '_' w t ht
    have hne : (w.length : Int) ≠ -1 := by omega
    cases hA : Atoi t with
    | none =>
      left
      constructor
      · unfold stem
        simp only [hli, hne, ne_eq, not_false_eq_true, if_true]
        rw [hs, sliceFrom_append, hA]
      · intro w2 t2 hwt
        cases hA2 : Atoi t2 with
        | none => rfl
        | some k =>
          exfalso
          have hund : '_' ∉ t2 := fun hm => (Atoi_some_chars t2 k hA2 _ hm).1 rfl
          have h1 := LastIndex_append '_' w2 t2 hund
          rw [← hwt, hli] at h1
          have hlen : w.length = w2.length := by omega
          have heq : w ++ '_' :: t = w2 ++ '_' :: t2 := by rw [← hs, hwt]
          have := List.append_inj heq hlen
          have ht2 : t = t2 := by simpa using this.2
          rw [ht2, hA2] at hA
          cases hA
    | some k =>
      right
      refine ⟨t, k, ?_, hA⟩
      have : stem name = w := by
        unfold stem
        simp only [hli, hne, ne_eq, not_false_eq_true, if_true]
        rw [hs, sliceFrom_append, hA, sliceTo_append]
      rw [this]
      exact hs

theorem ExtOf_stem (name : List Char) : ExtOf (stem name) (Ext name) := by
  rcases ExtOf_base name with ⟨hE, hx⟩ | h
  · left
    refine ⟨hE, ?_⟩
    rcases stem_cases name with ⟨hs, _⟩ | ⟨t, k, hs, hk⟩
    · rw [hs]; exact hx
    · rw [hs] at hx
      have hsl : '/' ∉ '_' :: t := by
        intro hm
        rcases List.mem_cons.mp hm with e | e
        · revert e; decide
        · exact (Atoi_some_chars t k hk _ e).2.2 rfl
      exact (Ext_nil_of_append (stem name) ('_' :: t) hsl hx).1
  · right; exact h

theorem setFileIndex_eq (name : List Char) (idx : Int) :
    setFileIndex name idx = stem name ++ '_' :: Itoa idx ++ Ext name := rfl

theorem setFileIndex_facts (name : List Char) (idx : Int) (hlo : minInt ≤ idx)
    (hhi : idx ≤ maxInt) :
    Ext (setFileIndex name idx) = Ext name ∧ getFileIndex (setFileIndex name idx) = idx ∧
      stem (setFileIndex name idx) = stem name := by
  rw [setFileIndex_eq]
  exact indexed_name (stem name) (Itoa idx) (Ext name) idx (ExtOf_stem name)
    (Atoi_Itoa idx hlo hhi)

theorem setFileIndex_setFileIndex (name : List Char) (i j : Int) (hlo : minInt ≤ i)
    (hhi : i ≤ maxInt) : setFileIndex (setFileIndex name i) j = setFileIndex name j := by
  have h := setFileIndex_facts name i hlo hhi
  rw [setFileIndex_eq (setFileIndex name i) j, h.1, h.2.2, ← setFileIndex_eq]


/-! ## The composite ordering and sorting -/

theorem strLess_asymm : ∀ (a b : List Char), strLess a b = true → strLess b a = false := by
  intro a
  induction a with
  | nil =>
    intro b _
    cases b <;> rfl
  | cons x xs ih =>
    intro b h
    cases b with
    | nil => simp [strLess] at h
    | cons y ys =>
      simp only [strLess] at h ⊢
      by_cases h1 : x.toNat < y.toNat
      · have h2 : ¬ y.toNat < x.toNat := by omega
        simp [h1, h2]
      · by_cases h2 : y.toNat < x.toNat
        · simp [h1, h2] at h
        · simp only [h1, h2, if_false] at h ⊢
          exact ih ys h

theorem Less_asymm (a b : Str) (h : sortByFileIndex.Less a b = true) :
    sortByFileIndex.Less b a = false := by
  unfold sortByFileIndex.Less at h ⊢
  by_cases hw : withoutIndex a = withoutIndex b
  · simp only [hw, if_true] at h ⊢
    simp only [decide_eq_true_eq] at h
    simp only [decide_eq_false_iff_not]
    omega
  · have hw2 : ¬ withoutIndex b = withoutIndex a := fun e => hw e.symm
    simp only [hw, hw2, if_false] at h ⊢
    exact strLess_asymm a b h

theorem Less_irrefl (a : Str) : sortByFileIndex.Less a a = false := by
  unfold sortByFileIndex.Less
  simp

theorem Less_sameFamily (a b : Str) (h : withoutIndex a = withoutIndex b) :
    sortByFileIndex.Less a b = decide (getFileIndex a < getFileIndex b) := by
  unfold sortByFileIndex.Less
  simp [h]

theorem insertBack_perm (x : Str) : ∀ rev, List.Perm (insertBack x rev) (x :: rev) := by
  intro rev
  induction rev with
  | nil => exact List.Perm.refl _
  | cons y ys ih =>
    unfold insertBack
    split
    · exact (List.Perm.cons y ih).trans (List.Perm.swap x y ys)
    · exact List.Perm.refl _

theorem foldl_insertBack_perm : ∀ (l rev : List Str),
    List.Perm (l.foldl (fun rev x => insertBack x rev) rev) (l ++ rev) := by
  intro l
  induction l with
  | nil => intro rev; exact List.Perm.refl _
  | cons x xs ih =>
    intro rev
    simp only [List.foldl_cons, List.cons_append]
    refine (ih (insertBack x rev)).trans ?_
    refine (List.Perm.append_left xs (insertBack_perm x rev)).trans ?_
    exact List.perm_middle

theorem insertionSort_perm (l : List Str) : List.Perm (insertionSort l) l := by
  unfold insertionSort
  refine (List.reverse_perm _).trans ?_
  simpa using foldl_insertBack_perm l []

theorem insertBack_pairwise (x : Str) : ∀ (rev : List Str),
    (∀ a ∈ x :: rev, ∀ b ∈ x :: rev, ∀ c ∈ x :: rev, sortByFileIndex.Less b a = false →
      sortByFileIndex.Less c b = false → sortByFileIndex.Less c a = false) →
    List.Pairwise (fun u v => sortByFileIndex.Less u v = false) rev →
    List.Pairwise (fun u v => sortByFileIndex.Less u v = false) (insertBack x rev) := by
  intro rev
  induction rev with
  | nil => intro _ _; simp [insertBack]
  | cons y ys ih =>
    intro hnt hp
    have hp' := List.pairwise_cons.mp hp
    unfold insertBack
    by_cases hxy : sortByFileIndex.Less x y = true
    · simp only [hxy, if_true]
      refine List.pairwise_cons.mpr ⟨?_, ?_⟩
      · intro w hw
        have hw2 : w ∈ x :: ys := (insertBack_perm x ys).subset hw
        rcases List.mem_cons.mp hw2 with e | e
        · subst e; exact Less_asymm _ _ hxy
        · exact hp'.1 w e
      · apply ih _ hp'.2
        intro a ha b hb c hc
        have sub : ∀ z, z ∈ x :: ys → z ∈ x :: y :: ys := by
          intro z hz
          rcases List.mem_cons.mp hz with e | e
          · simp [e]
          · simp [e]
        exact hnt a (sub a ha) b (sub b hb) c (sub c hc)
    · have hxy2 : sortByFileIndex.Less x y = false := by simpa using hxy
      simp only [hxy2]
      refine List.pairwise_cons.mpr ⟨?_, hp⟩
      intro w hw
      rcases List.mem_cons.mp hw with e | e
      · subst e; exact hxy2
      · exact hnt w (by simp [e]) y (by simp) x (by simp) (hp'.1 w e) hxy2

theorem foldl_insertBack_pairwise : ∀ (l rev : List Str),
    (∀ a ∈ l ++ rev, ∀ b ∈ l ++ rev, ∀ c ∈ l ++ rev, sortByFileIndex.Less b a = false →
      sortByFileIndex.Less c b = false → sortByFileIndex.Less c a = false) →
    List.Pairwise (fun u v => sortByFileIndex.Less u v = false) rev →
    List.Pairwise (fun u v => sortByFileIndex.Less u v = false)
      (l.foldl (fun rev x => insertBack x rev) rev) := by
  intro l
  induction l with
  | nil => intro rev _ hp; exact hp
  | cons x xs ih =>
    intro rev hnt hp
    simp only [List.foldl_cons]
    have hsub : ∀ z, z ∈ xs ++ insertBack x rev → z ∈ (x :: xs) ++ rev := by
      intro z hz
      rcases List.mem_append.mp hz with e | e
      · simp [e]
      · have := (insertBack_perm x rev).subset e
        rcases List.mem_cons.mp this with e2 | e2
        · simp [e2]
        · simp [e2]
    apply ih
    · intro a ha b hb c hc
      exact hnt a (hsub a ha) b (hsub b hb) c (hsub c hc)
    · apply insertBack_pairwise x rev _ hp
      intro a ha b hb c hc
      have sub : ∀ z, z ∈ x :: rev → z ∈ (x :: xs) ++ rev := by
        intro z hz
        rcases List.mem_cons.mp hz with e | e
        · simp [e]
        · simp [e]
      exact hnt a (sub a ha) b (sub b hb) c (sub c hc)

theorem insertionSort_pairwise (l : List Str)
    (hnt : ∀ a ∈ l, ∀ b ∈ l, ∀ c ∈ l, sortByFileIndex.Less b a = false →
      sortByFileIndex.Less c b = false → sortByFileIndex.Less c a = false) :
    List.Pairwise (fun a b => sortByFileIndex.Less b a = false) (insertionSort l) := by
  unfold insertionSort
  rw [List.pairwise_reverse]
  apply foldl_insertBack_pairwise l []
  · simpa using hnt
  · exact List.Pairwise.nil

theorem takeWhile_star (pre post : List Char) (h : ∀ c ∈ pre, isMeta c = false) :
    (pre ++ '*' :: post).takeWhile (fun c => decide (c ≠ '*')) = pre ∧
    (pre ++ '*' :: post).dropWhile (fun c => decide (c ≠ '*')) = '*' :: post := by
  induction pre with
  | nil => simp [List.takeWhile, List.dropWhile]
  | cons x xs ih =>
    have hx : x ≠ '*' := by
      intro e
      have := h x (by simp)
      rw [e] at this
      revert this
      decide
    have ih2 := ih (fun c hc => h c (by simp [hc]))
    have hd : decide (x ≠ '*') = true := by simpa using hx
    constructor
    · show List.takeWhile (fun c => decide (c ≠ '*')) (x :: (xs ++ '*' :: post)) = x :: xs
      rw [List.takeWhile_cons, hd, if_pos rfl, ih2.1]
    · show List.dropWhile (fun c => decide (c ≠ '*')) (x :: (xs ++ '*' :: post)) = '*' :: post
      rw [List.dropWhile_cons, hd, if_pos rfl, ih2.2]

theorem goLib_lawful : goLib.Lawful := by
  refine ⟨insertionSort_perm, insertionSort_pairwise, ?_⟩
  intro pre post name hpre _
  have h := takeWhile_star pre post hpre
  show literalMatch (pre ++ '*' :: post) name = _
  unfold literalMatch
  rw [h.1, h.2]
  rfl

/-- The file taken from a listing is one of its files, and no file of the
listing is above it in the composite ordering, when that ordering is
consistent on the listing. -/
theorem lastOf_spec (L : Lib) (hL : L.Lawful) (found : List Str) (hne : found ≠ [])
    (hnt : ∀ a ∈ found, ∀ b ∈ found, ∀ c ∈ found, sortByFileIndex.Less b a = false →
      sortByFileIndex.Less c b = false → sortByFileIndex.Less c a = false) :
    lastOf L found ∈ found ∧ ∀ x ∈ found, sortByFileIndex.Less (lastOf L found) x = false := by
  have hperm := hL.1 found
  have hpw := hL.2.1 found hnt
  have hne2 : L.sortSort found ≠ [] := by
    intro e
    rw [e] at hperm
    exact hne (List.Perm.nil_eq hperm).symm
  obtain ⟨ys, y, hy⟩ : ∃ ys y, L.sortSort found = ys ++ [y] := by
    rcases List.eq_nil_or_concat (L.sortSort found) with e | ⟨ys, y, e⟩
    · exact absurd e hne2
    · exact ⟨ys, y, by simpa using e⟩
  have hlast : lastOf L found = y := by
    unfold lastOf
    rw [hy]
    simp
  rw [hlast]
  refine ⟨hperm.subset (by rw [hy]; simp), ?_⟩
  intro x hx
  have hx2 : x ∈ ys ++ [y] := by rw [← hy]; exact hperm.symm.subset hx
  rw [hy, List.pairwise_append] at hpw
  rcases List.mem_append.mp hx2 with e | e
  · exact hpw.2.2 x e y (by simp)
  · simp at e; subst e; exact Less_irrefl _

theorem lastOf_mem (L : Lib) (hL : L.Lawful) (found : List Str) (hne : found ≠ []) :
    lastOf L found ∈ found := by
  have hperm := hL.1 found
  unfold lastOf
  cases hs : L.sortSort found with
  | nil =>
    rw [hs] at hperm
    exact absurd (List.Perm.nil_eq hperm).symm hne
  | cons a as =>
    apply hperm.subset
    rw [hs]
    have := List.getLastD_mem_cons as a
    rw [List.getLastD_cons]
    exact this

/-- In a listing whose files share one un-indexed base, the file taken has the
highest index. -/
theorem lastOf_sameFamily (L : Lib) (hL : L.Lawful) (found : List Str) (hne : found ≠ [])
    (hfam : ∀ x ∈ found, ∀ y ∈ found, withoutIndex x = withoutIndex y) :
    lastOf L found ∈ found ∧ ∀ x ∈ found, getFileIndex x ≤ getFileIndex (lastOf L found) := by
  have hnt : ∀ a ∈ found, ∀ b ∈ found, ∀ c ∈ found, sortByFileIndex.Less b a = false →
      sortByFileIndex.Less c b = false → sortByFileIndex.Less c a = false := by
    intro a ha b hb c hc h1 h2
    rw [Less_sameFamily _ _ (hfam b hb a ha)] at h1
    rw [Less_sameFamily _ _ (hfam c hc b hb)] at h2
    rw [Less_sameFamily _ _ (hfam c hc a ha)]
    simp only [decide_eq_false_iff_not] at h1 h2 ⊢
    omega
  have h := lastOf_spec L hL found hne hnt
  refine ⟨h.1, ?_⟩
  intro x hx
  have := h.2 x hx
  rw [Less_sameFamily _ _ (hfam _ h.1 x hx)] at this
  simp only [decide_eq_false_iff_not] at this
  omega


/-! ## filename -/

theorem filename_nil (L : Lib) (o : FileOutput) (glob : Str → Option (List Str))
    (h : glob (globPattern o.pathTemplate) = some []) :
    o.filename L glob = setFileIndex o.pathTemplate 0 := by
  unfold globPattern baseOf at h
  unfold FileOutput.filename
  simp only [h]
  simp

theorem filename_cons (L : Lib) (o : FileOutput) (glob : Str → Option (List Str))
    (found : List Str) (h : glob (globPattern o.pathTemplate) = some found) (hne : found ≠ []) :
    o.filename L glob = setFileIndex (lastOf L found) (targetIndex o (lastOf L found)) := by
  unfold globPattern baseOf at h
  have hlen : ¬ found.length = 0 := by
    intro e
    exact hne (List.length_eq_zero.mp e)
  unfold FileOutput.filename
  simp only [h, hlen, if_false]
  rfl

theorem filename_none (L : Lib) (o : FileOutput) (glob : Str → Option (List Str))
    (h : glob (globPattern o.pathTemplate) = none) :
    o.filename L glob = o.pathTemplate := by
  unfold globPattern baseOf at h
  unfold FileOutput.filename
  simp only [h]

theorem Atoi_range (s : Str) (i : Int) (h : Atoi s = some i) : minInt ≤ i ∧ i ≤ maxInt := by
  have key : ∀ (t : List Char) (neg : Bool),
      (match parseDigits t with
        | none => (none : Option Int)
        | some n =>
          if neg then (if n ≤ 9223372036854775808 then some (-(n : Int)) else none)
          else (if n ≤ 9223372036854775807 then some (n : Int) else none)) = some i →
      minInt ≤ i ∧ i ≤ maxInt := by
    intro t neg hm
    unfold minInt maxInt
    cases hp : parseDigits t with
    | none => rw [hp] at hm; cases hm
    | some n =>
      rw [hp] at hm
      cases neg with
      | true =>
        simp only [if_true] at hm
        split at hm
        · cases hm; omega
        · cases hm
      | false =>
        simp only [Bool.false_eq_true, if_false] at hm
        split at hm
        · cases hm; omega
        · cases hm
  unfold Atoi at h
  split at h
  · exact key _ true (by simpa using h)
  · exact key _ false (by simpa using h)
  · exact key _ false (by simpa using h)

theorem getFileIndex_range (name : Str) :
    minInt ≤ getFileIndex name ∧ getFileIndex name ≤ maxInt := by
  have hneg : minInt ≤ (-1 : Int) ∧ (-1 : Int) ≤ maxInt := by
    unfold minInt maxInt; omega
  unfold getFileIndex
  simp only []
  split
  · split
    · rename_i i hi
      exact Atoi_range _ i hi
    · exact hneg
  · exact hneg

theorem targetIndex_range (o : FileOutput) (last : Str) :
    minInt ≤ targetIndex o last ∧ targetIndex o last ≤ maxInt := by
  unfold targetIndex
  split
  · split
    · exact wrapInt_range _
    · exact getFileIndex_range _
  · unfold minInt maxInt; omega

/-- The name filename returns for a non-empty listing carries the index it
computed. -/
theorem filename_index (L : Lib) (o : FileOutput) (glob : Str → Option (List Str))
    (found : List Str) (h : glob (globPattern o.pathTemplate) = some found) (hne : found ≠ []) :
    getFileIndex (o.filename L glob) = targetIndex o (lastOf L found) := by
  rw [filename_cons L o glob found h hne]
  have hr := targetIndex_range o (lastOf L found)
  exact (setFileIndex_facts _ _ hr.1 hr.2).2.1

theorem Itoa_zero : Itoa 0 = ['0'] := by decide

theorem stem_of_noIndex (name : Str)
    (h : ∀ w t, baseOf name = w ++ '_' :: t → Atoi t = none) : stem name = baseOf name := by
  rcases stem_cases name with ⟨hs, _⟩ | ⟨t, k, hs, hk⟩
  · exact hs
  · have := h (stem name) t hs
    rw [this] at hk
    cases hk

theorem stem_of_index (name w t : Str) (k : Int) (hb : baseOf name = w ++ '_' :: t)
    (hk : Atoi t = some k) : stem name = w := by
  rcases stem_cases name with ⟨_, hn⟩ | ⟨t2, k2, hs, hk2⟩
  · have := hn w t hb
    rw [this] at hk
    cases hk
  · have hb2 : w ++ '_' :: t = stem name ++ '_' :: t2 := by
      rw [← hb]; exact hs
    have hu1 : '_' ∉ t := fun hm => (Atoi_some_chars t k hk _ hm).1 rfl
    have hu2 : '_' ∉ t2 := fun hm => (Atoi_some_chars t2 k2 hk2 _ hm).1 rfl
    have l1 := LastIndex_append '_' w t hu1
    have l2 := LastIndex_append '_' (stem name) t2 hu2
    rw [hb2, l2] at l1
    have hlen : w.length = (stem name).length := by omega
    exact ((List.append_inj hb2 hlen).1).symm

theorem nextChunk_fresh (template : Str) (sizeLimit : Int) :
    (NewFileOutput template sizeLimit).nextChunk = true := by
  simp [FileOutput.nextChunk, NewFileOutput]

theorem indexedName_facts (template : Str) (i : Int) (hlo : minInt ≤ i) (hhi : i ≤ maxInt) :
    Ext (indexedName template i) = Ext template ∧ getFileIndex (indexedName template i) = i ∧
      stem (indexedName template i) = baseOf template :=
  indexed_name (baseOf template) (Itoa i) (Ext template) i (ExtOf_base template)
    (Atoi_Itoa i hlo hhi)

theorem withoutIndex_indexedName (template : Str) (i : Int) (hext : '_' ∉ Ext template) :
    withoutIndex (indexedName template i) = baseOf template :=
  withoutIndex_indexed (baseOf template) (Itoa i) (Ext template)
    (fun hm => (Itoa_chars i _ hm).1 rfl) hext


/-! ## Write, the disk and the listing -/

theorem Write_fatal (L : Lib) (o : FileOutput) (d : Disk) (ev : OSEvents) (p : Str)
    (hne : o.file ≠ some (o.target L d)) (hok : ev.openOk = false) :
    o.Write L d ev p = WriteResult.fatal
      ⟨o.pathTemplate, o.target L d, 0, none, none, o.sizeLimit, true⟩ d := by
  have hre : (decide (o.file = none) || decide (o.file ≠ some (o.target L d))) = true := by
    simp [hne]
  unfold FileOutput.Write FileOutput.updateName FileOutput.closeLocked
  unfold FileOutput.target at hre
  simp only [hre, hok]
  rfl

theorem Write_reopen (L : Lib) (o : FileOutput) (d : Disk) (ev : OSEvents) (p : Str)
    (hne : o.file ≠ some (o.target L d)) (hok : ev.openOk = true) :
    o.Write L d ev p = WriteResult.returned
      ⟨o.pathTemplate, o.target L d, wrapInt (0 + ((min ev.accepted p.length : Nat) : Int)),
        some (o.target L d), some (o.target L d), o.sizeLimit, true⟩
      ((d.create (o.target L d)).append (o.target L d) (p.take (min ev.accepted p.length)))
      ((min ev.accepted p.length : Nat) : Int)
      (decide (min ev.accepted p.length < p.length)) := by
  have hre : (decide (o.file = none) || decide (o.file ≠ some (o.target L d))) = true := by
    simp [hne]
  unfold FileOutput.Write FileOutput.updateName FileOutput.closeLocked
  unfold FileOutput.target at hre
  simp only [hre, hok]
  rfl

theorem Write_same (L : Lib) (o : FileOutput) (d : Disk) (ev : OSEvents) (p : Str)
    (hf : o.file = some (o.target L d)) (hw : o.writer = some (o.target L d)) :
    o.Write L d ev p = WriteResult.returned
      ⟨o.pathTemplate, o.target L d,
        wrapInt (o.currentFileSize + ((min ev.accepted p.length : Nat) : Int)),
        o.file, o.writer, o.sizeLimit, o.closed⟩
      (d.append (o.target L d) (p.take (min ev.accepted p.length)))
      ((min ev.accepted p.length : Nat) : Int)
      (decide (min ev.accepted p.length < p.length)) := by
  have hre : (decide (o.file = none) || decide (o.file ≠ some (o.target L d))) = false := by
    simp [hf]
  unfold FileOutput.Write FileOutput.updateName FileOutput.closeLocked
  unfold FileOutput.target at hre hw
  simp only [hre, hw]
  rfl

theorem names_create (d : Disk) (n x : Str) :
    x ∈ (d.create n).names ↔ x = n ∨ x ∈ d.names := by
  unfold Disk.create Disk.names
  simp only [List.map_cons, List.mem_cons, List.mem_map, List.mem_filter, decide_eq_true_eq]
  constructor
  · rintro (h | ⟨e, ⟨he, _⟩, hx⟩)
    · exact Or.inl h
    · exact Or.inr ⟨e, he, hx⟩
  · rintro (h | ⟨e, he, hx⟩)
    · exact Or.inl h
    · by_cases hxn : x = n
      · exact Or.inl hxn
      · exact Or.inr ⟨e, ⟨he, by rw [hx]; exact hxn⟩, hx⟩

theorem names_append (d : Disk) (n b : Str) : (d.append n b).names = d.names := by
  unfold Disk.append Disk.names
  rw [List.map_map]
  apply List.map_congr_left
  intro e _
  simp only [Function.comp]
  split <;> rfl

theorem read_create_same (d : Disk) (n : Str) : (d.create n).read n = some [] := by
  simp [Disk.create, Disk.read]

theorem read_filter_ne (n x : Str) (h : x ≠ n) : ∀ (d : Disk),
    Disk.read (d.filter (fun e => decide (e.1 ≠ n))) x = Disk.read d x := by
  intro d
  induction d with
  | nil => rfl
  | cons e es ih =>
    by_cases he : e.1 = n
    · have hex : ¬ e.1 = x := fun e2 => h (e2 ▸ he)
      have hd : decide (e.1 ≠ n) = false := by simpa using he
      rw [List.filter_cons, hd]
      simp only [Bool.false_eq_true, if_false, Disk.read, hex]
      exact ih
    · have hd : decide (e.1 ≠ n) = true := by simpa using he
      rw [List.filter_cons, hd]
      simp only [if_true, Disk.read]
      rw [ih]

theorem read_create_ne (d : Disk) (n x : Str) (h : x ≠ n) : (d.create n).read x = d.read x := by
  have hnx : ¬ n = x := fun e => h e.symm
  unfold Disk.create
  simp only [Disk.read, hnx, if_false]
  exact read_filter_ne n x h d

theorem read_append_same (n b : Str) : ∀ (d : Disk),
    Disk.read (Disk.append d n b) n = (Disk.read d n).map (fun c => c ++ b) := by
  intro d
  induction d with
  | nil => rfl
  | cons e es ih =>
    unfold Disk.append at ih ⊢
    by_cases he : e.1 = n
    · simp [Disk.read, he]
    · simp only [List.map_cons, he, if_false, Disk.read]
      exact ih

theorem read_append_ne (n b x : Str) (h : x ≠ n) : ∀ (d : Disk),
    Disk.read (Disk.append d n b) x = Disk.read d x := by
  intro d
  induction d with
  | nil => rfl
  | cons e es ih =>
    unfold Disk.append at ih ⊢
    by_cases he : e.1 = n
    · have hex : ¬ e.1 = x := fun e2 => h (e2 ▸ he)
      simp only [List.map_cons, he, if_true, Disk.read]
      have hnx : ¬ n = x := fun e2 => h e2.symm
      simp only [hnx, if_false, hex]
      exact ih
    · simp only [List.map_cons, he, if_false, Disk.read]
      rw [ih]

theorem insertStr_perm (x : Str) : ∀ l, List.Perm (insertStr x l) (x :: l) := by
  intro l
  induction l with
  | nil => exact List.Perm.refl _
  | cons y ys ih =>
    unfold insertStr
    split
    · exact (List.Perm.cons y ih).trans (List.Perm.swap x y ys)
    · exact List.Perm.refl _

theorem sortStrings_perm : ∀ l, List.Perm (sortStrings l) l := by
  intro l
  induction l with
  | nil => exact List.Perm.refl _
  | cons x xs ih =>
    unfold sortStrings at ih ⊢
    simp only [List.foldr_cons]
    exact (insertStr_perm x _).trans (List.Perm.cons x ih)

theorem globCollect_filter (L : Lib) (pattern : Str) (f : Str → Bool)
    (h : ∀ n, L.Match pattern n = some (f n)) :
    ∀ ns, globCollect L pattern ns = some (ns.filter f) := by
  intro ns
  induction ns with
  | nil => rfl
  | cons n rest ih =>
    simp only [globCollect, h, ih, List.filter]
    cases f n <;> rfl

theorem template_parts_noMeta (t : Str) (h : ∀ c ∈ t, isMeta c = false) :
    (∀ c ∈ baseOf t, isMeta c = false) ∧ (∀ c ∈ Ext t, isMeta c = false) := by
  have hs := name_split t
  constructor
  · intro c hc
    apply h
    rw [← hs]
    exact List.mem_append_left _ hc
  · intro c hc
    apply h
    rw [← hs]
    exact List.mem_append_right _ hc

/-- For a template without metacharacters the listing holds exactly the files
on disk that starMatch accepts. -/
theorem Glob_plain (L : Lib) (hL : L.Lawful) (t : Str) (hmeta : ∀ c ∈ t, isMeta c = false)
    (d : Disk) :
    ∃ found, Glob L d (globPattern t) = some found ∧
      ∀ x, x ∈ found ↔ x ∈ d.names ∧ starMatch (baseOf t) (Ext t) x = true := by
  have hp := template_parts_noMeta t hmeta
  have hM : ∀ n, L.Match (globPattern t) n = some (starMatch (baseOf t) (Ext t) n) :=
    fun n => hL.2.2 (baseOf t) (Ext t) n hp.1 hp.2
  refine ⟨(sortStrings d.names).filter (starMatch (baseOf t) (Ext t)), ?_, ?_⟩
  · unfold Glob
    rw [hM]
    exact globCollect_filter L _ _ hM _
  · intro x
    rw [List.mem_filter]
    constructor
    · rintro ⟨h1, h2⟩
      exact ⟨(sortStrings_perm _).subset h1, h2⟩
    · rintro ⟨h1, h2⟩
      exact ⟨(sortStrings_perm _).symm.subset h1, h2⟩

theorem starMatch_mid (pre mid post : List Char) (h : '/' ∉ mid) :
    starMatch pre post (pre ++ mid ++ post) = true := by
  unfold starMatch
  have h1 : pre.isPrefixOf (pre ++ mid ++ post) = true := by
    rw [List.isPrefixOf_iff_prefix, List.append_assoc]
    exact List.prefix_append _ _
  have h2 : post.isSuffixOf (pre ++ mid ++ post) = true := by
    rw [List.isSuffixOf_iff_suffix]
    exact List.suffix_append _ _
  have h3 : (List.drop pre.length (pre ++ mid ++ post)).take
      ((pre ++ mid ++ post).length - pre.length - post.length) = mid := by
    rw [List.append_assoc, List.drop_left]
    have : (pre ++ (mid ++ post)).length - pre.length - post.length = mid.length := by
      simp only [List.length_append]
      omega
    rw [this, List.take_left]
  rw [h1, h2, h3]
  simp [h]

theorem starMatch_indexedName (t : Str) (i : Int) :
    starMatch (baseOf t) (Ext t) (indexedName t i) = true := by
  unfold indexedName
  apply starMatch_mid
  intro hm
  rcases List.mem_cons.mp hm with e | e
  · revert e; decide
  · exact (Itoa_chars i _ e).2.2 rfl

theorem indexedName_inj (t : Str) (i j : Int) (hi : minInt ≤ i ∧ i ≤ maxInt)
    (hj : minInt ≤ j ∧ j ≤ maxInt) (h : indexedName t i = indexedName t j) : i = j := by
  have h1 := (indexedName_facts t i hi.1 hi.2).2.1
  have h2 := (indexedName_facts t j hj.1 hj.2).2.1
  rw [h] at h1
  rw [← h1, h2]


/-! ## filepath.Clean on the names the writer makes -/

theorem weight_cons (e : Str) (es : List Str) : weight (e :: es) = e.length + 1 + weight es := by
  simp [weight]

theorem weight_append (a b : List Str) : weight (a ++ b) = weight a + weight b := by
  simp [weight]

theorem weight_reverse (a : List Str) : weight a.reverse = weight a := by
  induction a with
  | nil => rfl
  | cons x xs ih =>
    rw [List.reverse_cons, weight_append, ih, weight_cons, weight_cons]
    simp [weight]
    omega

theorem splitAux_noSlash : ∀ (X cur : List Char), '/' ∉ X →
    splitAux X cur = [cur.reverse ++ X] := by
  intro X
  induction X with
  | nil => intro cur _; simp [splitAux]
  | cons c cs ih =>
    intro cur h
    have hc : c ≠ '/' := fun e => h (by simp [e])
    have hcs : '/' ∉ cs := fun e => h (by simp [e])
    simp only [splitAux, hc, if_false]
    rw [ih (c :: cur) hcs]
    simp

theorem splitAux_slash (X : List Char) : ∀ (D0 cur : List Char),
    splitAux (D0 ++ '/' :: X) cur = splitAux D0 cur ++ splitAux X [] := by
  intro D0
  induction D0 with
  | nil => intro cur; simp [splitAux]
  | cons c cs ih =>
    intro cur
    by_cases hc : c = '/'
    · show splitAux (c :: (cs ++ '/' :: X)) cur = _
      simp only [splitAux, hc, if_true]
      rw [ih []]
      rfl
    · show splitAux (c :: (cs ++ '/' :: X)) cur = _
      simp only [splitAux, hc, if_false]
      rw [ih (c :: cur)]

theorem splitAux_weight : ∀ (s cur : List Char),
    weight (splitAux s cur) = s.length + cur.length + 1 := by
  intro s
  induction s with
  | nil => intro cur; simp [splitAux, weight]
  | cons c cs ih =>
    intro cur
    by_cases hc : c = '/'
    · simp only [splitAux, hc, if_true]
      rw [weight_cons, ih []]
      simp
      omega
    · simp only [splitAux, hc, if_false]
      rw [ih (c :: cur)]
      simp
      omega

theorem cleanElems_append (r : Bool) (es2 : List Str) : ∀ (es out : List Str),
    cleanElems r (es ++ es2) out = cleanElems r es2 (cleanElems r es out).reverse := by
  intro es
  induction es with
  | nil => intro out; simp [cleanElems]
  | cons e es ih =>
    intro out
    simp only [List.cons_append, cleanElems]
    split
    · exact ih out
    · split
      · cases out with
        | nil =>
          simp only []
          split
          · exact ih []
          · exact ih [e]
        | cons top below =>
          simp only []
          split
          · exact ih (e :: top :: below)
          · exact ih below
      · exact ih (e :: out)

theorem cleanElems_weight (r : Bool) : ∀ (es out : List Str),
    weight (cleanElems r es out) ≤ weight out + weight es := by
  intro es
  induction es with
  | nil =>
    intro out
    simp only [cleanElems]
    rw [weight_reverse]
    omega
  | cons e es ih =>
    intro out
    rw [weight_cons]
    simp only [cleanElems]
    split
    · have := ih out
      omega
    · split
      · cases out with
        | nil =>
          simp only []
          split
          · have := ih []
            omega
          · have := ih [e]
            rw [weight_cons] at this
            simp [weight] at this ⊢
            omega
        | cons top below =>
          simp only []
          split
          · have := ih (e :: top :: below)
            rw [weight_cons] at this
            omega
          · have := ih below
            rw [weight_cons]
            omega
      · have := ih (e :: out)
        rw [weight_cons] at this
        omega

theorem joinElems_length : ∀ (xs : List Str), xs ≠ [] →
    (joinElems xs).length + 1 = weight xs := by
  intro xs
  induction xs with
  | nil => intro h; exact absurd rfl h
  | cons x xs ih =>
    intro _
    cases xs with
    | nil => simp [joinElems, weight]
    | cons y ys =>
      have := ih (by simp)
      rw [weight_cons]
      simp only [joinElems, List.length_append, List.length_cons]
      omega

theorem joinElems_length_le (xs : List Str) : (joinElems xs).length ≤ weight xs := by
  by_cases h : xs = []
  · subst h; simp [joinElems]
  · have := joinElems_length xs h
    omega

theorem joinElems_snoc (y : Str) : ∀ (xs : List Str),
    joinElems (xs ++ [y]) = (if xs = [] then [] else joinElems xs ++ ['/']) ++ y := by
  intro xs
  induction xs with
  | nil => simp [joinElems]
  | cons x xs ih =>
    cases xs with
    | nil => simp [joinElems]
    | cons z zs =>
      have h1 : joinElems (x :: z :: zs ++ [y]) = x ++ '/' :: joinElems (z :: zs ++ [y]) := by
        simp [joinElems]
      rw [h1, ih]
      simp [joinElems]

theorem cleanDir_length (r : Bool) (st : List Str) :
    (cleanDir r st).length = (if r then 1 else 0) + weight st := by
  unfold cleanDir
  by_cases h : st = []
  · subst h
    cases r <;> simp [weight]
  · have hr : st.reverse ≠ [] := by simpa using h
    have := joinElems_length st.reverse hr
    rw [weight_reverse] at this
    cases r <;> simp [h] <;> omega

theorem head_append_noSlash (D X : List Char) (hX : '/' ∉ X)
    (hD : D = [] ∨ ∃ D0, D = D0 ++ ['/']) :
    decide ((D ++ X).head? = some '/') = decide (D.head? = some '/') := by
  rcases hD with h | ⟨D0, h⟩
  · subst h
    cases X with
    | nil => rfl
    | cons x xs =>
      have hx : x ≠ '/' := fun e => hX (by simp [e])
      simp [hx]
  · subst h
    cases D0 <;> simp

/-- The elements in front of the last one. -/
theorem pathElems_last (D : List Char)
    (hD : D = [] ∨ ∃ D0, D = D0 ++ ['/']) :
    ∃ es, (∀ Y, '/' ∉ Y → pathElems (D ++ Y) = es ++ [Y]) ∧
      (if decide (D.head? = some '/') then 1 else 0)
        + weight (cleanElems (decide (D.head? = some '/')) es []) ≤ D.length := by
  rcases hD with h | ⟨D0, h⟩
  · subst h
    refine ⟨[], ?_, by simp [cleanElems, weight]⟩
    intro Y hY
    simp [pathElems, splitAux_noSlash Y [] hY]
  · subst h
    refine ⟨pathElems D0, ?_, ?_⟩
    · intro Y hY
      unfold pathElems
      rw [List.append_assoc]
      simp only [List.singleton_append]
      rw [splitAux_slash, splitAux_noSlash Y [] hY]
      simp
    · cases D0 with
      | nil => simp [pathElems, splitAux, cleanElems, weight]
      | cons c D1 =>
        by_cases hc : c = '/'
        · subst hc
          have h1 : pathElems ('/' :: D1) = [] :: splitAux D1 [] := by
            simp [pathElems, splitAux]
          have h2 : cleanElems true ([] :: splitAux D1 []) [] = cleanElems true (splitAux D1 []) [] := by
            simp [cleanElems]
          have h3 := cleanElems_weight true (splitAux D1 []) []
          rw [splitAux_weight] at h3
          simp only [List.cons_append, List.head?_cons, decide_True, if_true, h1, h2,
            List.length_cons, List.length_append, List.length_nil]
          simp [weight] at h3 ⊢
          omega
        · have h3 := cleanElems_weight false (pathElems (c :: D1)) []
          unfold pathElems at h3
          rw [splitAux_weight] at h3
          have hd : decide ((c :: D1 ++ ['/']).head? = some '/') = false := by simp [hc]
          rw [hd]
          simp only [Bool.false_eq_true, if_false, List.length_cons, List.length_append,
            List.length_nil]
          unfold pathElems
          simp [weight] at h3 ⊢
          omega

theorem cleanElems_plain (r : Bool) (X : Str) (st : List Str) (hX : PlainElem X) :
    cleanElems r [X] st = st.reverse ++ [X] := by
  obtain ⟨_, h1, h2, h3⟩ := hX
  simp [cleanElems, h1, h2, h3]

theorem Clean_of_parts (D X : List Char) (hX : '/' ∉ X) (hD : D = [] ∨ ∃ D0, D = D0 ++ ['/'])
    (es : List Str) (hes : ∀ Y, '/' ∉ Y → pathElems (D ++ Y) = es ++ [Y])
    (hne : D ++ X ≠ []) :
    Clean (D ++ X) =
      (if decide (D.head? = some '/') = true then
        '/' :: joinElems (cleanElems (decide (D.head? = some '/')) [X]
          (cleanElems (decide (D.head? = some '/')) es []).reverse)
      else if joinElems (cleanElems (decide (D.head? = some '/')) [X]
          (cleanElems (decide (D.head? = some '/')) es []).reverse) = [] then ['.']
      else joinElems (cleanElems (decide (D.head? = some '/')) [X]
          (cleanElems (decide (D.head? = some '/')) es []).reverse)) := by
  unfold Clean
  simp only [hne, if_false]
  rw [head_append_noSlash D X hX hD, hes X hX, cleanElems_append]

theorem Clean_plain_last (D X : List Char) (hX : PlainElem X)
    (hD : D = [] ∨ ∃ D0, D = D0 ++ ['/'])
    (es : List Str) (hes : ∀ Y, '/' ∉ Y → pathElems (D ++ Y) = es ++ [Y]) :
    Clean (D ++ X) = cleanDir (decide (D.head? = some '/'))
      (cleanElems (decide (D.head? = some '/')) es []).reverse ++ X := by
  have hne : D ++ X ≠ [] := by
    intro e
    exact hX.2.1 (List.append_eq_nil.mp e).2
  rw [Clean_of_parts D X hX.1 hD es hes hne, cleanElems_plain _ X _ hX, joinElems_snoc]
  have hbody : ∀ (a : List Char), a ++ X ≠ [] := by
    intro a e
    exact hX.2.1 (List.append_eq_nil.mp e).2
  unfold cleanDir
  by_cases hr : decide (D.head? = some '/') = true
  · simp only [hr, if_true]
    simp
  · simp only [hr, if_false, hbody, Bool.false_eq_true]
    simp


theorem weight_pos (st : List Str) (h : st ≠ []) : 1 ≤ weight st := by
  cases st with
  | nil => exact absurd rfl h
  | cons x xs => rw [weight_cons]; omega

theorem not_plain_cases (F : Str) (hF : '/' ∉ F) (hp : ¬ PlainElem F) :
    F = [] ∨ F = ['.'] ∨ F = ['.', '.'] := by
  unfold PlainElem at hp
  by_cases h1 : F = []
  · exact Or.inl h1
  · by_cases h2 : F = ['.']
    · exact Or.inr (Or.inl h2)
    · by_cases h3 : F = ['.', '.']
      · exact Or.inr (Or.inr h3)
      · exact absurd ⟨hF, h1, h2, h3⟩ hp

/-- A path that filepath.Clean leaves as it is has, in front of its last
element, exactly the text that Clean makes of the elements before it. -/
theorem cleanDir_core (r : Bool) (st : List Str) (D F : List Char)
    (hD : D = [] ∨ ∃ D0, D = D0 ++ ['/']) (hne : D ++ F ≠ [])
    (hw : (if r = true then 1 else 0) + weight st ≤ D.length)
    (hC : (if r = true then '/' :: joinElems (cleanElems r [F] st)
      else if joinElems (cleanElems r [F] st) = [] then ['.']
      else joinElems (cleanElems r [F] st)) = D ++ F) (hF : '/' ∉ F) :
    cleanDir r st = D := by
  have hKlen := cleanDir_length r st
  have hjl : ∀ xs : List Str, (joinElems xs).length ≤ weight xs := joinElems_length_le
  have hwr : ∀ xs : List Str, weight xs.reverse = weight xs := weight_reverse
  by_cases hp : PlainElem F
  · rw [cleanElems_plain r F st hp, joinElems_snoc] at hC
    have hne2 : ∀ a : List Char, a ++ F ≠ [] := by
      intro a e
      exact hp.2.1 (List.append_eq_nil.mp e).2
    have hst : (st.reverse = []) = (st = []) := by simp
    unfold cleanDir
    cases r with
    | true =>
      simp only [if_true, hst] at hC ⊢
      have : (['/'] ++ if st = [] then [] else joinElems st.reverse ++ ['/']) ++ F = D ++ F := by
        rw [← hC]; simp
      exact List.append_cancel_right this
    | false =>
      simp only [Bool.false_eq_true, if_false, hne2, hst] at hC ⊢
      have : ([] ++ if st = [] then [] else joinElems st.reverse ++ ['/']) ++ F = D ++ F := by
        rw [← hC]; simp
      exact List.append_cancel_right this
  · have hlast : ∀ (a D0 : List Char) (c : Char), c ≠ '/' → a ++ [c] = D0 ++ ['/'] → False := by
      intro a D0 c hc e
      have := congrArg List.getLast? e
      simp at this
      exact hc this
    rcases not_plain_cases F hF hp with h | h | h
    · -- the path ends in a slash
      subst h
      have hres : cleanElems r [[]] st = st.reverse := by simp [cleanElems]
      rw [hres, List.append_nil] at hC
      rw [List.append_nil] at hne
      rcases hD with hD | ⟨D0, hD⟩
      · exact absurd hD hne
      · by_cases hst : st = []
        · subst hst
          cases r with
          | true =>
            simp only [if_true, List.reverse_nil, joinElems] at hC
            rw [← hC]
            rfl
          | false =>
            simp only [Bool.false_eq_true, if_false, List.reverse_nil, joinElems, if_true] at hC
            rw [hD] at hC
            exact absurd hC (fun e => hlast [] D0 '.' (by decide) e)
        · have hr : st.reverse ≠ [] := by simpa using hst
          have hj := joinElems_length st.reverse hr
          rw [hwr] at hj
          have hlen := congrArg List.length hC
          cases r with
          | true =>
            simp only [if_true, List.length_cons] at hlen hw
            omega
          | false =>
            simp only [Bool.false_eq_true, if_false] at hlen hw hC
            by_cases hb : joinElems st.reverse = []
            · simp only [hb, if_true] at hC
              rw [hD] at hC
              exact absurd hC (fun e => hlast [] D0 '.' (by decide) e)
            · simp only [hb, if_false] at hlen
              omega
    · -- the last element is a dot
      subst h
      have hres : cleanElems r [['.']] st = st.reverse := by simp [cleanElems]
      rw [hres] at hC
      by_cases hst : st = []
      · subst hst
        cases r with
        | true =>
          simp only [if_true, List.reverse_nil, joinElems] at hC
          exfalso
          have := congrArg List.getLast? hC
          simp at this
        | false =>
          simp only [Bool.false_eq_true, if_false, List.reverse_nil, joinElems, if_true] at hC
          have : [] ++ ['.'] = D ++ ['.'] := by simpa using hC
          have hD2 := List.append_cancel_right this
          rw [← hD2]
          rfl
      · have hr : st.reverse ≠ [] := by simpa using hst
        have hj := joinElems_length st.reverse hr
        rw [hwr] at hj
        have hpos := weight_pos st hst
        have hlen := congrArg List.length hC
        cases r with
        | true =>
          simp only [if_true, List.length_cons, List.length_append, List.length_nil] at hlen hw
          omega
        | false =>
          simp only [Bool.false_eq_true, if_false] at hlen hw
          by_cases hb : joinElems st.reverse = []
          · simp only [hb, if_true, List.length_cons, List.length_append, List.length_nil] at hlen
            omega
          · simp only [hb, if_false, List.length_cons, List.length_append, List.length_nil] at hlen
            omega
    · -- the last element is dot-dot
      subst h
      cases st with
      | nil =>
        cases r with
        | true =>
          have hres : cleanElems true [['.', '.']] [] = [] := by simp [cleanElems]
          rw [hres] at hC
          simp only [if_true, joinElems] at hC
          have hlen := congrArg List.length hC
          simp at hlen
        | false =>
          have hres : cleanElems false [['.', '.']] [] = [['.', '.']] := by simp [cleanElems]
          rw [hres] at hC
          simp only [Bool.false_eq_true, if_false, joinElems] at hC
          have hC2 : [] ++ ['.', '.'] = D ++ ['.', '.'] := by simpa using hC
          have hD2 := List.append_cancel_right hC2
          rw [← hD2]
          rfl
      | cons top below =>
        by_cases htop : top = ['.', '.']
        · have hres : cleanElems r [['.', '.']] (top :: below)
              = (top :: below).reverse ++ [['.', '.']] := by
            simp [cleanElems, htop]
          rw [hres, joinElems_snoc] at hC
          have hne1 : (top :: below).reverse ≠ [] := by simp
          have hne2 : ∀ a : List Char, a ++ ['.', '.'] ≠ [] := by
            intro a e
            have := (List.append_eq_nil.mp e).2
            cases this
          unfold cleanDir
          cases r with
          | true =>
            simp only [if_true, hne1, if_false] at hC ⊢
            have : (['/'] ++ (joinElems (top :: below).reverse ++ ['/'])) ++ ['.', '.']
                = D ++ ['.', '.'] := by
              rw [← hC]; simp
            have := List.append_cancel_right this
            simpa using this
          | false =>
            simp only [Bool.false_eq_true, if_false, hne1, hne2] at hC ⊢
            have : ([] ++ (joinElems (top :: below).reverse ++ ['/'])) ++ ['.', '.']
                = D ++ ['.', '.'] := by
              rw [← hC]; simp
            have := List.append_cancel_right this
            simpa using this
        · have hres : cleanElems r [['.', '.']] (top :: below) = below.reverse := by
            simp [cleanElems, htop]
          rw [hres] at hC
          have hj := hjl below.reverse
          rw [hwr] at hj
          rw [weight_cons] at hw
          have hlen := congrArg List.length hC
          cases r with
          | true =>
            simp only [if_true, List.length_cons, List.length_append, List.length_nil] at hlen hw
            omega
          | false =>
            simp only [Bool.false_eq_true, if_false] at hlen hw
            by_cases hb : joinElems below.reverse = []
            · simp only [hb, if_true, List.length_cons, List.length_append,
                List.length_nil] at hlen
              omega
            · simp only [hb, if_false, List.length_cons, List.length_append,
                List.length_nil] at hlen
              omega

/-- Replacing the last element of a cleaned path by a plain element gives a
cleaned path. -/
theorem Clean_replace_last (D F X : List Char) (hF : '/' ∉ F) (hX : PlainElem X)
    (hD : D = [] ∨ ∃ D0, D = D0 ++ ['/']) (hc : Clean (D ++ F) = D ++ F) :
    Clean (D ++ X) = D ++ X := by
  obtain ⟨es, hes, hw⟩ := pathElems_last D hD
  rw [Clean_plain_last D X hX hD es hes]
  congr 1
  have hne : D ++ F ≠ [] := by
    intro e
    rw [e] at hc
    simp [Clean] at hc
  rw [Clean_of_parts D F hF hD es hes hne] at hc
  apply cleanDir_core _ _ D F hD hne _ hc hF
  rw [weight_reverse]
  simpa using hw


theorem Ext_noSlash (t : Str) : '/' ∉ Ext t := by
  rcases Ext_spec t with h | ⟨_, e, _, he, _, h2⟩
  · rw [h]; simp
  · rw [he]
    intro hm
    rcases List.mem_cons.mp hm with e1 | e1
    · revert e1; decide
    · exact h2 e1

theorem plain_of_underscore (X : Str) (h1 : '/' ∉ X) (h2 : '_' ∈ X) : PlainElem X := by
  refine ⟨h1, ?_, ?_, ?_⟩
  · intro e; rw [e] at h2; simp at h2
  · intro e; rw [e] at h2; revert h2; decide
  · intro e; rw [e] at h2; revert h2; decide

/-- The template splits into a directory part, ending in a slash or empty, and
a last element that contains the extension. -/
theorem template_dir_split (t : Str) :
    ∃ D G : Str, (D = [] ∨ ∃ D0, D = D0 ++ ['/']) ∧ baseOf t = D ++ G ∧ '/' ∉ G := by
  have hs : baseOf t ++ Ext t = t := name_split t
  have hE := Ext_noSlash t
  rcases last_split '/' t with hn | ⟨w, F, ht, hF⟩
  · refine ⟨[], baseOf t, Or.inl rfl, rfl, ?_⟩
    intro hm
    apply hn
    rw [← hs]
    exact List.mem_append_left _ hm
  · have heq : baseOf t ++ Ext t = (w ++ ['/']) ++ F := by
      rw [hs, ht]; simp
    rcases List.append_eq_append_iff.mp heq with ⟨a, ha1, ha2⟩ | ⟨c, hc1, hc2⟩
    · have hane : a = [] := by
        by_contra hne
        have hl := congrArg List.getLast? ha1
        rw [List.getLast?_append_of_ne_nil _ hne] at hl
        simp at hl
        have hmem : '/' ∈ a := by
          rcases List.getLast?_eq_some_iff.mp hl.symm with ⟨ys, hys⟩
          rw [hys]; simp
        apply hE
        rw [ha2]
        exact List.mem_append_left _ hmem
      subst hane
      refine ⟨w ++ ['/'], [], Or.inr ⟨w, rfl⟩, ?_, by simp⟩
      simpa using ha1.symm
    · refine ⟨w ++ ['/'], c, Or.inr ⟨w, rfl⟩, hc1, ?_⟩
      intro hm
      apply hF
      rw [hc2]
      exact List.mem_append_left _ hm

theorem clean_indexedName (t : Str) (hc : Clean t = t) (i : Int) :
    Clean (indexedName t i) = indexedName t i := by
  obtain ⟨D, G, hD, hb, hG⟩ := template_dir_split t
  have hs : baseOf t ++ Ext t = t := name_split t
  have hE := Ext_noSlash t
  have ht : t = D ++ (G ++ Ext t) := by
    rw [← List.append_assoc, ← hb, hs]
  have hi : indexedName t i = D ++ (G ++ '_' :: Itoa i ++ Ext t) := by
    unfold indexedName
    rw [hb]
    simp
  have hF : '/' ∉ G ++ Ext t := by
    intro hm
    rcases List.mem_append.mp hm with h | h
    · exact hG h
    · exact hE h
  have hX : PlainElem (G ++ '_' :: Itoa i ++ Ext t) := by
    apply plain_of_underscore
    · intro hm
      simp only [List.mem_append, List.mem_cons] at hm
      rcases hm with (h | h | h) | h
      · exact hG h
      · revert h; decide
      · exact (Itoa_chars i _ h).2.2 rfl
      · exact hE h
    · simp
  rw [hi]
  apply Clean_replace_last D (G ++ Ext t) _ hF hX hD
  rw [← ht]
  exact hc


/-- Names that setFileIndex makes from a cleaned path are cleaned paths. -/
theorem clean_setFileIndex (x : Str) (hc : Clean x = x) (k : Int) :
    Clean (setFileIndex x k) = setFileIndex x k := by
  obtain ⟨D, G, hD, hb, hG⟩ := template_dir_split x
  have hs : baseOf x ++ Ext x = x := name_split x
  have hE := Ext_noSlash x
  have hx : x = D ++ (G ++ Ext x) := by
    rw [← List.append_assoc, ← hb, hs]
  have hF : '/' ∉ G ++ Ext x := by
    intro hm
    rcases List.mem_append.mp hm with h | h
    · exact hG h
    · exact hE h
  obtain ⟨G1, hst, hG1⟩ : ∃ G1, stem x = D ++ G1 ∧ '/' ∉ G1 := by
    rcases stem_cases x with ⟨h1, _⟩ | ⟨t, k1, h1, hk1⟩
    · exact ⟨G, by rw [h1]; exact hb, hG⟩
    · have heq : D ++ G = stem x ++ '_' :: t := by
        rw [← hb]; exact h1
      rcases List.append_eq_append_iff.mp heq with ⟨a, ha1, ha2⟩ | ⟨c, hc1, hc2⟩
      · refine ⟨a, ha1, ?_⟩
        intro hm
        apply hG
        rw [ha2]
        exact List.mem_append_left _ hm
      · have hcn : '/' ∉ c := by
          intro hm
          have hmem : '/' ∈ '_' :: t := by
            rw [hc2]
            exact List.mem_append_left _ hm
          rcases List.mem_cons.mp hmem with e | e
          · revert e; decide
          · exact (Atoi_some_chars t k1 hk1 _ e).2.2 rfl
        have hcnil : c = [] := by
          by_contra hne
          rcases hD with hD | ⟨D0, hD⟩
          · rw [hD] at hc1
            exact hne (List.append_eq_nil.mp hc1.symm).2
          · have hl := congrArg List.getLast? hc1
            rw [hD, List.getLast?_append_of_ne_nil _ hne] at hl
            simp at hl
            rcases List.getLast?_eq_some_iff.mp hl.symm with ⟨ys, hys⟩
            apply hcn
            rw [hys]
            simp
        subst hcnil
        exact ⟨[], by simpa using hc1.symm, by simp⟩
  have hi : setFileIndex x k = D ++ (G1 ++ '_' :: Itoa k ++ Ext x) := by
    rw [setFileIndex_eq, hst]
    simp
  have hX : PlainElem (G1 ++ '_' :: Itoa k ++ Ext x) := by
    apply plain_of_underscore
    · intro hm
      simp only [List.mem_append, List.mem_cons] at hm
      rcases hm with (h | h | h) | h
      · exact hG1 h
      · revert h; decide
      · exact (Itoa_chars k _ h).2.2 rfl
      · exact hE h
    · simp
  rw [hi]
  apply Clean_replace_last D (G ++ Ext x) _ hF hX hD
  rw [← hx]
  exact hc


/-! ## Runs of the writer on a template of its own making -/

theorem indexedName_ne_nil (t : Str) (i : Int) : indexedName t i ≠ [] := by
  unfold indexedName
  simp

theorem setFileIndex_indexedName (t : Str) (i k : Int) (hi : minInt ≤ i ∧ i ≤ maxInt) :
    setFileIndex (indexedName t i) k = indexedName t k := by
  have h := indexedName_facts t i hi.1 hi.2
  rw [setFileIndex_eq, h.1, h.2.2]
  rfl

theorem nat_range (i : Nat) (h : (i : Int) ≤ maxInt) :
    minInt ≤ (i : Int) ∧ (i : Int) ≤ maxInt := by
  refine ⟨?_, h⟩
  unfold minInt
  omega

/-- The listing of a disk whose matching files are own files with indices up
to m, the file number m being there: filename takes file number m. -/
theorem own_listing (L : Lib) (hL : L.Lawful) (t : Str) (hT : PlainTemplate t) (d : Disk)
    (m : Nat) (hmem : indexedName t (m : Int) ∈ d.names) (hown : OwnFiles t d (m + 1))
    (hm : (m : Int) ≤ maxInt) :
    ∃ found, Glob L d (globPattern t) = some found ∧ found ≠ [] ∧
      lastOf L found = indexedName t (m : Int) := by
  obtain ⟨found, hg, hf⟩ := Glob_plain L hL t hT.1 d
  have hin : indexedName t (m : Int) ∈ found :=
    (hf _).mpr ⟨hmem, starMatch_indexedName t _⟩
  have hne : found ≠ [] := List.ne_nil_of_mem hin
  have hS : ∀ x ∈ found, ∃ i : Nat, i < m + 1 ∧ x = indexedName t (i : Int) := by
    intro x hx
    exact hown x ((hf x).mp hx).1 ((hf x).mp hx).2
  have hfam : ∀ x ∈ found, ∀ y ∈ found, withoutIndex x = withoutIndex y := by
    intro x hx y hy
    rcases hS x hx with ⟨i, _, rfl⟩
    rcases hS y hy with ⟨j, _, rfl⟩
    rw [withoutIndex_indexedName _ _ hT.2.1, withoutIndex_indexedName _ _ hT.2.1]
  have hlast := lastOf_sameFamily L hL found hne hfam
  rcases hS _ hlast.1 with ⟨j, hj, hje⟩
  refine ⟨found, hg, hne, ?_⟩
  have h1 := hlast.2 _ hin
  have hjr : (j : Int) ≤ maxInt := by omega
  rw [hje, (indexedName_facts t j (nat_range j hjr).1 hjr).2.1,
    (indexedName_facts t m (nat_range m hm).1 hm).2.1] at h1
  have : j = m := by omega
  rw [hje, this]

theorem Tracking_target (L : Lib) (hL : L.Lawful) (t : Str) (lim : Int) (hT : PlainTemplate t)
    (o : FileOutput) (d : Disk) (m : Nat) (hJ : Tracking t lim o d m) (hm : (m : Int) < maxInt) :
    o.target L d = indexedName t (if o.nextChunk = true then (m : Int) + 1 else (m : Int)) := by
  obtain ⟨hpt, _, _, _, _, hmem, hown⟩ := hJ
  have hmaxI : maxInt = 9223372036854775807 := rfl
  have hminI : minInt = -9223372036854775808 := rfl
  obtain ⟨found, hg, hne, hlast⟩ := own_listing L hL t hT d m hmem hown (by omega)
  have hidx := (indexedName_facts t m (by omega) (by omega)).2.1
  unfold FileOutput.target
  rw [filename_cons L o (Glob L d) found (by rw [hpt]; exact hg) hne, hlast,
    setFileIndex_indexedName t _ _ (by constructor <;> omega)]
  have hti : targetIndex o (indexedName t (m : Int))
      = (if o.nextChunk = true then (m : Int) + 1 else (m : Int)) := by
    unfold targetIndex
    rw [hidx]
    have hne1 : ((m : Int) ≠ -1) := by omega
    simp only [hne1, ne_eq, not_false_eq_true, if_true]
    split
    · exact wrapInt_of_range _ (by omega) (by omega)
    · rfl
  rw [hti]
  exact clean_indexedName t hT.2.2.2 _

theorem Tracking_keep (L : Lib) (hL : L.Lawful) (t : Str) (lim : Int) (hT : PlainTemplate t)
    (o : FileOutput) (d : Disk) (m : Nat) (hJ : Tracking t lim o d m) (hm : (m : Int) < maxInt)
    (hn : o.nextChunk = false) (ev : OSEvents) (p : Str) :
    o.Write L d ev p = WriteResult.returned
      ⟨t, indexedName t (m : Int),
        wrapInt (o.currentFileSize + ((min ev.accepted p.length : Nat) : Int)),
        o.file, o.writer, lim, o.closed⟩
      (d.append (indexedName t (m : Int)) (p.take (min ev.accepted p.length)))
      ((min ev.accepted p.length : Nat) : Int)
      (decide (min ev.accepted p.length < p.length)) ∧
    Tracking t lim
      ⟨t, indexedName t (m : Int),
        wrapInt (o.currentFileSize + ((min ev.accepted p.length : Nat) : Int)),
        o.file, o.writer, lim, o.closed⟩
      (d.append (indexedName t (m : Int)) (p.take (min ev.accepted p.length))) m := by
  have htar := Tracking_target L hL t lim hT o d m hJ hm
  simp only [hn, Bool.false_eq_true, if_false] at htar
  obtain ⟨hpt, hsl, hfile, hwr, _, hmem, hown⟩ := hJ
  constructor
  · rw [Write_same L o d ev p (by rw [htar]; exact hfile) (by rw [htar]; exact hwr),
      htar, hpt, hsl]
  · refine ⟨rfl, rfl, hfile, hwr, rfl, ?_, ?_⟩
    · rw [names_append]; exact hmem
    · intro x hx
      rw [names_append] at hx
      exact hown x hx

theorem Tracking_rotate (L : Lib) (hL : L.Lawful) (t : Str) (lim : Int) (hT : PlainTemplate t)
    (o : FileOutput) (d : Disk) (m : Nat) (hJ : Tracking t lim o d m) (hm : (m : Int) < maxInt)
    (hn : o.nextChunk = true) (ev : OSEvents) (p : Str) (hok : ev.openOk = true) :
    o.Write L d ev p = WriteResult.returned
      ⟨t, indexedName t ((m : Int) + 1),
        wrapInt (0 + ((min ev.accepted p.length : Nat) : Int)),
        some (indexedName t ((m : Int) + 1)), some (indexedName t ((m : Int) + 1)), lim, true⟩
      ((d.create (indexedName t ((m : Int) + 1))).append (indexedName t ((m : Int) + 1))
        (p.take (min ev.accepted p.length)))
      ((min ev.accepted p.length : Nat) : Int)
      (decide (min ev.accepted p.length < p.length)) ∧
    Tracking t lim
      ⟨t, indexedName t ((m : Int) + 1),
        wrapInt (0 + ((min ev.accepted p.length : Nat) : Int)),
        some (indexedName t ((m : Int) + 1)), some (indexedName t ((m : Int) + 1)), lim, true⟩
      ((d.create (indexedName t ((m : Int) + 1))).append (indexedName t ((m : Int) + 1))
        (p.take (min ev.accepted p.length))) (m + 1) ∧
    indexedName t ((m : Int) + 1) ∉ d.names := by
  have htar := Tracking_target L hL t lim hT o d m hJ hm
  simp only [hn, if_true] at htar
  obtain ⟨hpt, hsl, hfile, hwr, _, hmem, hown⟩ := hJ
  have hmaxI : maxInt = 9223372036854775807 := rfl
  have hminI : minInt = -9223372036854775808 := rfl
  have hneq : indexedName t ((m : Int) + 1) ≠ indexedName t (m : Int) := by
    intro e
    have := indexedName_inj t _ _ (by constructor <;> omega) (by constructor <;> omega) e
    omega
  have hnot : indexedName t ((m : Int) + 1) ∉ d.names := by
    intro hin
    rcases hown _ hin (starMatch_indexedName t _) with ⟨i, hi, he⟩
    have := indexedName_inj t _ _ (by constructor <;> omega) (by constructor <;> omega) he
    omega
  have hcast : (((m + 1 : Nat) : Int)) = (m : Int) + 1 := by push_cast; rfl
  refine ⟨?_, ?_, hnot⟩
  · rw [Write_reopen L o d ev p (by rw [htar, hfile]; intro e; exact hneq (Option.some.inj e).symm)
      hok, htar, hpt, hsl]
  · refine ⟨rfl, rfl, by rw [hcast], by rw [hcast], by rw [hcast], ?_, ?_⟩
    · rw [names_append, names_create, hcast]
      exact Or.inl rfl
    · intro x hx hmatch
      rw [names_append, names_create] at hx
      rcases hx with e | e
      · exact ⟨m + 1, by omega, by rw [e, hcast]⟩
      · rcases hown x e hmatch with ⟨i, hi, he⟩
        exact ⟨i, by omega, he⟩


theorem fresh_target (L : Lib) (hL : L.Lawful) (t : Str) (lim : Int) (hT : PlainTemplate t)
    (d : Disk) (N : Nat) (hown : OwnFiles t d N) (hN : (N : Int) ≤ maxInt) :
    ∃ m : Nat, m ≤ N ∧ (NewFileOutput t lim).target L d = indexedName t (m : Int) ∧
      indexedName t (m : Int) ∉ d.names ∧ OwnFiles t d m ∧
      ((∀ x ∈ d.names, starMatch (baseOf t) (Ext t) x = false) → m = 0) := by
  have hmaxI : maxInt = 9223372036854775807 := rfl
  have hminI : minInt = -9223372036854775808 := rfl
  obtain ⟨found, hg, hf⟩ := Glob_plain L hL t hT.1 d
  by_cases hne : found = []
  · subst hne
    have hnone : ∀ x ∈ d.names, starMatch (baseOf t) (Ext t) x = true → False := by
      intro x hx hmx
      have := (hf x).mpr ⟨hx, hmx⟩
      simp at this
    refine ⟨0, by omega, ?_, ?_, ?_, fun _ => rfl⟩
    · unfold FileOutput.target
      rw [filename_nil L _ (Glob L d) hg]
      show Clean (setFileIndex t 0) = _
      rw [setFileIndex_eq, hT.2.2.1]
      exact clean_indexedName t hT.2.2.2 0
    · intro hin
      exact hnone _ hin (starMatch_indexedName t _)
    · intro x hx hmx
      exact absurd hmx (fun h => hnone x hx h)
  · have hS : ∀ x ∈ found, ∃ i : Nat, i < N ∧ x = indexedName t (i : Int) := by
      intro x hx
      exact hown x ((hf x).mp hx).1 ((hf x).mp hx).2
    have hfam : ∀ x ∈ found, ∀ y ∈ found, withoutIndex x = withoutIndex y := by
      intro x hx y hy
      rcases hS x hx with ⟨i, _, rfl⟩
      rcases hS y hy with ⟨j, _, rfl⟩
      rw [withoutIndex_indexedName _ _ hT.2.1, withoutIndex_indexedName _ _ hT.2.1]
    have hlast := lastOf_sameFamily L hL found hne hfam
    rcases hS _ hlast.1 with ⟨M, hM, hMe⟩
    have hidxM := (indexedName_facts t M (by omega) (by omega)).2.1
    have hbelow : ∀ x ∈ d.names, starMatch (baseOf t) (Ext t) x = true →
        ∃ i : Nat, i < M + 1 ∧ x = indexedName t (i : Int) := by
      intro x hx hmx
      have hxf : x ∈ found := (hf x).mpr ⟨hx, hmx⟩
      rcases hS x hxf with ⟨i, hi, he⟩
      have h1 := hlast.2 x hxf
      rw [hMe, hidxM, he, (indexedName_facts t i (by omega) (by omega)).2.1] at h1
      exact ⟨i, by omega, he⟩
    have hcast : (((M + 1 : Nat) : Int)) = (M : Int) + 1 := by push_cast; rfl
    refine ⟨M + 1, by omega, ?_, ?_, hbelow, ?_⟩
    · unfold FileOutput.target
      rw [filename_cons L _ (Glob L d) found hg hne, hMe,
        setFileIndex_indexedName t _ _ (by constructor <;> omega)]
      have hti : targetIndex (NewFileOutput t lim) (indexedName t (M : Int))
          = (M : Int) + 1 := by
        unfold targetIndex
        rw [nextChunk_fresh, hidxM]
        have hne1 : ((M : Int) ≠ -1) := by omega
        simp only [hne1, ne_eq, not_false_eq_true, if_true]
        exact wrapInt_of_range _ (by omega) (by omega)
      rw [hti, hcast]
      exact clean_indexedName t hT.2.2.2 _
    · intro hin
      rcases hbelow _ hin (starMatch_indexedName t _) with ⟨i, hi, he⟩
      have := indexedName_inj t _ _ (by constructor <;> omega) (by constructor <;> omega) he
      omega
    · intro hno
      exfalso
      have hx := (hf _).mp hlast.1
      rw [hno _ hx.1] at hx
      exact absurd hx.2 (by simp)

theorem fresh_first (L : Lib) (hL : L.Lawful) (t : Str) (lim : Int) (hT : PlainTemplate t)
    (d : Disk) (N : Nat) (hown : OwnFiles t d N) (hN : (N : Int) ≤ maxInt)
    (ev : OSEvents) (p : Str) (hok : ev.openOk = true) :
    ∃ m : Nat, m ≤ N ∧
      (NewFileOutput t lim).Write L d ev p = WriteResult.returned
        ⟨t, indexedName t (m : Int), wrapInt (0 + ((min ev.accepted p.length : Nat) : Int)),
          some (indexedName t (m : Int)), some (indexedName t (m : Int)), lim, true⟩
        ((d.create (indexedName t (m : Int))).append (indexedName t (m : Int))
          (p.take (min ev.accepted p.length)))
        ((min ev.accepted p.length : Nat) : Int)
        (decide (min ev.accepted p.length < p.length)) ∧
      Tracking t lim
        ⟨t, indexedName t (m : Int), wrapInt (0 + ((min ev.accepted p.length : Nat) : Int)),
          some (indexedName t (m : Int)), some (indexedName t (m : Int)), lim, true⟩
        ((d.create (indexedName t (m : Int))).append (indexedName t (m : Int))
          (p.take (min ev.accepted p.length))) m ∧
      indexedName t (m : Int) ∉ d.names ∧ OwnFiles t d m ∧
      ((∀ x ∈ d.names, starMatch (baseOf t) (Ext t) x = false) → m = 0) := by
  obtain ⟨m, hmN, htar, hnot, hown2, hzero⟩ := fresh_target L hL t lim hT d N hown hN
  refine ⟨m, hmN, ?_, ?_, hnot, hown2, hzero⟩
  · rw [Write_reopen L _ d ev p (by simp [NewFileOutput]) hok, htar]
    rfl
  · refine ⟨rfl, rfl, rfl, rfl, rfl, ?_, ?_⟩
    · rw [names_append, names_create]
      exact Or.inl rfl
    · intro x hx hmatch
      rw [names_append, names_create] at hx
      rcases hx with e | e
      · exact ⟨m, by omega, e⟩
      · rcases hown2 x e hmatch with ⟨i, hi, he⟩
        exact ⟨i, by omega, he⟩

theorem Tracking_step (L : Lib) (hL : L.Lawful) (t : Str) (lim : Int) (hT : PlainTemplate t)
    (o : FileOutput) (d : Disk) (m : Nat) (hJ : Tracking t lim o d m) (hm : (m : Int) < maxInt)
    (ev : OSEvents) (p : Str) (hok : ev.openOk = true) :
    ∃ o1 d1 n err m1, o.Write L d ev p = WriteResult.returned o1 d1 n err ∧
      Tracking t lim o1 d1 m1 ∧ m ≤ m1 ∧ m1 ≤ m + 1 := by
  by_cases hn : o.nextChunk = true
  · have h := Tracking_rotate L hL t lim hT o d m hJ hm hn ev p hok
    exact ⟨_, _, _, _, m + 1, h.1, h.2.1, by omega, by omega⟩
  · have hn2 : o.nextChunk = false := by simpa using hn
    have h := Tracking_keep L hL t lim hT o d m hJ hm hn2 ev p
    exact ⟨_, _, _, _, m, h.1, h.2, by omega, by omega⟩

theorem Tracking_of_returned (L : Lib) (hL : L.Lawful) (t : Str) (lim : Int)
    (hT : PlainTemplate t) (o : FileOutput) (d : Disk) (m : Nat) (hJ : Tracking t lim o d m)
    (hm : (m : Int) < maxInt) (ev : OSEvents) (p : Str) (o1 : FileOutput) (d1 : Disk) (n : Int)
    (err : Bool) (hw : o.Write L d ev p = WriteResult.returned o1 d1 n err) :
    ∃ m1, Tracking t lim o1 d1 m1 ∧ m ≤ m1 ∧ m1 ≤ m + 1 := by
  have hmaxI : maxInt = 9223372036854775807 := rfl
  have hminI : minInt = -9223372036854775808 := rfl
  by_cases hn : o.nextChunk = true
  · by_cases hok : ev.openOk = true
    · have h := Tracking_rotate L hL t lim hT o d m hJ hm hn ev p hok
      rw [h.1] at hw
      cases hw
      exact ⟨m + 1, h.2.1, by omega, by omega⟩
    · exfalso
      have hok2 : ev.openOk = false := by simpa using hok
      have htar := Tracking_target L hL t lim hT o d m hJ hm
      simp only [hn, if_true] at htar
      have hne : o.file ≠ some (o.target L d) := by
        rw [htar, hJ.2.2.1]
        intro e
        have := indexedName_inj t _ _ (by constructor <;> omega) (by constructor <;> omega)
          (Option.some.inj e)
        omega
      rw [Write_fatal L o d ev p hne hok2] at hw
      cases hw
  · have hn2 : o.nextChunk = false := by simpa using hn
    have h := Tracking_keep L hL t lim hT o d m hJ hm hn2 ev p
    rw [h.1] at hw
    cases hw
    exact ⟨m, h.2, by omega, by omega⟩

theorem fresh_of_returned (L : Lib) (hL : L.Lawful) (t : Str) (lim : Int) (hT : PlainTemplate t)
    (d : Disk) (N : Nat) (hown : OwnFiles t d N) (hN : (N : Int) ≤ maxInt)
    (ev : OSEvents) (p : Str) (o1 : FileOutput) (d1 : Disk) (n : Int) (err : Bool)
    (hw : (NewFileOutput t lim).Write L d ev p = WriteResult.returned o1 d1 n err) :
    ∃ m, Tracking t lim o1 d1 m ∧ m ≤ N := by
  by_cases hok : ev.openOk = true
  · obtain ⟨m, hmN, hw2, hJ, _⟩ := fresh_first L hL t lim hT d N hown hN ev p hok
    rw [hw2] at hw
    cases hw
    exact ⟨m, hJ, hmN⟩
  · exfalso
    have hok2 : ev.openOk = false := by simpa using hok
    rw [Write_fatal L _ d ev p (by simp [NewFileOutput]) hok2] at hw
    cases hw

theorem run_returned (L : Lib) (hL : L.Lawful) (t : Str) (lim : Int) (hT : PlainTemplate t) :
    ∀ (calls : List (OSEvents × Str)) (o : FileOutput) (d : Disk) (m : Nat)
      (o1 : FileOutput) (d1 : Disk),
      Tracking t lim o d m → ((m : Int) + calls.length ≤ maxInt) →
      runWrites L o d calls = some (o1, d1) →
      ∃ m1, Tracking t lim o1 d1 m1 ∧ m ≤ m1 ∧ m1 ≤ m + calls.length := by
  intro calls
  induction calls with
  | nil =>
    intro o d m o1 d1 hJ _ hr
    simp only [runWrites] at hr
    cases hr
    exact ⟨m, hJ, by omega, by simp⟩
  | cons c cs ih =>
    intro o d m o1 d1 hJ hb hr
    simp only [List.length_cons] at hb
    push_cast at hb
    simp only [runWrites] at hr
    cases hw : o.Write L d c.1 c.2 with
    | fatal a b =>
      rw [hw] at hr
      cases hr
    | returned o2 d2 n err =>
      rw [hw] at hr
      obtain ⟨m2, hJ2, h1, h2⟩ :=
        Tracking_of_returned L hL t lim hT o d m hJ (by omega) c.1 c.2 o2 d2 n err hw
      obtain ⟨m3, hJ3, h3, h4⟩ := ih o2 d2 m2 o1 d1 hJ2 (by omega) hr
      refine ⟨m3, hJ3, by omega, ?_⟩
      simp only [List.length_cons]
      omega

/-- After at least one Write call that returns, on a fresh writer and a disk
whose matching files are own files, the writer tracks one of the template's
files. -/
theorem reach_returned (L : Lib) (hL : L.Lawful) (t : Str) (lim : Int) (hT : PlainTemplate t)
    (d0 : Disk) (N : Nat) (hown : OwnFiles t d0 N) (calls : List (OSEvents × Str))
    (hne : calls ≠ []) (hb : (N : Int) + calls.length ≤ maxInt)
    (o : FileOutput) (d : Disk) (hrun : runWrites L (NewFileOutput t lim) d0 calls = some (o, d)) :
    ∃ m, Tracking t lim o d m ∧ (m : Int) < (N : Int) + calls.length := by
  cases calls with
  | nil => exact absurd rfl hne
  | cons c cs =>
    simp only [List.length_cons] at hb
    push_cast at hb
    simp only [runWrites] at hrun
    cases hw : (NewFileOutput t lim).Write L d0 c.1 c.2 with
    | fatal a b =>
      rw [hw] at hrun
      cases hrun
    | returned o2 d2 n err =>
      rw [hw] at hrun
      obtain ⟨m, hJ, hmN⟩ := fresh_of_returned L hL t lim hT d0 N hown (by omega) c.1 c.2 o2 d2 n err hw
      obtain ⟨m3, hJ3, h3, h4⟩ := run_returned L hL t lim hT cs o2 d2 m o d hJ (by omega) hrun
      refine ⟨m3, hJ3, ?_⟩
      simp only [List.length_cons]
      push_cast
      omega


/-! ## Contents -/

theorem read_some_of_mem (n : Str) : ∀ (d : Disk), n ∈ d.names → ∃ c, d.read n = some c := by
  intro d
  induction d with
  | nil => intro h; simp [Disk.names] at h
  | cons e es ih =>
    intro h
    by_cases he : e.1 = n
    · exact ⟨e.2, by simp [Disk.read, he]⟩
    · have : n ∈ Disk.names es := by
        simp only [Disk.names, List.map_cons, List.mem_cons] at h
        rcases h with h | h
        · exact absurd h.symm he
        · exact h
      obtain ⟨c, hc⟩ := ih this
      exact ⟨c, by simp [Disk.read, he, hc]⟩

theorem content_append_same (d : Disk) (n b : Str) (h : n ∈ d.names) :
    (d.append n b).content n = d.content n ++ b := by
  obtain ⟨c, hc⟩ := read_some_of_mem n d h
  unfold Disk.content
  rw [read_append_same, hc]
  rfl

theorem content_append_ne (d : Disk) (n b x : Str) (h : x ≠ n) :
    (d.append n b).content x = d.content x := by
  unfold Disk.content
  rw [read_append_ne n b x h]

theorem content_create_same (d : Disk) (n : Str) : (d.create n).content n = [] := by
  unfold Disk.content
  rw [read_create_same]
  rfl

theorem content_create_ne (d : Disk) (n x : Str) (h : x ≠ n) :
    (d.create n).content x = d.content x := by
  unfold Disk.content
  rw [read_create_ne d n x h]

theorem chain_congr (t : Str) (d1 d2 : Disk) : ∀ (k : Nat),
    (∀ i : Nat, i ≤ k → d1.content (indexedName t (i : Int)) = d2.content (indexedName t (i : Int))) →
    chain t d1 k = chain t d2 k := by
  intro k
  induction k with
  | zero => intro h; exact h 0 (Nat.le_refl 0)
  | succ k ih =>
    intro h
    simp only [chain]
    rw [ih (fun i hi => h i (by omega)), h (k + 1) (Nat.le_refl _)]

theorem concatAll_append (a b : List Str) : concatAll (a ++ b) = concatAll a ++ concatAll b := by
  induction a with
  | nil => rfl
  | cons x xs ih => simp [concatAll, ih]

theorem min_self_length (p : Str) : min (allOk p).accepted p.length = p.length := by
  simp [allOk]

/-- One fully served Write on a tracking writer: the chain of contents grows by
the buffer, the size counter follows the byte count of the open file. -/
theorem full_step (L : Lib) (hL : L.Lawful) (t : Str) (lim : Int) (hT : PlainTemplate t)
    (o : FileOutput) (d : Disk) (m : Nat) (hJ : Tracking t lim o d m) (hm : (m : Int) < maxInt)
    (p : Str) :
    ∃ o1 d1 m1, o.Write L d (allOk p) p = WriteResult.returned o1 d1 (p.length : Int) false ∧
      Tracking t lim o1 d1 m1 ∧ m ≤ m1 ∧ m1 ≤ m + 1 ∧
      chain t d1 m1 = chain t d m ++ p ∧
      ((∀ i : Nat, i ≤ m → indexedName t (i : Int) ∈ d.names) →
        (∀ i : Nat, i ≤ m1 → indexedName t (i : Int) ∈ d1.names)) ∧
      (o1.file = o.file → o.nextChunk = false) ∧
      (o.nextChunk = false → o1.currentFileSize = wrapInt (o.currentFileSize + p.length) ∧
        d1.content (indexedName t (m1 : Int)) = d.content (indexedName t (m : Int)) ++ p) ∧
      (o.nextChunk = true → o1.currentFileSize = wrapInt (0 + p.length) ∧
        d1.content (indexedName t (m1 : Int)) = p) := by
  have hmaxI : maxInt = 9223372036854775807 := rfl
  have hminI : minInt = -9223372036854775808 := rfl
  have hmin := min_self_length p
  have hmem := hJ.2.2.2.2.2.1
  have hfile := hJ.2.2.1
  have hne : ∀ i : Nat, i ≤ m → ∀ k : Nat, k = m + 1 →
      indexedName t (i : Int) ≠ indexedName t (k : Int) := by
    intro i hi k hk e
    have := indexedName_inj t _ _ (by constructor <;> omega) (by constructor <;> omega) e
    omega
  by_cases hn : o.nextChunk = true
  · obtain ⟨hw, hJ1, hnot⟩ := Tracking_rotate L hL t lim hT o d m hJ hm hn (allOk p) p rfl
    have hcast : (((m + 1 : Nat) : Int)) = (m : Int) + 1 := by push_cast; rfl
    rw [hmin, List.take_length] at hw hJ1
    have hdec : decide (p.length < p.length) = false := by simp
    rw [hdec] at hw
    have hnew : ((d.create (indexedName t ((m : Int) + 1))).append (indexedName t ((m : Int) + 1)) p).content
        (indexedName t ((m : Int) + 1)) = p := by
      rw [content_append_same _ _ _ (by rw [names_create]; exact Or.inl rfl), content_create_same]
      rfl
    refine ⟨_, _, m + 1, hw, hJ1, by omega, by omega, ?_, ?_, ?_, ?_, ?_⟩
    · simp only [chain]
      rw [hcast, hnew]
      congr 1
      apply chain_congr
      intro i hi
      have hx := hne i hi (m + 1) rfl
      rw [hcast] at hx
      rw [content_append_ne _ _ _ _ hx, content_create_ne _ _ _ hx]
    · intro hall i hi
      rw [names_append, names_create]
      by_cases him : i ≤ m
      · exact Or.inr (hall i him)
      · left
        have : i = m + 1 := by omega
        rw [this, hcast]
    · intro e
      exfalso
      rw [hfile] at e
      have := hne m (Nat.le_refl m) (m + 1) rfl
      rw [hcast] at this
      exact this (Option.some.inj e).symm
    · intro h2
      rw [hn] at h2
      cases h2
    · intro _
      exact ⟨rfl, by rw [hcast]; exact hnew⟩
  · have hn2 : o.nextChunk = false := by simpa using hn
    obtain ⟨hw, hJ1⟩ := Tracking_keep L hL t lim hT o d m hJ hm hn2 (allOk p) p
    rw [hmin, List.take_length] at hw hJ1
    have hdec : decide (p.length < p.length) = false := by simp
    rw [hdec] at hw
    have hnew : (d.append (indexedName t (m : Int)) p).content (indexedName t (m : Int))
        = d.content (indexedName t (m : Int)) ++ p := content_append_same _ _ _ hmem
    refine ⟨_, _, m, hw, hJ1, by omega, by omega, ?_, ?_, ?_, ?_, ?_⟩
    · cases m with
      | zero =>
        simp only [chain]
        exact hnew
      | succ k =>
        simp only [chain]
        rw [hnew, ← List.append_assoc]
        congr 2
        apply chain_congr
        intro i hi
        have hx : indexedName t (i : Int) ≠ indexedName t ((k + 1 : Nat) : Int) := by
          intro e
          have := indexedName_inj t _ _ (by constructor <;> omega) (by constructor <;> omega) e
          omega
        rw [content_append_ne _ _ _ _ hx]
    · intro hall i hi
      rw [names_append]
      exact hall i hi
    · intro _
      exact hn2
    · intro _
      exact ⟨rfl, hnew⟩
    · intro h2
      rw [hn2] at h2
      cases h2


theorem writeAll_cons (L : Lib) (o : FileOutput) (d : Disk) (p : Str) (ps : List Str)
    (o1 : FileOutput) (d1 : Disk) (n : Int) (err : Bool)
    (h : o.Write L d (allOk p) p = WriteResult.returned o1 d1 n err) :
    writeAll L o d (p :: ps) = writeAll L o1 d1 ps := by
  unfold writeAll fullCalls
  simp only [List.map_cons, runWrites, h]

theorem writeAll_nil (L : Lib) (o : FileOutput) (d : Disk) : writeAll L o d [] = some (o, d) := rfl

theorem writeAll_append (L : Lib) : ∀ (ps : List Str) (o : FileOutput) (d : Disk) (qs : List Str)
    (o1 : FileOutput) (d1 : Disk), writeAll L o d ps = some (o1, d1) →
    writeAll L o d (ps ++ qs) = writeAll L o1 d1 qs := by
  intro ps
  induction ps with
  | nil =>
    intro o d qs o1 d1 h
    rw [writeAll_nil] at h
    cases h
    rfl
  | cons p ps ih =>
    intro o d qs o1 d1 h
    cases hw : o.Write L d (allOk p) p with
    | fatal a b =>
      unfold writeAll fullCalls at h
      simp [runWrites, hw] at h
    | returned o2 d2 n err =>
      rw [writeAll_cons L o d p ps o2 d2 n err hw] at h
      rw [List.cons_append, writeAll_cons L o d p (ps ++ qs) o2 d2 n err hw]
      exact ih o2 d2 qs o1 d1 h

theorem fresh_full (L : Lib) (hL : L.Lawful) (t : Str) (lim : Int) (hT : PlainTemplate t)
    (d : Disk) (N : Nat) (hown : OwnFiles t d N) (hN : (N : Int) ≤ maxInt) (p : Str) :
    ∃ o1 d1 m, (NewFileOutput t lim).Write L d (allOk p) p
        = WriteResult.returned o1 d1 (p.length : Int) false ∧
      Tracking t lim o1 d1 m ∧ m ≤ N ∧ o1.currentFileSize = wrapInt (0 + p.length) ∧
      d1.content (indexedName t (m : Int)) = p ∧
      ((∀ x ∈ d.names, starMatch (baseOf t) (Ext t) x = false) → m = 0) := by
  obtain ⟨m, hmN, hw, hJ, _, _, hz⟩ := fresh_first L hL t lim hT d N hown hN (allOk p) p rfl
  rw [min_self_length, List.take_length] at hw hJ
  have hdec : decide (p.length < p.length) = false := by simp
  rw [hdec] at hw
  refine ⟨_, _, m, hw, hJ, hmN, rfl, ?_, hz⟩
  rw [content_append_same _ _ _ (by rw [names_create]; exact Or.inl rfl), content_create_same]
  rfl

theorem run_chain (L : Lib) (hL : L.Lawful) (t : Str) (lim : Int) (hT : PlainTemplate t) :
    ∀ (ps : List Str) (o : FileOutput) (d : Disk) (m : Nat),
      Tracking t lim o d m → (∀ i : Nat, i ≤ m → indexedName t (i : Int) ∈ d.names) →
      ((m : Int) + ps.length ≤ maxInt) →
      ∃ o1 d1 m1, writeAll L o d ps = some (o1, d1) ∧ Tracking t lim o1 d1 m1 ∧
        (∀ i : Nat, i ≤ m1 → indexedName t (i : Int) ∈ d1.names) ∧
        chain t d1 m1 = chain t d m ++ concatAll ps := by
  intro ps
  induction ps with
  | nil =>
    intro o d m hJ hall _
    exact ⟨o, d, m, rfl, hJ, hall, by simp [concatAll]⟩
  | cons p ps ih =>
    intro o d m hJ hall hb
    simp only [List.length_cons] at hb
    push_cast at hb
    obtain ⟨o1, d1, m1, hw, hJ1, h1, h2, hch, hmemb, _⟩ :=
      full_step L hL t lim hT o d m hJ (by omega) p
    obtain ⟨o2, d2, m2, hr, hJ2, hall2, hch2⟩ := ih o1 d1 m1 hJ1 (hmemb hall) (by omega)
    refine ⟨o2, d2, m2, ?_, hJ2, hall2, ?_⟩
    · rw [writeAll_cons L o d p ps o1 d1 _ _ hw]
      exact hr
    · rw [hch2, hch]
      simp [concatAll]

theorem nextChunk_false_size (t : Str) (lim : Int) (o : FileOutput) (d : Disk) (m : Nat)
    (hJ : Tracking t lim o d m) (hlim : 0 < lim) (hn : o.nextChunk = false) :
    o.currentFileSize < lim := by
  unfold FileOutput.nextChunk at hn
  rw [hJ.2.1] at hn
  simp only [Bool.or_eq_false_iff, Bool.and_eq_false_iff, decide_eq_false_iff_not] at hn
  rcases hn.2 with h | h
  · omega
  · omega

theorem nextChunk_of_limit (t : Str) (lim : Int) (o : FileOutput) (d : Disk) (m : Nat)
    (hJ : Tracking t lim o d m) (hlim : 0 < lim) (hsize : lim ≤ o.currentFileSize) :
    o.nextChunk = true := by
  unfold FileOutput.nextChunk
  rw [hJ.2.1]
  simp [hlim, hsize]

theorem nextChunk_below (t : Str) (lim : Int) (o : FileOutput) (d : Disk) (m : Nat)
    (hJ : Tracking t lim o d m) (hlow : lim = 0 ∨ o.currentFileSize < lim) :
    o.nextChunk = false := by
  unfold FileOutput.nextChunk
  rw [hJ.2.1, hJ.2.2.2.2.1]
  have hne := indexedName_ne_nil t (m : Int)
  simp only [hne, decide_False, Bool.false_or, Bool.and_eq_false_iff, decide_eq_false_iff_not]
  rcases hlow with h | h
  · left; omega
  · right; omega

/-- One fully served Write keeps the size counter equal to the byte count of
the open file, below the limit plus the size of the buffer. -/
theorem size_step (L : Lib) (hL : L.Lawful) (t : Str) (lim : Int) (hT : PlainTemplate t)
    (o : FileOutput) (d : Disk) (m : Nat) (hJ : Tracking t lim o d m) (hm : (m : Int) < maxInt)
    (hlim : 0 < lim) (p : Str) (hp : lim + p.length ≤ maxInt)
    (hs0 : 0 ≤ o.currentFileSize)
    (hs : o.currentFileSize = ((d.content (indexedName t (m : Int))).length : Int)) :
    ∃ o1 d1 m1, o.Write L d (allOk p) p = WriteResult.returned o1 d1 (p.length : Int) false ∧
      Tracking t lim o1 d1 m1 ∧ m ≤ m1 ∧ m1 ≤ m + 1 ∧ 0 ≤ o1.currentFileSize ∧
      o1.currentFileSize = ((d1.content (indexedName t (m1 : Int))).length : Int) ∧
      o1.currentFileSize < lim + p.length ∧
      (o1.file = o.file → o.currentFileSize < lim) := by
  have hmaxI : maxInt = 9223372036854775807 := rfl
  have hminI : minInt = -9223372036854775808 := rfl
  obtain ⟨o1, d1, m1, hw, hJ1, h1, h2, _, _, hsame, hkeep, hrot⟩ :=
    full_step L hL t lim hT o d m hJ hm p
  refine ⟨o1, d1, m1, hw, hJ1, h1, h2, ?_⟩
  by_cases hn : o.nextChunk = true
  · obtain ⟨hsz, hc⟩ := hrot hn
    have hval : o1.currentFileSize = (p.length : Int) := by
      rw [hsz, wrapInt_of_range _ (by omega) (by omega)]
      omega
    refine ⟨by omega, by rw [hval, hc], by omega, ?_⟩
    intro e
    have := hsame e
    rw [hn] at this
    cases this
  · have hn2 : o.nextChunk = false := by simpa using hn
    obtain ⟨hsz, hc⟩ := hkeep hn2
    have hlt := nextChunk_false_size t lim o d m hJ hlim hn2
    have hval : o1.currentFileSize = o.currentFileSize + (p.length : Int) := by
      rw [hsz, wrapInt_of_range _ (by omega) (by omega)]
    refine ⟨by omega, ?_, by omega, fun _ => hlt⟩
    rw [hval, hc, hs, List.length_append]
    push_cast
    rfl

theorem run_size (L : Lib) (hL : L.Lawful) (t : Str) (lim : Int) (hT : PlainTemplate t)
    (hlim : 0 < lim) :
    ∀ (ps : List Str) (o : FileOutput) (d : Disk) (m : Nat),
      Tracking t lim o d m → ((m : Int) + ps.length ≤ maxInt) →
      (∀ q ∈ ps, lim + (q.length : Int) ≤ maxInt) → 0 ≤ o.currentFileSize →
      o.currentFileSize = ((d.content (indexedName t (m : Int))).length : Int) →
      ∃ o1 d1 m1, writeAll L o d ps = some (o1, d1) ∧ Tracking t lim o1 d1 m1 ∧
        (m1 : Int) ≤ (m : Int) + ps.length ∧ 0 ≤ o1.currentFileSize ∧
        o1.currentFileSize = ((d1.content (indexedName t (m1 : Int))).length : Int) := by
  intro ps
  induction ps with
  | nil =>
    intro o d m hJ _ _ h0 hs
    exact ⟨o, d, m, rfl, hJ, by simp, h0, hs⟩
  | cons p ps ih =>
    intro o d m hJ hb hq h0 hs
    simp only [List.length_cons] at hb
    push_cast at hb
    obtain ⟨o1, d1, m1, hw, hJ1, h1, h2, h01, hs1, _, _⟩ :=
      size_step L hL t lim hT o d m hJ (by omega) hlim p (hq p (by simp)) h0 hs
    obtain ⟨o2, d2, m2, hr, hJ2, hm2, h02, hs2⟩ :=
      ih o1 d1 m1 hJ1 (by omega) (fun q hq' => hq q (by simp [hq'])) h01 hs1
    refine ⟨o2, d2, m2, ?_, hJ2, ?_, h02, hs2⟩
    · rw [writeAll_cons L o d p ps o1 d1 _ _ hw]
      exact hr
    · simp only [List.length_cons]
      push_cast
      omega

theorem run_keep (L : Lib) (hL : L.Lawful) (t : Str) (hT : PlainTemplate t) :
    ∀ (calls : List (OSEvents × Str)) (o : FileOutput) (d : Disk) (m : Nat),
      Tracking t 0 o d m → (m : Int) < maxInt →
      ∃ o1 d1, runWrites L o d calls = some (o1, d1) ∧ Tracking t 0 o1 d1 m := by
  intro calls
  induction calls with
  | nil =>
    intro o d m hJ _
    exact ⟨o, d, rfl, hJ⟩
  | cons c cs ih =>
    intro o d m hJ hm
    have hn := nextChunk_below t 0 o d m hJ (Or.inl rfl)
    obtain ⟨hw, hJ1⟩ := Tracking_keep L hL t 0 hT o d m hJ hm hn c.1 c.2
    obtain ⟨o2, d2, hr, hJ2⟩ := ih _ _ m hJ1 hm
    refine ⟨o2, d2, ?_, hJ2⟩
    simp only [runWrites, hw]
    exact hr


/-! ## Claims about name resolution -/

/-- C1, counterexample: with the template cap.my_log and the files cap_10.my_log
and cap_3.my_log on disk (the matching files are exactly base_3.ext and
base_10.ext), the first Write of a fresh writer resolves cap_4.my_log, not
cap_11.my_log: two names with an underscore in the extension have different
un-indexed bases and are ordered as text. And with the template out.log and
the single file out_9223372036854775807.log the name resolved carries the
index -9223372036854775808, the 64-bit successor of the largest int. -/
theorem restart_numbering_underscore_ext :
    Glob goLib [("cap_10.my_log".toList, []), ("cap_3.my_log".toList, [])]
        (globPattern "cap.my_log".toList)
      = some [indexedName "cap.my_log".toList 10, indexedName "cap.my_log".toList 3] ∧
    (NewFileOutput "cap.my_log".toList 0).filename goLib
        (Glob goLib [("cap_10.my_log".toList, []), ("cap_3.my_log".toList, [])])
      = "cap_4.my_log".toList ∧
    (NewFileOutput "cap.my_log".toList 0).filename goLib
        (Glob goLib [("cap_10.my_log".toList, []), ("cap_3.my_log".toList, [])])
      ≠ indexedName "cap.my_log".toList 11 ∧
    Glob goLib [("out_9223372036854775807.log".toList, [])] (globPattern "out.log".toList)
      = some [indexedName "out.log".toList 9223372036854775807] ∧
    (NewFileOutput "out.log".toList 0).filename goLib
        (Glob goLib [("out_9223372036854775807.log".toList, [])])
      = "out_-9223372036854775808.log".toList := by
  decide

/-- C1 (amended): for every template whose extension holds no underscore and
every directory in which the files matching base*ext are exactly base_i.ext
for i in a non-empty finite set of non-negative integers with highest element
m below the largest int, the name that the first Write of a freshly
constructed writer resolves is base_(m+1).ext, for any sizeLimit; Write stores
and opens the cleaned form of that name. -/
theorem restart_resumes_numbering (L : Lib) (hL : L.Lawful) (template : Str) (sizeLimit : Int)
    (d : Disk) (found : List Str) (S : List Nat) (m : Nat)
    (hext : '_' ∉ Ext template)
    (hglob : Glob L d (globPattern template) = some found)
    (hfound : List.Perm found (S.map (fun (i : Nat) => indexedName template (i : Int))))
    (hm : m ∈ S) (hmax : ∀ i ∈ S, i ≤ m) (hlt : (m : Int) < maxInt) :
    (NewFileOutput template sizeLimit).filename L (Glob L d)
      = indexedName template ((m : Int) + 1) ∧
    ((NewFileOutput template sizeLimit).updateName L d).currentName
      = Clean (indexedName template ((m : Int) + 1)) := by
  have hmaxI : maxInt = 9223372036854775807 := rfl
  have hminI : minInt = -9223372036854775808 := rfl
  have hS : ∀ x ∈ found, ∃ i ∈ S, x = indexedName template (i : Int) := by
    intro x hx
    have := hfound.subset hx
    rcases List.mem_map.mp this with ⟨i, hi, e⟩
    exact ⟨i, hi, e.symm⟩
  have hfacts : ∀ i ∈ S, getFileIndex (indexedName template (i : Int)) = (i : Int) ∧
      stem (indexedName template (i : Int)) = baseOf template ∧
      Ext (indexedName template (i : Int)) = Ext template := by
    intro i hi
    have hle := hmax i hi
    have h := indexedName_facts template (i : Int) (by omega) (by omega)
    exact ⟨h.2.1, h.2.2, h.1⟩
  have hmem : indexedName template (m : Int) ∈ found :=
    hfound.symm.subset (List.mem_map.mpr ⟨m, hm, rfl⟩)
  have hne : found ≠ [] := List.ne_nil_of_mem hmem
  have hfam : ∀ x ∈ found, ∀ y ∈ found, withoutIndex x = withoutIndex y := by
    intro x hx y hy
    rcases hS x hx with ⟨i, _, rfl⟩
    rcases hS y hy with ⟨j, _, rfl⟩
    rw [withoutIndex_indexedName _ _ hext, withoutIndex_indexedName _ _ hext]
  have hlast := lastOf_sameFamily L hL found hne hfam
  rcases hS _ hlast.1 with ⟨j, hj, hje⟩
  have hjm : j = m := by
    have h1 := hlast.2 _ hmem
    rw [hje, (hfacts j hj).1, (hfacts m hm).1] at h1
    have h2 := hmax j hj
    omega
  subst hjm
  have hfile : (NewFileOutput template sizeLimit).filename L (Glob L d)
      = indexedName template ((j : Int) + 1) := by
    rw [filename_cons L _ (Glob L d) found hglob hne, hje, setFileIndex_eq]
    have hidx := (hfacts j hj).1
    have hti : targetIndex (NewFileOutput template sizeLimit) (indexedName template (j : Int))
        = (j : Int) + 1 := by
      unfold targetIndex
      rw [nextChunk_fresh, hidx]
      have hne1 : ((j : Int) ≠ -1) := by omega
      simp only [hne1, ne_eq, not_false_eq_true, if_true]
      exact wrapInt_of_range _ (by omega) (by omega)
    rw [hti, (hfacts j hj).2.1, (hfacts j hj).2.2]
    rfl
  exact ⟨hfile, by rw [← hfile]; rfl⟩

/-- C1, witness: the spec example, base_0.ext and base_3.ext give base_4.ext. -/
theorem restart_resumes_numbering_witness :
    (NewFileOutput "base.ext".toList 0).filename goLib
        (Glob goLib [("base_0.ext".toList, []), ("base_3.ext".toList, [])])
      = indexedName "base.ext".toList ((3 : Nat) + 1) ∧
    ((NewFileOutput "base.ext".toList 0).updateName goLib
        [("base_0.ext".toList, []), ("base_3.ext".toList, [])]).currentName
      = Clean (indexedName "base.ext".toList ((3 : Nat) + 1)) :=
  restart_resumes_numbering goLib goLib_lawful "base.ext".toList 0
    [("base_0.ext".toList, []), ("base_3.ext".toList, [])]
    ["base_0.ext".toList, "base_3.ext".toList] [0, 3] 3
    (by decide) (by decide) (by decide) (by decide) (by decide) (by decide)

/-- C2, counterexample: with the template a.log and the files a_10.log,
a_1_5.log and a_9.log on disk, the first Write of a fresh writer resolves
a_10.log, a file that exists already (insertion sort leaves a_9.log last,
because the composite ordering is cyclic on these three names): its index is
not above the index 10 on disk, and Write truncates the old a_10.log. -/
theorem restart_overwrites_existing :
    Glob goLib [("a_10.log".toList, "old".toList), ("a_1_5.log".toList, []),
        ("a_9.log".toList, [])] (globPattern "a.log".toList)
      = some ["a_10.log".toList, "a_1_5.log".toList, "a_9.log".toList] ∧
    (NewFileOutput "a.log".toList 0).filename goLib
        (Glob goLib [("a_10.log".toList, "old".toList), ("a_1_5.log".toList, []),
          ("a_9.log".toList, [])])
      = "a_10.log".toList ∧
    ¬ (∀ x ∈ ["a_10.log".toList, "a_1_5.log".toList, "a_9.log".toList],
        getFileIndex x < getFileIndex ((NewFileOutput "a.log".toList 0).filename goLib
          (Glob goLib [("a_10.log".toList, "old".toList), ("a_1_5.log".toList, []),
            ("a_9.log".toList, [])]))) ∧
    FileOutput.Write goLib (NewFileOutput "a.log".toList 0)
        [("a_10.log".toList, "old".toList), ("a_1_5.log".toList, []), ("a_9.log".toList, [])]
        (allOk "x".toList) "x".toList
      = WriteResult.returned
          ⟨"a.log".toList, "a_10.log".toList, 1, some "a_10.log".toList,
            some "a_10.log".toList, 0, true⟩
          [("a_10.log".toList, "x".toList), ("a_1_5.log".toList, []), ("a_9.log".toList, [])]
          1 false := by
  decide

/-- C2 (amended): for every template and every set of pre-existing files matching
base*ext that all have the same un-indexed base and an index below the largest
int, the name resolved by the first Write of a freshly constructed writer
carries an index strictly greater than the index of every pre-existing
matching file, and is the name of none of them; when the template and the
files listed are cleaned paths, that name is the file the Write opens with
truncation. -/
theorem restart_index_above_existing (L : Lib) (hL : L.Lawful) (template : Str)
    (sizeLimit : Int) (d : Disk) (found : List Str)
    (hglob : Glob L d (globPattern template) = some found)
    (hfam : ∀ x ∈ found, ∀ y ∈ found, withoutIndex x = withoutIndex y)
    (hmax : ∀ x ∈ found, getFileIndex x < maxInt) :
    (∀ x ∈ found, getFileIndex x
        < getFileIndex ((NewFileOutput template sizeLimit).filename L (Glob L d))) ∧
    (NewFileOutput template sizeLimit).filename L (Glob L d) ∉ found ∧
    (Clean template = template → (∀ x ∈ found, Clean x = x) →
      ∀ (ev : OSEvents) (p : Str), ev.openOk = true →
        ∃ o1 d1 n err,
          (NewFileOutput template sizeLimit).Write L d ev p = WriteResult.returned o1 d1 n err ∧
          o1.file = some ((NewFileOutput template sizeLimit).filename L (Glob L d))) := by
  have hmaxI : maxInt = 9223372036854775807 := rfl
  have hminI : minInt = -9223372036854775808 := rfl
  have hlt : ∀ x ∈ found, getFileIndex x
      < getFileIndex ((NewFileOutput template sizeLimit).filename L (Glob L d)) := by
    intro x hx
    have hne : found ≠ [] := List.ne_nil_of_mem hx
    have hlast := lastOf_sameFamily L hL found hne hfam
    rw [filename_index L _ (Glob L d) found hglob hne]
    have h1 := hlast.2 x hx
    have h2 := hmax _ hlast.1
    have h3 := (getFileIndex_range (lastOf L found)).1
    unfold targetIndex
    rw [nextChunk_fresh]
    by_cases hm : getFileIndex (lastOf L found) = -1
    · simp only [hm, ne_eq, not_true_eq_false, if_false]
      omega
    · simp only [hm, ne_eq, not_false_eq_true, if_true]
      rw [wrapInt_of_range _ (by omega) (by omega)]
      omega
  refine ⟨hlt, ?_, ?_⟩
  · intro hmem
    have := hlt _ hmem
    omega
  · intro hct hcf ev p hok
    have hclean : (NewFileOutput template sizeLimit).target L d
        = (NewFileOutput template sizeLimit).filename L (Glob L d) := by
      unfold FileOutput.target
      by_cases hne : found = []
      · subst hne
        rw [filename_nil L _ (Glob L d) hglob]
        exact clean_setFileIndex template hct 0
      · rw [filename_cons L _ (Glob L d) found hglob hne]
        exact clean_setFileIndex _ (hcf _ (lastOf_mem L hL found hne)) _
    refine ⟨_, _, _, _, Write_reopen L _ d ev p (by simp [NewFileOutput]) hok, ?_⟩
    rw [hclean]

/-- C2, witness: the files out_1.log and out_x.log share the un-indexed base out. -/
theorem restart_index_above_existing_witness :
    (∀ x ∈ ["out_1.log".toList, "out_x.log".toList], getFileIndex x
        < getFileIndex ((NewFileOutput "out.log".toList 5).filename goLib
            (Glob goLib [("out_x.log".toList, []), ("out_1.log".toList, [])]))) ∧
    (NewFileOutput "out.log".toList 5).filename goLib
        (Glob goLib [("out_x.log".toList, []), ("out_1.log".toList, [])])
      ∉ ["out_1.log".toList, "out_x.log".toList] ∧
    (Clean "out.log".toList = "out.log".toList →
      (∀ x ∈ ["out_1.log".toList, "out_x.log".toList], Clean x = x) →
      ∀ (ev : OSEvents) (p : Str), ev.openOk = true →
        ∃ o1 d1 n err,
          (NewFileOutput "out.log".toList 5).Write goLib
            [("out_x.log".toList, []), ("out_1.log".toList, [])] ev p
              = WriteResult.returned o1 d1 n err ∧
          o1.file = some ((NewFileOutput "out.log".toList 5).filename goLib
            (Glob goLib [("out_x.log".toList, []), ("out_1.log".toList, [])]))) :=
  restart_index_above_existing goLib goLib_lawful "out.log".toList 5
    [("out_x.log".toList, []), ("out_1.log".toList, [])]
    ["out_1.log".toList, "out_x.log".toList] (by decide) (by decide) (by decide)

/-- C6, counterexample: the template out_7.log has base out_7 and extension .log;
with no matching file the first name resolved is out_0.log, not out_7_0.log. -/
theorem first_name_replaces_template_index :
    Glob goLib [] (globPattern "out_7.log".toList) = some [] ∧
    baseOf "out_7.log".toList ++ "_0".toList ++ Ext "out_7.log".toList
      = "out_7_0.log".toList ∧
    (NewFileOutput "out_7.log".toList 0).filename goLib (Glob goLib [])
      = "out_0.log".toList ∧
    (NewFileOutput "out_7.log".toList 0).filename goLib (Glob goLib [])
      ≠ baseOf "out_7.log".toList ++ "_0".toList ++ Ext "out_7.log".toList := by
  decide

/-- C6 (amended): for every template base.ext and a directory with no file
matching base*ext, the name resolved for the first Write is setFileIndex of
the template and 0: it is base + "_0" + ext when base does not end in an
underscore followed by an integer, and w + "_0" + ext when base is w, an
underscore and an integer (an index in the template is replaced). -/
theorem first_file_is_index_zero (L : Lib) (template : Str) (sizeLimit : Int) (d : Disk)
    (hglob : Glob L d (globPattern template) = some []) :
    (NewFileOutput template sizeLimit).filename L (Glob L d) = setFileIndex template 0 ∧
    ((∀ w t, baseOf template = w ++ '_' :: t → Atoi t = none) →
      (NewFileOutput template sizeLimit).filename L (Glob L d)
        = baseOf template ++ ['_', '0'] ++ Ext template) ∧
    (∀ w t k, baseOf template = w ++ '_' :: t → Atoi t = some k →
      (NewFileOutput template sizeLimit).filename L (Glob L d)
        = w ++ ['_', '0'] ++ Ext template) := by
  have h0 := filename_nil L (NewFileOutput template sizeLimit) (Glob L d) hglob
  have h1 : (NewFileOutput template sizeLimit).pathTemplate = template := rfl
  rw [h1] at h0
  refine ⟨h0, ?_, ?_⟩
  · intro hno
    rw [h0, setFileIndex_eq, stem_of_noIndex template hno, Itoa_zero]
  · intro w t k hb hk
    rw [h0, setFileIndex_eq, stem_of_index template w t k hb hk, Itoa_zero]

/-- C6, witness: the template /tmp/out.log in an empty directory. -/
theorem first_file_is_index_zero_witness :
    (NewFileOutput "/tmp/out.log".toList 10).filename goLib (Glob goLib [])
      = setFileIndex "/tmp/out.log".toList 0 ∧
    ((∀ w t, baseOf "/tmp/out.log".toList = w ++ '_' :: t → Atoi t = none) →
      (NewFileOutput "/tmp/out.log".toList 10).filename goLib (Glob goLib [])
        = baseOf "/tmp/out.log".toList ++ ['_', '0'] ++ Ext "/tmp/out.log".toList) ∧
    (∀ w t k, baseOf "/tmp/out.log".toList = w ++ '_' :: t → Atoi t = some k →
      (NewFileOutput "/tmp/out.log".toList 10).filename goLib (Glob goLib [])
        = w ++ ['_', '0'] ++ Ext "/tmp/out.log".toList) :=
  first_file_is_index_zero goLib "/tmp/out.log".toList 10 [] (by decide)

/-- C10, counterexample: with the template out.log and the single file out_-5.log
on disk, the first name resolved is out_-4.log, whose index is -4: a signed
number behind the last underscore is read as an index. -/
theorem resolved_index_negative :
    Glob goLib [("out_-5.log".toList, [])] (globPattern "out.log".toList)
      = some ["out_-5.log".toList] ∧
    (NewFileOutput "out.log".toList 0).filename goLib
        (Glob goLib [("out_-5.log".toList, [])]) = "out_-4.log".toList ∧
    ¬ (0 ≤ getFileIndex ((NewFileOutput "out.log".toList 0).filename goLib
        (Glob goLib [("out_-5.log".toList, [])]))) := by
  decide

/-- C10 (amended): for every template, every writer state and every successful
directory listing, the name returned by filename has an index that is an
integer >= 0 when the listing is empty, or when the file that sorts last has
no index (getFileIndex gives -1), or has a non-negative index that is below
the largest int whenever filename rotates. -/
theorem resolved_index_nonneg (L : Lib) (o : FileOutput) (glob : Str → Option (List Str))
    (found : List Str) (hglob : glob (globPattern o.pathTemplate) = some found)
    (hlast : found ≠ [] → getFileIndex (lastOf L found) = -1 ∨
      (0 ≤ getFileIndex (lastOf L found) ∧
        (o.nextChunk = true → getFileIndex (lastOf L found) < maxInt))) :
    0 ≤ getFileIndex (o.filename L glob) := by
  have hmaxI : maxInt = 9223372036854775807 := rfl
  have hminI : minInt = -9223372036854775808 := rfl
  by_cases hne : found = []
  · subst hne
    rw [filename_nil L o glob hglob]
    rw [(setFileIndex_facts o.pathTemplate 0 (by omega) (by omega)).2.1]
  · rw [filename_index L o glob found hglob hne]
    unfold targetIndex
    rcases hlast hne with h | ⟨h1, h2⟩
    · simp [h]
    · have hne1 : getFileIndex (lastOf L found) ≠ -1 := by omega
      simp only [hne1, ne_eq, not_false_eq_true, if_true]
      by_cases hc : o.nextChunk = true
      · simp only [hc, if_true]
        have := h2 hc
        rw [wrapInt_of_range _ (by omega) (by omega)]
        omega
      · simp only [hc]
        simpa using h1

/-- C10, witness: a writer below its size limit, with out_0.log and out_1.log on disk. -/
theorem resolved_index_nonneg_witness :
    0 ≤ getFileIndex ((⟨"out.log".toList, "out_1.log".toList, 3, some "out_1.log".toList,
        some "out_1.log".toList, 10, true⟩ : FileOutput).filename goLib
      (Glob goLib [("out_0.log".toList, []), ("out_1.log".toList, "abc".toList)])) :=
  resolved_index_nonneg goLib _ _ ["out_0.log".toList, "out_1.log".toList] (by decide)
    (by decide)


/-! ## Claims about runs of Write -/

/-- C3, counterexample: template a.log, sizeLimit 1, files a_10.log, a_1_5.log
and a_9.log on disk. After the first Write the file a_10.log is open with
currentFileSize 1 >= sizeLimit; the next Write resolves a_10.log again (the
listing sorts a_9.log last), opens no file and appends to a_10.log: the index
of the open file stays 10 instead of becoming 11. -/
theorem rotation_stuck_on_cyclic_listing :
    (writeAll goLib (NewFileOutput "a.log".toList 1)
        [("a_10.log".toList, []), ("a_1_5.log".toList, []), ("a_9.log".toList, [])]
        ["x".toList]).map (fun r => (r.1.file, r.1.currentFileSize, r.1.sizeLimit))
      = some (some "a_10.log".toList, 1, 1) ∧
    (writeAll goLib (NewFileOutput "a.log".toList 1)
        [("a_10.log".toList, []), ("a_1_5.log".toList, []), ("a_9.log".toList, [])]
        ["x".toList, "y".toList]).map (fun r => (r.1.file, r.2))
      = some (some "a_10.log".toList,
          [("a_10.log".toList, "xy".toList), ("a_1_5.log".toList, []),
            ("a_9.log".toList, [])]) ∧
    getFileIndex "a_10.log".toList ≠ getFileIndex "a_10.log".toList + 1 := by
  decide

/-- C3 (amended): for every template without pattern metacharacter, without
underscore in its extension, without an index of its own and in cleaned form,
every initial directory whose files matching base*ext are all base_i.ext with
0 <= i < N, and every writer state reached from a fresh writer by a non-empty
sequence of Writes that return (N plus their number at most the largest int):
if sizeLimit > 0 and currentFileSize >= sizeLimit, the next Write that can
open its file opens a file that was not on disk, whose index is exactly one
greater than the index of the previously open file. -/
theorem rotation_advances_index (L : Lib) (hL : L.Lawful) (t : Str) (lim : Int)
    (hT : PlainTemplate t) (d0 : Disk) (N : Nat) (hown : OwnFiles t d0 N)
    (calls : List (OSEvents × Str)) (hne : calls ≠ [])
    (hb : (N : Int) + calls.length ≤ maxInt)
    (o : FileOutput) (d : Disk) (hrun : runWrites L (NewFileOutput t lim) d0 calls = some (o, d))
    (hlim : 0 < lim) (hsize : lim ≤ o.currentFileSize)
    (ev : OSEvents) (p : Str) (hev : ev.openOk = true) :
    ∃ f f1 o1 d1 n err, o.file = some f ∧ o.Write L d ev p = WriteResult.returned o1 d1 n err ∧
      o1.file = some f1 ∧ f1 ∉ d.names ∧ f1 ∈ d1.names ∧
      getFileIndex f1 = getFileIndex f + 1 := by
  have hmaxI : maxInt = 9223372036854775807 := rfl
  have hminI : minInt = -9223372036854775808 := rfl
  obtain ⟨m, hJ, hm⟩ := reach_returned L hL t lim hT d0 N hown calls hne hb o d hrun
  have hn := nextChunk_of_limit t lim o d m hJ hlim hsize
  obtain ⟨hw, hJ1, hnot⟩ := Tracking_rotate L hL t lim hT o d m hJ (by omega) hn ev p hev
  refine ⟨_, _, _, _, _, _, hJ.2.2.1, hw, rfl, hnot, ?_, ?_⟩
  · rw [names_append, names_create]
    exact Or.inl rfl
  · rw [(indexedName_facts t ((m : Int) + 1) (by omega) (by omega)).2.1,
      (indexedName_facts t (m : Int) (by omega) (by omega)).2.1]

/-- C3, witness: the spec scenario; /tmp/out_0.log holds 10 bytes with
sizeLimit 10, and the next Write opens /tmp/out_1.log. -/
theorem rotation_advances_index_witness :
    ∃ f f1 o1 d1 n err,
      (⟨"/tmp/out.log".toList, "/tmp/out_0.log".toList, 10, some "/tmp/out_0.log".toList,
        some "/tmp/out_0.log".toList, 10, true⟩ : FileOutput).file = some f ∧
      FileOutput.Write goLib
        ⟨"/tmp/out.log".toList, "/tmp/out_0.log".toList, 10, some "/tmp/out_0.log".toList,
          some "/tmp/out_0.log".toList, 10, true⟩
        [("/tmp/out_0.log".toList, "1234567890".toList)] (allOk "X".toList) "X".toList
        = WriteResult.returned o1 d1 n err ∧
      o1.file = some f1 ∧ f1 ∉ Disk.names [("/tmp/out_0.log".toList, "1234567890".toList)] ∧
      f1 ∈ d1.names ∧ getFileIndex f1 = getFileIndex f + 1 :=
  rotation_advances_index goLib goLib_lawful "/tmp/out.log".toList 10
    ⟨by decide, by decide, by decide, by decide⟩ [] 0
    (by intro x hx; simp [Disk.names] at hx)
    [(allOk "12345".toList, "12345".toList), (allOk "67890".toList, "67890".toList)]
    (by decide) (by decide) _ _ (by decide) (by decide) (by decide)
    (allOk "X".toList) "X".toList rfl

/-- C4, counterexample: template cap.log, sizeLimit 0, files cap_1_x.log and
cap_9.log on disk. The first Write opens cap_10.log; the second Write resolves
cap_9.log (which the listing sorts last), closes cap_10.log and opens cap_9.log
with truncation, so the target changes without any size limit, and the old
content of cap_9.log is gone. -/
theorem target_changes_without_limit :
    (writeAll goLib (NewFileOutput "cap.log".toList 0)
        [("cap_1_x.log".toList, []), ("cap_9.log".toList, "old".toList)]
        ["x".toList]).map (fun r => (r.1.file, r.1.currentName))
      = some (some "cap_10.log".toList, "cap_10.log".toList) ∧
    (writeAll goLib (NewFileOutput "cap.log".toList 0)
        [("cap_1_x.log".toList, []), ("cap_9.log".toList, "old".toList)]
        ["x".toList, "y".toList]).map (fun r => (r.1.file, r.1.currentName, r.2))
      = some (some "cap_9.log".toList, "cap_9.log".toList,
          [("cap_9.log".toList, "y".toList), ("cap_10.log".toList, "x".toList),
            ("cap_1_x.log".toList, [])]) := by
  decide

/-- C4 (amended): for every template without pattern metacharacter, without
underscore in its extension, without an index of its own and in cleaned form,
every initial directory whose files matching base*ext are all base_i.ext with
0 <= i < N, and every writer state reached from a fresh writer by a non-empty
sequence of Writes that return (N plus their number at most the largest int):
if sizeLimit = 0 or currentFileSize < sizeLimit, the next Write resolves the
name of the currently open file, does not close or reopen it, and leaves its
content equal to the previous content followed by the bytes written; and with
sizeLimit = 0 every further run of Writes returns with the same target. -/
theorem no_rotation_below_limit (L : Lib) (hL : L.Lawful) (t : Str) (lim : Int)
    (hT : PlainTemplate t) (d0 : Disk) (N : Nat) (hown : OwnFiles t d0 N)
    (calls : List (OSEvents × Str)) (hne : calls ≠ [])
    (hb : (N : Int) + calls.length ≤ maxInt)
    (o : FileOutput) (d : Disk) (hrun : runWrites L (NewFileOutput t lim) d0 calls = some (o, d))
    (hlow : lim = 0 ∨ o.currentFileSize < lim) (ev : OSEvents) (p : Str) :
    (∃ f o1 d1, o.file = some f ∧ o.currentName = f ∧
      o.Write L d ev p = WriteResult.returned o1 d1 ((min ev.accepted p.length : Nat) : Int)
        (decide (min ev.accepted p.length < p.length)) ∧
      o1.currentName = f ∧ o1.file = some f ∧ o1.closed = o.closed ∧
      d1 = d.append f (p.take (min ev.accepted p.length)) ∧
      d1.content f = d.content f ++ p.take (min ev.accepted p.length)) ∧
    (lim = 0 → ∀ more : List (OSEvents × Str), ∃ o2 d2,
      runWrites L o d more = some (o2, d2) ∧ o2.currentName = o.currentName ∧
        o2.file = o.file) := by
  have hmaxI : maxInt = 9223372036854775807 := rfl
  obtain ⟨m, hJ, hm⟩ := reach_returned L hL t lim hT d0 N hown calls hne hb o d hrun
  have hn := nextChunk_below t lim o d m hJ hlow
  obtain ⟨hw, _⟩ := Tracking_keep L hL t lim hT o d m hJ (by omega) hn ev p
  constructor
  · exact ⟨_, _, _, hJ.2.2.1, hJ.2.2.2.2.1, hw, rfl, hJ.2.2.1, rfl, rfl,
      content_append_same _ _ _ hJ.2.2.2.2.2.1⟩
  · intro h0 more
    subst h0
    obtain ⟨o2, d2, hr2, hJ2⟩ := run_keep L hL t hT more o d m hJ (by omega)
    exact ⟨o2, d2, hr2, by rw [hJ2.2.2.2.2.1, hJ.2.2.2.2.1], by rw [hJ2.2.2.1, hJ.2.2.1]⟩

/-- C4, witness: the spec scenario after its first Write; sizeLimit 10, 5 bytes
written, the second Write of 5 bytes stays in /tmp/out_0.log. -/
theorem no_rotation_below_limit_witness :
    (∃ f o1 d1,
      (⟨"/tmp/out.log".toList, "/tmp/out_0.log".toList, 5, some "/tmp/out_0.log".toList,
        some "/tmp/out_0.log".toList, 10, true⟩ : FileOutput).file = some f ∧
      (⟨"/tmp/out.log".toList, "/tmp/out_0.log".toList, 5, some "/tmp/out_0.log".toList,
        some "/tmp/out_0.log".toList, 10, true⟩ : FileOutput).currentName = f ∧
      FileOutput.Write goLib
        ⟨"/tmp/out.log".toList, "/tmp/out_0.log".toList, 5, some "/tmp/out_0.log".toList,
          some "/tmp/out_0.log".toList, 10, true⟩
        [("/tmp/out_0.log".toList, "12345".toList)] (allOk "67890".toList) "67890".toList
        = WriteResult.returned o1 d1
            ((min (allOk "67890".toList).accepted "67890".toList.length : Nat) : Int)
            (decide (min (allOk "67890".toList).accepted "67890".toList.length
              < "67890".toList.length)) ∧
      o1.currentName = f ∧ o1.file = some f ∧ o1.closed = true ∧
      d1 = Disk.append [("/tmp/out_0.log".toList, "12345".toList)] f
        ("67890".toList.take (min (allOk "67890".toList).accepted "67890".toList.length)) ∧
      d1.content f = Disk.content [("/tmp/out_0.log".toList, "12345".toList)] f ++
        "67890".toList.take (min (allOk "67890".toList).accepted "67890".toList.length)) ∧
    ((10 : Int) = 0 → ∀ more : List (OSEvents × Str), ∃ o2 d2,
      runWrites goLib
        ⟨"/tmp/out.log".toList, "/tmp/out_0.log".toList, 5, some "/tmp/out_0.log".toList,
          some "/tmp/out_0.log".toList, 10, true⟩
        [("/tmp/out_0.log".toList, "12345".toList)] more = some (o2, d2) ∧
      o2.currentName = "/tmp/out_0.log".toList ∧
        o2.file = some "/tmp/out_0.log".toList) :=
  no_rotation_below_limit goLib goLib_lawful "/tmp/out.log".toList 10
    ⟨by decide, by decide, by decide, by decide⟩ [] 0
    (by intro x hx; simp [Disk.names] at hx)
    [(allOk "12345".toList, "12345".toList)]
    (by decide) (by decide) _ _ (by decide) (by decide)
    (allOk "67890".toList) "67890".toList


/-- C5, failing input: template out_0.log, sizeLimit 2, empty directory, the
Writes "a", "b", "c", "d" all served in full. The pattern out_0*.log never
lists out_1.log, so the fourth Write goes back to out_0.log and truncates it:
the disk ends with out_0.log = d and out_1.log = c, and the bytes "ab" are
lost. -/
theorem bytes_lost_with_indexed_template :
    Glob goLib [] (globPattern "out_0.log".toList) = some [] ∧
    (writeAll goLib (NewFileOutput "out_0.log".toList 2) []
        ["a".toList, "b".toList, "c".toList]).map (fun r => r.2)
      = some [("out_1.log".toList, "c".toList), ("out_0.log".toList, "ab".toList)] ∧
    (writeAll goLib (NewFileOutput "out_0.log".toList 2) []
        ["a".toList, "b".toList, "c".toList, "d".toList]).map (fun r => r.2)
      = some [("out_0.log".toList, "d".toList), ("out_1.log".toList, "c".toList)] ∧
    concatAll ["a".toList, "b".toList, "c".toList, "d".toList] = "abcd".toList := by
  decide

/-- No bytes are lost where the template has no index of its own (the property
of C5 away from its failing input): for every template without pattern metacharacter, without
underscore in its extension, without an index of its own and in cleaned form,
and every sizeLimit, starting from a directory with no file matching the
template and a fresh writer, after any non-empty sequence of at most 2^63 - 1
Writes that each succeed in full, the files on disk that match the template
are base_0.ext ... base_m.ext for some m, and the concatenation of their
contents in ascending index order equals the concatenation of all written
buffers in call order. -/
theorem no_bytes_lost (L : Lib) (hL : L.Lawful) (t : Str) (lim : Int) (hT : PlainTemplate t)
    (d0 : Disk) (hnone : ∀ x ∈ d0.names, starMatch (baseOf t) (Ext t) x = false)
    (ps : List Str) (hne : ps ≠ []) (hb : (ps.length : Int) ≤ maxInt) :
    ∃ o d m, writeAll L (NewFileOutput t lim) d0 ps = some (o, d) ∧
      (∀ i : Nat, i ≤ m → indexedName t (i : Int) ∈ d.names) ∧
      (∀ x ∈ d.names, starMatch (baseOf t) (Ext t) x = true →
        ∃ i : Nat, i ≤ m ∧ x = indexedName t (i : Int)) ∧
      chain t d m = concatAll ps := by
  have hmaxI : maxInt = 9223372036854775807 := rfl
  cases ps with
  | nil => exact absurd rfl hne
  | cons p rest =>
    simp only [List.length_cons] at hb
    push_cast at hb
    have hown : OwnFiles t d0 0 := by
      intro x hx hmx
      rw [hnone x hx] at hmx
      cases hmx
    obtain ⟨o1, d1, m, hw, hJ, hm0, _, hc, _⟩ :=
      fresh_full L hL t lim hT d0 0 hown (by omega) p
    have hm : m = 0 := by omega
    subst hm
    have hall : ∀ i : Nat, i ≤ 0 → indexedName t (i : Int) ∈ d1.names := by
      intro i hi
      have : i = 0 := by omega
      rw [this]
      exact hJ.2.2.2.2.2.1
    obtain ⟨o2, d2, m2, hr, hJ2, hall2, hch⟩ :=
      run_chain L hL t lim hT rest o1 d1 0 hJ hall (by push_cast; omega)
    refine ⟨o2, d2, m2, ?_, hall2, ?_, ?_⟩
    · rw [writeAll_cons L _ d0 p rest o1 d1 _ _ hw]
      exact hr
    · intro x hx hmx
      rcases hJ2.2.2.2.2.2.2 x hx hmx with ⟨i, hi, he⟩
      exact ⟨i, by omega, he⟩
    · rw [hch]
      simp only [chain, concatAll]
      rw [hc]

/-- The spec scenario for no_bytes_lost: "12345", "67890", "X" with sizeLimit 10. -/
theorem no_bytes_lost_witness :
    ∃ o d m, writeAll goLib (NewFileOutput "/tmp/out.log".toList 10) []
        ["12345".toList, "67890".toList, "X".toList] = some (o, d) ∧
      (∀ i : Nat, i ≤ m → indexedName "/tmp/out.log".toList (i : Int) ∈ d.names) ∧
      (∀ x ∈ d.names,
        starMatch (baseOf "/tmp/out.log".toList) (Ext "/tmp/out.log".toList) x = true →
        ∃ i : Nat, i ≤ m ∧ x = indexedName "/tmp/out.log".toList (i : Int)) ∧
      chain "/tmp/out.log".toList d m
        = concatAll ["12345".toList, "67890".toList, "X".toList] :=
  no_bytes_lost goLib goLib_lawful "/tmp/out.log".toList 10
    ⟨by decide, by decide, by decide, by decide⟩ []
    (by intro x hx; simp [Disk.names] at hx)
    ["12345".toList, "67890".toList, "X".toList] (by decide) (by decide)

/-- C7, failing input: template out_7.log, sizeLimit 10, empty directory. The
first name resolved is out_0.log, which the pattern out_7*.log never lists, so
every Write resolves out_0.log again: after "12345" and "67890" the file is
open with currentFileSize 10 >= sizeLimit, and the Write of "X" appends to it
without replacing it, leaving 11 bytes in it. -/
theorem size_limit_ignored_with_indexed_template :
    (writeAll goLib (NewFileOutput "out_7.log".toList 10) []
        ["12345".toList, "67890".toList]).map
          (fun r => (r.1.file, r.1.currentFileSize, r.1.sizeLimit))
      = some (some "out_0.log".toList, 10, 10) ∧
    (writeAll goLib (NewFileOutput "out_7.log".toList 10) []
        ["12345".toList, "67890".toList, "X".toList]).map
          (fun r => (r.1.file, r.1.currentFileSize, r.2))
      = some (some "out_0.log".toList, 11,
          [("out_0.log".toList, "1234567890X".toList)]) := by
  decide

/-- The size bound where the template has no index of its own (the property of
C7 away from its failing input): for every template without pattern metacharacter, without
underscore in its extension, without an index of its own and in cleaned form,
every initial directory whose files matching base*ext are all base_i.ext with
0 <= i < N, every sizeLimit L > 0 and every sequence of fully successful Writes
on a fresh writer (N plus their number at most the largest int, L plus the size
of each buffer at most the largest int): after each Write the byte count of
the open file equals currentFileSize and is below L plus the size of that
Write, and a Write that leaves the open file in place found
currentFileSize < L before it. -/
theorem size_bound_per_file (L : Lib) (hL : L.Lawful) (t : Str) (lim : Int)
    (hT : PlainTemplate t) (d0 : Disk) (N : Nat) (hown : OwnFiles t d0 N) (hlim : 0 < lim)
    (ps : List Str) (p : Str) (hb : (N : Int) + ps.length + 1 ≤ maxInt)
    (hq : ∀ q ∈ ps ++ [p], lim + (q.length : Int) ≤ maxInt) :
    ∃ o d o1 d1 f, writeAll L (NewFileOutput t lim) d0 ps = some (o, d) ∧
      o.Write L d (allOk p) p = WriteResult.returned o1 d1 (p.length : Int) false ∧
      o1.file = some f ∧ o1.currentFileSize = ((d1.content f).length : Int) ∧
      o1.currentFileSize < lim + p.length ∧
      (o1.file = o.file → o.currentFileSize < lim) := by
  have hmaxI : maxInt = 9223372036854775807 := rfl
  have hminI : minInt = -9223372036854775808 := rfl
  have hp := hq p (by simp)
  cases ps with
  | nil =>
    obtain ⟨o1, d1, m, hw, hJ, _, hsz, hc, _⟩ :=
      fresh_full L hL t lim hT d0 N hown (by simp at hb; omega) p
    have hval : o1.currentFileSize = (p.length : Int) := by
      rw [hsz, wrapInt_of_range _ (by omega) (by omega)]
      omega
    refine ⟨_, _, o1, d1, _, rfl, hw, hJ.2.2.1, by rw [hval, hc], by omega, ?_⟩
    intro e
    rw [hJ.2.2.1] at e
    cases e
  | cons q rest =>
    simp only [List.length_cons] at hb
    push_cast at hb
    have hq1 := hq q (by simp)
    obtain ⟨o1, d1, m, hw, hJ, hmN, hsz, hc, _⟩ :=
      fresh_full L hL t lim hT d0 N hown (by omega) q
    have hval : o1.currentFileSize = (q.length : Int) := by
      rw [hsz, wrapInt_of_range _ (by omega) (by omega)]
      omega
    obtain ⟨o2, d2, m2, hr, hJ2, hm2, h02, hs2⟩ :=
      run_size L hL t lim hT hlim rest o1 d1 m hJ (by omega)
        (fun x hx => hq x (by simp [hx])) (by omega) (by rw [hval, hc])
    obtain ⟨o3, d3, m3, hw3, hJ3, _, _, _, hs3, hlt3, himp⟩ :=
      size_step L hL t lim hT o2 d2 m2 hJ2 (by omega) hlim p hp h02 hs2
    refine ⟨o2, d2, o3, d3, _, ?_, hw3, hJ3.2.2.1, hs3, hlt3, himp⟩
    rw [writeAll_cons L _ d0 q rest o1 d1 _ _ hw]
    exact hr

/-- The spec scenario for size_bound_per_file: after "12345" and "67890" with sizeLimit 10
the Write of "X" replaces the open file. -/
theorem size_bound_per_file_witness :
    ∃ o d o1 d1 f, writeAll goLib (NewFileOutput "/tmp/out.log".toList 10) []
        ["12345".toList, "67890".toList] = some (o, d) ∧
      o.Write goLib d (allOk "X".toList) "X".toList
        = WriteResult.returned o1 d1 ("X".toList.length : Int) false ∧
      o1.file = some f ∧ o1.currentFileSize = ((d1.content f).length : Int) ∧
      o1.currentFileSize < 10 + "X".toList.length ∧
      (o1.file = o.file → o.currentFileSize < 10) :=
  size_bound_per_file goLib goLib_lawful "/tmp/out.log".toList 10
    ⟨by decide, by decide, by decide, by decide⟩ [] 0
    (by intro x hx; simp [Disk.names] at hx) (by decide)
    ["12345".toList, "67890".toList] "X".toList (by decide) (by decide)

/-- C8, counterexample: a fresh writer whose first open fails does not return
n = 0 and an error; the call ends in log.Fatal, which terminates the
process. -/
theorem open_failure_terminates :
    FileOutput.Write goLib (NewFileOutput "out.log".toList 0) [] ⟨false, 1⟩ "x".toList
      = WriteResult.fatal ⟨"out.log".toList, "out_0.log".toList, 0, none, none, 0, true⟩ [] := by
  decide

/-- C8 (amended): for every writer state and buffer, if Write has to open the
resolved target file (no file is open, or the open file has another name) and
opening fails, Write does not return to its caller: the process is terminated
by log.Fatal, with the disk as it was. -/
theorem open_failure_is_fatal (L : Lib) (o : FileOutput) (d : Disk) (ev : OSEvents) (p : Str)
    (hne : o.file ≠ some (o.target L d)) (hfail : ev.openOk = false) :
    o.Write L d ev p
      = WriteResult.fatal ⟨o.pathTemplate, o.target L d, 0, none, none, o.sizeLimit, true⟩ d ∧
    ∀ o1 d1 n err, o.Write L d ev p ≠ WriteResult.returned o1 d1 n err := by
  have h := Write_fatal L o d ev p hne hfail
  refine ⟨h, ?_⟩
  intro o1 d1 n err e
  rw [h] at e
  cases e

/-- C8, witness: a writer at its size limit whose next file cannot be opened. -/
theorem open_failure_is_fatal_witness :
    FileOutput.Write goLib
        ⟨"out.log".toList, "out_0.log".toList, 10, some "out_0.log".toList,
          some "out_0.log".toList, 10, true⟩
        [("out_0.log".toList, "1234567890".toList)] ⟨false, 1⟩ "X".toList
      = WriteResult.fatal
          ⟨"out.log".toList,
            FileOutput.target goLib
              ⟨"out.log".toList, "out_0.log".toList, 10, some "out_0.log".toList,
                some "out_0.log".toList, 10, true⟩
              [("out_0.log".toList, "1234567890".toList)],
            0, none, none, 10, true⟩
          [("out_0.log".toList, "1234567890".toList)] ∧
    ∀ o1 d1 n err, FileOutput.Write goLib
        ⟨"out.log".toList, "out_0.log".toList, 10, some "out_0.log".toList,
          some "out_0.log".toList, 10, true⟩
        [("out_0.log".toList, "1234567890".toList)] ⟨false, 1⟩ "X".toList
      ≠ WriteResult.returned o1 d1 n err :=
  open_failure_is_fatal goLib _ _ ⟨false, 1⟩ "X".toList (by decide) rfl

/-- C9, counterexample: template a.log, sizeLimit 0, files a_1_5.log and a_9.log
on disk, the writer alone changing the directory. The first Write targets
a_10.log (index 10); the second Write targets a_9.log (index 9), because the
listing a_10.log, a_1_5.log, a_9.log keeps a_9.log last. -/
theorem index_goes_backwards :
    (writeAll goLib (NewFileOutput "a.log".toList 0)
        [("a_1_5.log".toList, []), ("a_9.log".toList, [])]
        ["x".toList]).map (fun r => (r.1.currentName, getFileIndex r.1.currentName))
      = some ("a_10.log".toList, 10) ∧
    (writeAll goLib (NewFileOutput "a.log".toList 0)
        [("a_1_5.log".toList, []), ("a_9.log".toList, [])]
        ["x".toList, "y".toList]).map (fun r => (r.1.currentName, getFileIndex r.1.currentName))
      = some ("a_9.log".toList, 9) := by
  decide

/-- C9 (amended): for every template without pattern metacharacter, without
underscore in its extension, without an index of its own and in cleaned form,
every initial directory whose files matching base*ext are all base_i.ext with
0 <= i < N, and every sequence of Writes on one writer that return (the writer
being the only process changing the directory, N plus the number of Writes at
most the largest int), the index of the file targeted by each Write is greater
than or equal to the index of the file targeted by the previous Write. -/
theorem indices_never_go_backwards (L : Lib) (hL : L.Lawful) (t : Str) (lim : Int)
    (hT : PlainTemplate t) (d0 : Disk) (N : Nat) (hown : OwnFiles t d0 N)
    (calls : List (OSEvents × Str)) (hne : calls ≠ [])
    (hb : (N : Int) + calls.length ≤ maxInt)
    (o : FileOutput) (d : Disk) (hrun : runWrites L (NewFileOutput t lim) d0 calls = some (o, d))
    (ev : OSEvents) (p : Str) (hev : ev.openOk = true) :
    ∃ o1 d1 n err, o.Write L d ev p = WriteResult.returned o1 d1 n err ∧
      getFileIndex o.currentName ≤ getFileIndex o1.currentName := by
  have hmaxI : maxInt = 9223372036854775807 := rfl
  have hminI : minInt = -9223372036854775808 := rfl
  obtain ⟨m, hJ, hm⟩ := reach_returned L hL t lim hT d0 N hown calls hne hb o d hrun
  obtain ⟨o1, d1, n, err, m1, hw, hJ1, h1, h2⟩ :=
    Tracking_step L hL t lim hT o d m hJ (by omega) ev p hev
  refine ⟨o1, d1, n, err, hw, ?_⟩
  rw [hJ.2.2.2.2.1, hJ1.2.2.2.2.1,
    (indexedName_facts t (m : Int) (by omega) (by omega)).2.1,
    (indexedName_facts t (m1 : Int) (by omega) (by omega)).2.1]
  omega

/-- C9, witness: restart on out_0.log and out_3.log with sizeLimit 1; the first
Write targets out_4.log, the next one out_5.log. -/
theorem indices_never_go_backwards_witness :
    ∃ o1 d1 n err,
      FileOutput.Write goLib
        ⟨"out.log".toList, "out_4.log".toList, 1, some "out_4.log".toList,
          some "out_4.log".toList, 1, true⟩
        [("out_4.log".toList, "x".toList), ("out_0.log".toList, []), ("out_3.log".toList, [])]
        (allOk "y".toList) "y".toList = WriteResult.returned o1 d1 n err ∧
      getFileIndex "out_4.log".toList ≤ getFileIndex o1.currentName :=
  indices_never_go_backwards goLib goLib_lawful "out.log".toList 1
    ⟨by decide, by decide, by decide, by decide⟩
    [("out_0.log".toList, []), ("out_3.log".toList, [])] 4
    (by unfold OwnFiles; decide)
    [(allOk "x".toList, "x".toList)]
    (by decide) (by decide) _ _ (by decide) (allOk "y".toList) "y".toList rfl


/-! ## Claims about names, indices and the ordering -/

/-- C12: index round trip. For every file name and every non-negative idx
(a Go int, so at most 2^63 - 1), getFileIndex (setFileIndex name idx) = idx. -/
theorem index_round_trip (name : Str) (idx : Int) (h0 : 0 ≤ idx) (hmax : idx ≤ maxInt) :
    getFileIndex (setFileIndex name idx) = idx := by
  have hmin : minInt ≤ idx := by
    unfold minInt
    omega
  exact (setFileIndex_facts name idx hmin hmax).2.1

/-- C12, witness: the name out_7.log and the index 12. -/
theorem index_round_trip_witness :
    getFileIndex (setFileIndex "out_7.log".toList 12) = 12 :=
  index_round_trip "out_7.log".toList 12 (by decide) (by decide)

/-- C13: listing failure degrades to the raw template. For every writer state,
if filepath.Glob returns an error for the pattern of the template, filename
returns the path template unmodified; its result is a name and nothing else,
so no error is reported. -/
theorem listing_failure_returns_template (L : Lib) (o : FileOutput)
    (glob : Str → Option (List Str)) (h : glob (globPattern o.pathTemplate) = none) :
    o.filename L glob = o.pathTemplate :=
  filename_none L o glob h

/-- C13, witness: the template out[.log, whose pattern out[*.log has an unclosed
bracket, with a Match that reports such a pattern as bad, on a writer that
holds out[_1.log open at its size limit. -/
theorem listing_failure_returns_template_witness :
    Glob ⟨insertionSort, fun pat n => if pat.contains '[' then none else literalMatch pat n⟩
        [("out[_1.log".toList, "1234567890".toList)] (globPattern "out[.log".toList) = none ∧
    (⟨"out[.log".toList, "out[_1.log".toList, 10, some "out[_1.log".toList,
        some "out[_1.log".toList, 10, true⟩ : FileOutput).filename
        ⟨insertionSort, fun pat n => if pat.contains '[' then none else literalMatch pat n⟩
        (Glob ⟨insertionSort, fun pat n => if pat.contains '[' then none else literalMatch pat n⟩
          [("out[_1.log".toList, "1234567890".toList)])
      = "out[.log".toList :=
  ⟨by decide,
    listing_failure_returns_template
      ⟨insertionSort, fun pat n => if pat.contains '[' then none else literalMatch pat n⟩
      ⟨"out[.log".toList, "out[_1.log".toList, 10, some "out[_1.log".toList,
        some "out[_1.log".toList, 10, true⟩
      (Glob ⟨insertionSort, fun pat n => if pat.contains '[' then none else literalMatch pat n⟩
        [("out[_1.log".toList, "1234567890".toList)]) (by decide)⟩

/-- C17: the composite file ordering is not a strict total order. Less holds
from a_2.log to a_10.log (same un-indexed base, 2 < 10) and from a_10.log to
a_1_5.log (different bases, text order), but not from a_2.log to a_1_5.log; so
there are three names on which Less is not transitive. -/
theorem ordering_not_transitive :
    sortByFileIndex.Less "a_2.log".toList "a_10.log".toList = true ∧
    sortByFileIndex.Less "a_10.log".toList "a_1_5.log".toList = true ∧
    sortByFileIndex.Less "a_2.log".toList "a_1_5.log".toList = false ∧
    ∃ a b c : Str, sortByFileIndex.Less a b = true ∧ sortByFileIndex.Less b c = true ∧
      sortByFileIndex.Less a c = false :=
  ⟨by decide, by decide, by decide,
    "a_2.log".toList, "a_10.log".toList, "a_1_5.log".toList, by decide, by decide, by decide⟩

/-- C19: setFileIndex overwrites rather than stacks indices. For every file name
n, every i >= 0 (a Go int, so at most 2^63 - 1) and every j,
setFileIndex (setFileIndex n i) j = setFileIndex n j; in particular
setFileIndex (setFileIndex n i) i = setFileIndex n i. -/
theorem setFileIndex_overwrites (n : Str) (i j : Int) (h0 : 0 ≤ i) (hmax : i ≤ maxInt) :
    setFileIndex (setFileIndex n i) j = setFileIndex n j ∧
    setFileIndex (setFileIndex n i) i = setFileIndex n i := by
  have hmin : minInt ≤ i := by
    unfold minInt
    omega
  exact ⟨setFileIndex_setFileIndex n i j hmin hmax, setFileIndex_setFileIndex n i i hmin hmax⟩

/-- C19, witness: the name /tmp/out.log, first index 3, then index 4. -/
theorem setFileIndex_overwrites_witness :
    setFileIndex (setFileIndex "/tmp/out.log".toList 3) 4 = setFileIndex "/tmp/out.log".toList 4 ∧
    setFileIndex (setFileIndex "/tmp/out.log".toList 3) 3 = setFileIndex "/tmp/out.log".toList 3 :=
  setFileIndex_overwrites "/tmp/out.log".toList 3 4 (by decide) (by decide)


/-! ## Claims about the produced name, the target index, sizes and release -/

theorem Write_size_same (L : Lib) (o : FileOutput) (d : Disk) (ev : OSEvents) (p : Str)
    (hf : o.file = some (o.target L d)) :
    ∃ o1 d1, o.Write L d ev p = WriteResult.returned o1 d1
        ((min ev.accepted p.length : Nat) : Int) (decide (min ev.accepted p.length < p.length)) ∧
      o1.currentName = o.target L d ∧ o1.file = o.file ∧ o1.closed = o.closed ∧
      o1.currentFileSize
        = wrapInt (o.currentFileSize + ((min ev.accepted p.length : Nat) : Int)) := by
  have hre : (decide (o.file = none) || decide (o.file ≠ some (o.target L d))) = false := by
    simp [hf]
  unfold FileOutput.target at hre
  refine ⟨⟨o.pathTemplate, o.target L d,
      wrapInt (o.currentFileSize + ((min ev.accepted p.length : Nat) : Int)),
      o.file, o.writer, o.sizeLimit, o.closed⟩,
    (match o.writer with
      | some h => d.append h (p.take (min ev.accepted p.length))
      | none => d), ?_, rfl, rfl, rfl, rfl⟩
  unfold FileOutput.Write FileOutput.updateName FileOutput.closeLocked
  simp only [hre]
  rfl

/-- C11, counterexample: with the template out.log and the single file outz.log
on disk (it matches out*.log), the name resolved is outz_0.log, which is not
out_d.log for any number d: filename keeps the base of the file it found. -/
theorem produced_name_leaves_family :
    Glob goLib [("outz.log".toList, [])] (globPattern "out.log".toList)
      = some ["outz.log".toList] ∧
    (NewFileOutput "out.log".toList 0).filename goLib (Glob goLib [("outz.log".toList, [])])
      = "outz_0.log".toList ∧
    ¬ ∃ k : Int, (NewFileOutput "out.log".toList 0).filename goLib
        (Glob goLib [("outz.log".toList, [])]) = indexedName "out.log".toList k := by
  refine ⟨by decide, by decide, ?_⟩
  rintro ⟨k, hk⟩
  have h1 : (NewFileOutput "out.log".toList 0).filename goLib
      (Glob goLib [("outz.log".toList, [])]) = "outz_0.log".toList := by decide
  have h2 : baseOf "out.log".toList = "out".toList := by decide
  rw [h1] at hk
  unfold indexedName at hk
  rw [h2] at hk
  have h3 := congrArg (fun s => s.get? 3) hk
  simp at h3

/-- C11 (amended): for every template whose base carries no index, every writer
state and every successful directory listing in which each file has the
template's base in front of its index, the template's extension, and either no
index or a non-negative index below the largest int, the name returned by
filename is b + "_" + d + e for the decimal rendering d of a non-negative
integer. -/
theorem produced_name_in_family (L : Lib) (hL : L.Lawful) (o : FileOutput)
    (glob : Str → Option (List Str)) (found : List Str)
    (hglob : glob (globPattern o.pathTemplate) = some found)
    (hstem : stem o.pathTemplate = baseOf o.pathTemplate)
    (hfound : ∀ x ∈ found, stem x = baseOf o.pathTemplate ∧ Ext x = Ext o.pathTemplate ∧
      (getFileIndex x = -1 ∨ (0 ≤ getFileIndex x ∧ getFileIndex x < maxInt))) :
    ∃ k : Int, 0 ≤ k ∧ o.filename L glob = indexedName o.pathTemplate k := by
  have hmaxI : maxInt = 9223372036854775807 := rfl
  have hminI : minInt = -9223372036854775808 := rfl
  by_cases hne : found = []
  · subst hne
    refine ⟨0, le_refl 0, ?_⟩
    rw [filename_nil L o glob hglob, setFileIndex_eq, hstem]
    rfl
  · have hmem := lastOf_mem L hL found hne
    obtain ⟨hs, he, hi⟩ := hfound _ hmem
    refine ⟨targetIndex o (lastOf L found), ?_, ?_⟩
    · unfold targetIndex
      rcases hi with h | ⟨h1, h2⟩
      · simp [h]
      · have hne1 : getFileIndex (lastOf L found) ≠ -1 := by omega
        simp only [hne1, ne_eq, not_false_eq_true, if_true]
        split
        · rw [wrapInt_of_range _ (by omega) (by omega)]
          omega
        · exact h1
    · rw [filename_cons L o glob found hglob hne, setFileIndex_eq, hs, he]
      rfl

/-- C11, witness: a fresh writer on out.log with out_0.log and out_3.log on disk. -/
theorem produced_name_in_family_witness :
    ∃ k : Int, 0 ≤ k ∧
      (NewFileOutput "out.log".toList 0).filename goLib
          (Glob goLib [("out_0.log".toList, []), ("out_3.log".toList, [])])
        = indexedName (NewFileOutput "out.log".toList 0).pathTemplate k :=
  produced_name_in_family goLib goLib_lawful (NewFileOutput "out.log".toList 0)
    (Glob goLib [("out_0.log".toList, []), ("out_3.log".toList, [])])
    ["out_0.log".toList, "out_3.log".toList] (by decide) (by decide) (by decide)

/-- C15, counterexample: with the template out.log and the single file out.log on
disk, a fresh writer rotates (currentName is empty) and the file sorted last
has no index, so x = 0; the name resolved is out_0.log with index 0, not
x + 1 = 1: the increment sits inside the test for an index. -/
theorem target_index_without_index :
    Glob goLib [("out.log".toList, [])] (globPattern "out.log".toList)
      = some ["out.log".toList] ∧
    getFileIndex (lastOf goLib ["out.log".toList]) = -1 ∧
    (NewFileOutput "out.log".toList 0).nextChunk = true ∧
    (NewFileOutput "out.log".toList 0).filename goLib (Glob goLib [("out.log".toList, [])])
      = "out_0.log".toList ∧
    getFileIndex ((NewFileOutput "out.log".toList 0).filename goLib
        (Glob goLib [("out.log".toList, [])])) ≠ 0 + 1 := by
  decide

/-- C15 (amended): for every writer state and every non-empty successful
directory listing, let x be getFileIndex of the last file in the composite
ordering and rotate = (currentName is empty) or (sizeLimit > 0 and
currentFileSize >= sizeLimit). The index of the name returned by filename is 0
when that file has no index (x = -1), whether or not rotate holds; otherwise
it is x when rotate does not hold, and x + 1 when rotate holds and x is below
the largest int. -/
theorem target_index_rule (L : Lib) (o : FileOutput) (glob : Str → Option (List Str))
    (found : List Str) (hglob : glob (globPattern o.pathTemplate) = some found)
    (hne : found ≠ []) :
    (getFileIndex (lastOf L found) = -1 → getFileIndex (o.filename L glob) = 0) ∧
    (getFileIndex (lastOf L found) ≠ -1 → o.nextChunk = false →
      getFileIndex (o.filename L glob) = getFileIndex (lastOf L found)) ∧
    (getFileIndex (lastOf L found) ≠ -1 → o.nextChunk = true →
      getFileIndex (lastOf L found) < maxInt →
      getFileIndex (o.filename L glob) = getFileIndex (lastOf L found) + 1) := by
  have hmaxI : maxInt = 9223372036854775807 := rfl
  have hminI : minInt = -9223372036854775808 := rfl
  have hidx := filename_index L o glob found hglob hne
  have hr := (getFileIndex_range (lastOf L found)).1
  refine ⟨?_, ?_, ?_⟩
  · intro h
    rw [hidx]
    unfold targetIndex
    simp [h]
  · intro h hn
    rw [hidx]
    unfold targetIndex
    simp [h, hn]
  · intro h hn hlt
    rw [hidx]
    unfold targetIndex
    simp only [h, hn, ne_eq, not_false_eq_true, if_true]
    exact wrapInt_of_range _ (by omega) (by omega)

/-- C15, witness: with only out.log on disk a fresh writer resolves index 0; with
out_0.log and out_1.log on disk a writer below its limit resolves index 1 and a
writer at its limit resolves index 2. -/
theorem target_index_rule_witness :
    (getFileIndex (lastOf goLib ["out.log".toList]) = -1 ∧
      getFileIndex ((NewFileOutput "out.log".toList 0).filename goLib
        (Glob goLib [("out.log".toList, [])])) = 0) ∧
    (getFileIndex (lastOf goLib ["out_0.log".toList, "out_1.log".toList]) ≠ -1 ∧
      (⟨"out.log".toList, "out_1.log".toList, 4, some "out_1.log".toList,
          some "out_1.log".toList, 10, true⟩ : FileOutput).nextChunk = false ∧
      getFileIndex ((⟨"out.log".toList, "out_1.log".toList, 4, some "out_1.log".toList,
          some "out_1.log".toList, 10, true⟩ : FileOutput).filename goLib
        (Glob goLib [("out_0.log".toList, []), ("out_1.log".toList, "1234".toList)]))
        = getFileIndex (lastOf goLib ["out_0.log".toList, "out_1.log".toList])) ∧
    (getFileIndex (lastOf goLib ["out_0.log".toList, "out_1.log".toList]) ≠ -1 ∧
      (⟨"out.log".toList, "out_1.log".toList, 10, some "out_1.log".toList,
          some "out_1.log".toList, 10, true⟩ : FileOutput).nextChunk = true ∧
      getFileIndex (lastOf goLib ["out_0.log".toList, "out_1.log".toList]) < maxInt ∧
      getFileIndex ((⟨"out.log".toList, "out_1.log".toList, 10, some "out_1.log".toList,
          some "out_1.log".toList, 10, true⟩ : FileOutput).filename goLib
        (Glob goLib [("out_0.log".toList, []), ("out_1.log".toList, "1234567890".toList)]))
        = getFileIndex (lastOf goLib ["out_0.log".toList, "out_1.log".toList]) + 1) :=
  ⟨⟨by decide,
      (target_index_rule goLib (NewFileOutput "out.log".toList 0)
        (Glob goLib [("out.log".toList, [])]) ["out.log".toList]
        (by decide) (by decide)).1 (by decide)⟩,
    ⟨by decide, by decide,
      (target_index_rule goLib
        ⟨"out.log".toList, "out_1.log".toList, 4, some "out_1.log".toList,
          some "out_1.log".toList, 10, true⟩
        (Glob goLib [("out_0.log".toList, []), ("out_1.log".toList, "1234".toList)])
        ["out_0.log".toList, "out_1.log".toList]
        (by decide) (by decide)).2.1 (by decide) (by decide)⟩,
    ⟨by decide, by decide, by decide,
      (target_index_rule goLib
        ⟨"out.log".toList, "out_1.log".toList, 10, some "out_1.log".toList,
          some "out_1.log".toList, 10, true⟩
        (Glob goLib [("out_0.log".toList, []), ("out_1.log".toList, "1234567890".toList)])
        ["out_0.log".toList, "out_1.log".toList]
        (by decide) (by decide)).2.2 (by decide) (by decide) (by decide)⟩⟩


/-- C16: size accounting. For every writer state and buffer (of a length that is
a Go int), a Write that replaces the open file (none was open, or one with
another name) and can open the target returns n and leaves currentFileSize = n;
a Write that keeps the open file returns n and leaves currentFileSize equal to
the previous currentFileSize + n, the sum being Go's int addition (wrapInt of
the sum), which is the exact sum whenever that is a Go int. So the counter is
reset to 0 exactly when the open file is replaced. -/
theorem size_accounting (L : Lib) (o : FileOutput) (d : Disk) (ev : OSEvents) (p : Str)
    (hp : (p.length : Int) ≤ maxInt) :
    (o.file ≠ some (o.target L d) → ev.openOk = true →
      ∃ o1 d1, o.Write L d ev p = WriteResult.returned o1 d1
          ((min ev.accepted p.length : Nat) : Int)
          (decide (min ev.accepted p.length < p.length)) ∧
        o1.file = some (o.target L d) ∧
        o1.currentFileSize = ((min ev.accepted p.length : Nat) : Int)) ∧
    (o.file = some (o.target L d) →
      ∃ o1 d1, o.Write L d ev p = WriteResult.returned o1 d1
          ((min ev.accepted p.length : Nat) : Int)
          (decide (min ev.accepted p.length < p.length)) ∧
        o1.file = o.file ∧
        o1.currentFileSize
          = wrapInt (o.currentFileSize + ((min ev.accepted p.length : Nat) : Int)) ∧
        (minInt ≤ o.currentFileSize + ((min ev.accepted p.length : Nat) : Int) →
          o.currentFileSize + ((min ev.accepted p.length : Nat) : Int) ≤ maxInt →
          o1.currentFileSize
            = o.currentFileSize + ((min ev.accepted p.length : Nat) : Int))) := by
  have hmaxI : maxInt = 9223372036854775807 := rfl
  have hminI : minInt = -9223372036854775808 := rfl
  constructor
  · intro hne hok
    refine ⟨_, _, Write_reopen L o d ev p hne hok, rfl, ?_⟩
    show wrapInt (0 + ((min ev.accepted p.length : Nat) : Int)) = _
    have hle : ((min ev.accepted p.length : Nat) : Int) ≤ (p.length : Int) := by
      have : min ev.accepted p.length ≤ p.length := Nat.min_le_right _ _
      omega
    rw [wrapInt_of_range _ (by omega) (by omega)]
    omega
  · intro hf
    obtain ⟨o1, d1, hw, _, hfile, _, hsz⟩ := Write_size_same L o d ev p hf
    refine ⟨o1, d1, hw, hfile, hsz, ?_⟩
    intro h1 h2
    rw [hsz, wrapInt_of_range _ h1 h2]

/-- C16, witness: with /tmp/out_0.log open at size 5 under the limit 10, a Write
of 5 bytes keeps the file and brings currentFileSize to 5 + 5; a first Write of
5 bytes on a fresh writer opens /tmp/out_0.log and leaves currentFileSize = 5. -/
theorem size_accounting_witness :
    ((NewFileOutput "/tmp/out.log".toList 10).file
        ≠ some ((NewFileOutput "/tmp/out.log".toList 10).target goLib []) ∧
      (allOk "12345".toList).openOk = true ∧
      ∃ o1 d1, (NewFileOutput "/tmp/out.log".toList 10).Write goLib []
          (allOk "12345".toList) "12345".toList
          = WriteResult.returned o1 d1
            ((min (allOk "12345".toList).accepted "12345".toList.length : Nat) : Int)
            (decide (min (allOk "12345".toList).accepted "12345".toList.length
              < "12345".toList.length)) ∧
        o1.file = some ((NewFileOutput "/tmp/out.log".toList 10).target goLib []) ∧
        o1.currentFileSize
          = ((min (allOk "12345".toList).accepted "12345".toList.length : Nat) : Int)) ∧
    ((⟨"/tmp/out.log".toList, "/tmp/out_0.log".toList, 5, some "/tmp/out_0.log".toList,
        some "/tmp/out_0.log".toList, 10, true⟩ : FileOutput).file
        = some (FileOutput.target goLib
          ⟨"/tmp/out.log".toList, "/tmp/out_0.log".toList, 5, some "/tmp/out_0.log".toList,
            some "/tmp/out_0.log".toList, 10, true⟩
          [("/tmp/out_0.log".toList, "12345".toList)]) ∧
      ∃ o1 d1, FileOutput.Write goLib
          ⟨"/tmp/out.log".toList, "/tmp/out_0.log".toList, 5, some "/tmp/out_0.log".toList,
            some "/tmp/out_0.log".toList, 10, true⟩
          [("/tmp/out_0.log".toList, "12345".toList)] (allOk "67890".toList) "67890".toList
          = WriteResult.returned o1 d1
            ((min (allOk "67890".toList).accepted "67890".toList.length : Nat) : Int)
            (decide (min (allOk "67890".toList).accepted "67890".toList.length
              < "67890".toList.length)) ∧
        o1.file = some "/tmp/out_0.log".toList ∧
        o1.currentFileSize
          = wrapInt (5 + ((min (allOk "67890".toList).accepted "67890".toList.length : Nat) : Int)) ∧
        (minInt ≤ 5 + ((min (allOk "67890".toList).accepted "67890".toList.length : Nat) : Int) →
          5 + ((min (allOk "67890".toList).accepted "67890".toList.length : Nat) : Int) ≤ maxInt →
          o1.currentFileSize
            = 5 + ((min (allOk "67890".toList).accepted "67890".toList.length : Nat) : Int))) :=
  ⟨⟨by decide, by decide,
      (size_accounting goLib (NewFileOutput "/tmp/out.log".toList 10) []
        (allOk "12345".toList) "12345".toList (by decide)).1 (by decide) (by decide)⟩,
    ⟨by decide,
      (size_accounting goLib
        ⟨"/tmp/out.log".toList, "/tmp/out_0.log".toList, 5, some "/tmp/out_0.log".toList,
          some "/tmp/out_0.log".toList, 10, true⟩
        [("/tmp/out_0.log".toList, "12345".toList)] (allOk "67890".toList) "67890".toList
        (by decide)).2 (by decide)⟩⟩

/-- C18, counterexample: on a writer that has never opened a file closeLocked
changes the field closed from false to true. And on a writer that holds
out_0.log, closeLocked calls Close and leaves the field file as it was, so that
a second closeLocked calls Close on the released handle again. -/
theorem release_changes_fresh_writer :
    (NewFileOutput "out.log".toList 0).file = none ∧
    (NewFileOutput "out.log".toList 0).closed = false ∧
    (NewFileOutput "out.log".toList 0).closeLockedCall.err = none ∧
    (NewFileOutput "out.log".toList 0).closeLockedCall.after.closed = true ∧
    (NewFileOutput "out.log".toList 0).closeLockedCall.after ≠ NewFileOutput "out.log".toList 0 ∧
    (FileOutput.closeLockedCall ⟨"out.log".toList, "out_0.log".toList, 5,
        some "out_0.log".toList, some "out_0.log".toList, 0, true⟩).closeCalled = true ∧
    (FileOutput.closeLockedCall ⟨"out.log".toList, "out_0.log".toList, 5,
        some "out_0.log".toList, some "out_0.log".toList, 0, true⟩).after.file
      = some "out_0.log".toList ∧
    (FileOutput.closeLockedCall ⟨"out.log".toList, "out_0.log".toList, 5,
        some "out_0.log".toList, some "out_0.log".toList, 0, true⟩).after.closeLockedCall.closeCalled
      = true := by
  decide

/-- C18 (amended): for every writer state closeLocked returns no error, leaves
pathTemplate, currentName, file, writer and sizeLimit unchanged, sets closed to
true and currentFileSize to 0, and calls Close on no handle when file is nil.
So it leaves every field unchanged exactly when closed is already true and
currentFileSize is already 0 (a writer released before); on a writer that has
never opened a file it turns closed from false to true. -/
theorem release_effect (o : FileOutput) :
    o.closeLockedCall.err = none ∧ o.closeLockedCall.after = o.closeLocked ∧
    o.closeLocked.pathTemplate = o.pathTemplate ∧ o.closeLocked.currentName = o.currentName ∧
    o.closeLocked.file = o.file ∧ o.closeLocked.writer = o.writer ∧
    o.closeLocked.sizeLimit = o.sizeLimit ∧
    o.closeLocked.closed = true ∧ o.closeLocked.currentFileSize = 0 ∧
    (o.file = none → o.closeLockedCall.closeCalled = false) ∧
    (o.closeLocked = o ↔ o.closed = true ∧ o.currentFileSize = 0) := by
  refine ⟨rfl, rfl, rfl, rfl, rfl, rfl, rfl, rfl, rfl, ?_, ?_⟩
  · intro h
    simp [FileOutput.closeLockedCall, h]
  · constructor
    · intro h
      have h1 : o.closeLocked.closed = o.closed := by rw [h]
      have h2 : o.closeLocked.currentFileSize = o.currentFileSize := by rw [h]
      exact ⟨h1.symm, h2.symm⟩
    · rintro ⟨h1, h2⟩
      cases o
      simp only [FileOutput.closeLocked] at h1 h2 ⊢
      subst h1
      subst h2
      rfl

/-- C18, witness: release on a writer released before, and on a fresh writer. -/
theorem release_effect_witness :
    FileOutput.closeLocked ⟨"out.log".toList, "out_0.log".toList, 0, none, none, 0, true⟩
      = ⟨"out.log".toList, "out_0.log".toList, 0, none, none, 0, true⟩ ∧
    (NewFileOutput "out.log".toList 0).closeLockedCall.err = none ∧
    (NewFileOutput "out.log".toList 0).closeLockedCall.closeCalled = false :=
  ⟨(release_effect ⟨"out.log".toList, "out_0.log".toList, 0, none, none, 0, true⟩).2.2.2.2.2.2.2.2.2.2.mpr
      ⟨rfl, rfl⟩,
    (release_effect (NewFileOutput "out.log".toList 0)).1,
    (release_effect (NewFileOutput "out.log".toList 0)).2.2.2.2.2.2.2.2.2.1 rfl⟩


/-! ## Concurrent calls of Write -/

theorem Write_eq_writeLocked (L : Lib) (o : FileOutput) (d : Disk) (ev : OSEvents) (p : Str) :
    o.Write L d ev p = (o.updateName L d).writeLocked d ev p := rfl

theorem get?_some_lt {α : Type} (l : List α) (i : Nat) (a : α) (h : l.get? i = some a) :
    i < l.length := by
  by_contra hn
  have : l.get? i = none := List.get?_eq_none.mpr (by omega)
  rw [this] at h
  cases h

/-- A call that takes its three holds of the mutex together is the
sequential Write. -/
theorem run_unit (L : Lib) (s : Sys) (i : Nat) (ev : OSEvents) (p : Str)
    (h : s.calls.get? i = some ⟨ev, p, CallState.called⟩) :
    runSchedule L s [i, i, i] =
      match s.o.Write L s.d ev p with
      | WriteResult.returned o1 d1 n err =>
        some ⟨o1, d1, s.calls.set i ⟨ev, p, CallState.returned n err⟩⟩
      | WriteResult.fatal _ _ => none := by
  have hlt := get?_some_lt _ _ _ h
  have hg : ∀ c : Call, (s.calls.set i c).get? i = some c := by
    intro c
    rw [List.get?_eq_getElem?, List.getElem?_set_self hlt]
  have hg2 : ∀ c1 c2 : Call, ((s.calls.set i c1).set i c2).get? i = some c2 := by
    intro c1 c2
    rw [List.set_set]
    exact hg c2
  rw [Write_eq_writeLocked]
  simp only [runSchedule, Sys.step, h, Call.step, hg, hg2, FileOutput.updateName]
  cases (FileOutput.writeLocked
      { s.o with currentName := Clean (s.o.filename L (Glob L s.d)) } s.d ev p) with
  | fatal o1 d1 => rfl
  | returned o1 d1 n err => simp [List.set_set]

/-- C14, failing input: three concurrent Writes of "x", "y", "z" on a fresh
writer with template out.log and sizeLimit 1 in an empty directory, the mutex
taken by the calls in the order 0, 1, 0, 0, 2, 2, 2, 1, 1. Call 1 resolves
out_0.log before anything is on disk; calls 0 and 2 then write x to out_0.log
and z to out_1.log; only then call 1 stores its stale name and writes, which
reopens out_0.log and truncates it. All three calls return 1 and no error, the
disk ends with out_0.log = y and out_1.log = z, and x is lost; run one after
the other in any order, the three calls leave three bytes on disk. -/
theorem write_sections_interleave :
    runsAsUnits [0, 1, 0, 0, 2, 2, 2, 1, 1] = false ∧
    (runSchedule goLib (concurrentWrites (NewFileOutput "out.log".toList 1) []
        (fullCalls ["x".toList, "y".toList, "z".toList])) [0, 1, 0, 0, 2, 2, 2]).map
        (fun s => (s.d, s.o.file, s.calls.map (fun c => c.state)))
      = some ([("out_1.log".toList, "z".toList), ("out_0.log".toList, "x".toList)],
          some "out_1.log".toList,
          [CallState.returned 1 false, CallState.resolved "out_0.log".toList,
            CallState.returned 1 false]) ∧
    (runSchedule goLib (concurrentWrites (NewFileOutput "out.log".toList 1) []
        (fullCalls ["x".toList, "y".toList, "z".toList])) [0, 1, 0, 0, 2, 2, 2, 1, 1]).map
        (fun s => (s.d, s.o.file, s.calls.map (fun c => c.state)))
      = some ([("out_0.log".toList, "y".toList), ("out_1.log".toList, "z".toList)],
          some "out_0.log".toList,
          [CallState.returned 1 false, CallState.returned 1 false,
            CallState.returned 1 false]) ∧
    (∀ order ∈ [[0, 1, 2], [0, 2, 1], [1, 0, 2], [1, 2, 0], [2, 0, 1], [2, 1, 0]],
      runsAsUnits (unitSchedule order) = true ∧
      (runSchedule goLib (concurrentWrites (NewFileOutput "out.log".toList 1) []
        (fullCalls ["x".toList, "y".toList, "z".toList])) (unitSchedule order)).map
        (fun s => s.d.bytes) = some 3) := by
  refine ⟨by decide, by decide, by decide, ?_⟩
  intro order h
  simp only [List.mem_cons, List.mem_singleton, List.not_mem_nil, or_false] at h
  rcases h with h | h | h | h | h | h <;> subst h <;> decide

end PacketStreamer
